import Mathlib

/-!
Districting: the optimisation engine around the Hess model.

A shallow embedding of `hess/lagrange.cpp` (the Lagrangian evaluator `eugene_inner` and the
deducer `lagrangianBasedSafeFixing`), of the model builders and heuristics of `src/hess.cpp`,
of the translation of the solution in `hess/main.cpp` and of `SimpleRNG` (`src/rng.cpp`).

Conventions of the embedding.
* `double` values are exact rationals (`ℚ`); `int` values are integers (`ℤ`). The keys
  `n*i + j` of the hash map `h`, the one `int` expression that leaves the range of `int` for
  admissible inputs (from `n = 46341` units on), are 32-bit values (`int32`, `pairKey`).
* A `vector` indexed by units is a function on `Nat`; the number of units `n` (`g->nr_nodes`)
  is passed explicitly and every loop `for (i = 0; i < n; ++i)` is a fold over `List.range n`.
* An array that the source mutates in place is threaded through the folds with
  `Function.update`.
* The solver behind `model.optimize()` is a script of replies, one for each call; a reply
  may be any status with any values, or an exception.
* A `while` loop without a bound in the source (the DFS of `ContiguityHeuristic`) takes a
  number of passes allowed; that a number of passes suffices is proved with the loop.
-/

namespace Districting

/-! ## The macros of `lagrange.cpp` -/

/-- The source's `#define min(a,b) (((a)<(b))?(a):(b))`. -/
def cmin (a b : ℚ) : ℚ := if a < b then a else b

/-- The source's `#define max(a,b) (((a)>(b))?(a):(b))`. -/
def cmax (a b : ℚ) : ℚ := if a > b then a else b

/-- The source's `#define abs(x) (((x)>0)?(x):(-(x)))`. -/
def cabs (x : ℚ) : ℚ := if x > 0 then x else -x

/-! ## `eugene_inner` -/

/-- `const double *alpha = multipliers;` -/
def alpha (multipliers : Nat → ℚ) (i : Nat) : ℚ := multipliers i

/-- `const double *lambda = multipliers + g->nr_nodes;` -/
def lambda (n : Nat) (multipliers : Nat → ℚ) (j : Nat) : ℚ := multipliers (n + j)

/-- `const double *upsilon = multipliers + 2 * g->nr_nodes;` -/
def upsilon (n : Nat) (multipliers : Nat → ℚ) (j : Nat) : ℚ := multipliers (2 * n + j)

/-- The entry `w_hat[i][j]` written by the first double loop of `eugene_inner`. -/
def w_hat (n : Nat) (multipliers : Nat → ℚ) (L U : ℤ) (population : Nat → ℤ)
    (w : Nat → Nat → ℚ) (i j : Nat) : ℚ :=
  let pOverL : ℚ := (population i : ℚ) / (L : ℚ)
  let pOverU : ℚ := (population i : ℚ) / (U : ℚ)
  let v : ℚ := w i j - alpha multipliers i - cabs (lambda n multipliers j) * pOverL
    + cabs (upsilon n multipliers j) * pOverU
  if i = j then v + (cabs (lambda n multipliers j) - cabs (upsilon n multipliers j)) else v

/-- The entry `W[j]` written by the second loop of `eugene_inner`: it starts from
`w_hat[j][j]` and runs over `i = 0 .. n-1`, skipping `i = j` and the pairs in `F_0`, adding
`w_hat[i][j]` for the pairs in `F_1` and `min(0., w_hat[i][j])` otherwise. -/
def W_val (n : Nat) (F_0 F_1 : Nat → Nat → Bool) (wh : Nat → Nat → ℚ) (j : Nat) : ℚ :=
  (List.range n).foldl
    (fun acc i =>
      if i ≠ j then
        if F_0 i j then acc
        else if F_1 i j then acc + wh i j
        else acc + cmin 0 (wh i j)
      else acc)
    (wh j j)

/-- The promotion of a `bool` to `int` in `F_0[i][i] + 2*F_1[i][i]`. -/
def boolToInt (b : Bool) : ℤ := if b then 1 else 0

/-- The comparator handed to `std::sort` in `eugene_inner`. -/
def W_comp (F_0 F_1 : Nat → Nat → Bool) (W : Nat → ℚ) (i1 i2 : Nat) : Bool :=
  if boolToInt (F_0 i1 i1) + 2 * boolToInt (F_1 i1 i1)
      = boolToInt (F_0 i2 i2) + 2 * boolToInt (F_1 i2 i2) then
    decide (W i1 < W i2)
  else
    F_1 i1 i1 || F_0 i2 i2

/-- Insertion of `a` into a list sorted by the strict comparator `lt`: `a` goes before the
first element that is not smaller than it. -/
def insertSorted (lt : Nat → Nat → Bool) (a : Nat) : List Nat → List Nat
  | [] => [a]
  | b :: l => if lt b a then b :: insertSorted lt a l else a :: b :: l

/-- `std::sort(first, last, lt)`, modelled by the stable insertion sort. The C++ standard
leaves the order of equivalent elements open; the properties proved below of the sorted list
(`sortBy_perm`, `sortBy_pairwise`) are the ones every implementation guarantees. -/
def sortBy (lt : Nat → Nat → Bool) : List Nat → List Nat
  | [] => []
  | a :: l => insertSorted lt a (sortBy lt l)

/-- `W_indices` after the call of `std::sort`: the indices `0 .. n-1` ordered by `W_comp`. -/
def W_indices (n : Nat) (F_0 F_1 : Nat → Nat → Bool) (W : Nat → ℚ) : List Nat :=
  sortBy (W_comp F_0 F_1 W) (List.range n)

/-- The test `i == W_indices[j] || w_hat[i][W_indices[j]] < 0` of the gradient loops, with
`c = W_indices[j]`. -/
def counted (wh : Nat → Nat → ℚ) (i c : Nat) : Bool := decide (i = c) || decide (wh i c < 0)

/-- The outputs of `eugene_inner` (its reference and pointer parameters). -/
structure EugeneOut where
  /-- the reduced costs -/
  w_hat : Nat → Nat → ℚ
  /-- the column weights -/
  W : Nat → ℚ
  /-- the gradient, an array of length `3 * n` -/
  grad : Nat → ℚ
  /-- the value of the Lagrangian -/
  f_val : ℚ
  /-- the selected centers -/
  S : Nat → Bool

/-- The part of `eugene_inner` after the sort (`// compute f_val` and `// compute grad`),
as a function of the sorted index list `idx`. -/
def eugene_tail (n : Nat) (multipliers : Nat → ℚ) (L U : ℤ) (k : Nat) (population : Nat → ℤ)
    (wh : Nat → Nat → ℚ) (W : Nat → ℚ) (idx : List Nat) : EugeneOut :=
  let sel : List Nat := idx.take k
  -- compute f_val
  let f0 : ℚ := (List.range n).foldl (fun acc i => acc + alpha multipliers i) 0
  let f_val : ℚ := sel.foldl (fun acc c => acc + W c) f0
  let S : Nat → Bool := sel.foldl (fun S c => Function.update S c true) (fun _ => false)
  -- compute grad: A
  let gA : Nat → ℚ := (List.range n).foldl
    (fun g i => Function.update g i
      (sel.foldl (fun acc c => if counted wh i c then acc - 1 else acc) 1))
    (fun _ => 0)
  let gZ : Nat → ℚ := (List.range n).foldl
    (fun g i => Function.update (Function.update g (i + n) 0) (i + 2 * n) 0) gA
  -- L
  let gL : Nat → ℚ := sel.foldl
    (fun g c => Function.update g (n + c)
      ((List.range n).foldl
        (fun acc i => if counted wh i c then acc - (population i : ℚ) / (L : ℚ) else acc) 1))
    gZ
  -- U
  let gU : Nat → ℚ := sel.foldl
    (fun g c => Function.update g (2 * n + c)
      ((List.range n).foldl
        (fun acc i => if counted wh i c then acc + (population i : ℚ) / (U : ℚ) else acc) (-1)))
    gL
  -- signify the gradient: L
  let gSL : Nat → ℚ := (List.range n).foldl
    (fun g i => if lambda n multipliers i < 0 then Function.update g (i + n) (-(g (i + n))) else g)
    gU
  -- U
  let gSU : Nat → ℚ := (List.range n).foldl
    (fun g i =>
      if upsilon n multipliers i < 0 then Function.update g (i + 2 * n) (-(g (i + 2 * n))) else g)
    gSL
  { w_hat := wh, W := W, grad := gSU, f_val := f_val, S := S }

/-- The function `eugene_inner` of `lagrange.cpp`. -/
def eugene_inner (n : Nat) (multipliers : Nat → ℚ) (L U : ℤ) (k : Nat) (population : Nat → ℤ)
    (w : Nat → Nat → ℚ) (F_0 F_1 : Nat → Nat → Bool) : EugeneOut :=
  let wh := w_hat n multipliers L U population w
  let W := W_val n F_0 F_1 wh
  eugene_tail n multipliers L U k population wh W (W_indices n F_0 F_1 W)

/-- The increment that unit `i` contributes to `W[j]`. -/
def contribution (F_0 F_1 : Nat → Nat → Bool) (wh : Nat → Nat → ℚ) (i j : Nat) : ℚ :=
  if i = j then 0 else if F_0 i j then 0 else if F_1 i j then wh i j else min 0 (wh i j)


/-- The position of index `j` in the order of `W_comp`: the indices with `F_1[j][j]` come
first, those with `F_0[j][j]` last, the free ones in between. -/
def fixRank (F_0 F_1 : Nat → Nat → Bool) (j : Nat) : Nat :=
  if F_1 j j then 0 else if F_0 j j then 2 else 1

/-! ## The Hess model -/

/-- The 0/1 matrix `x` is feasible for the Hess model: every unit is assigned once (b), there
are exactly `k` centers (c), the population of a district is between `L` and `U` (d) and a
unit is assigned only to a center (e). -/
def HessFeasible (n k : Nat) (L U : ℤ) (population : Nat → ℤ) (x : Nat → Nat → Bool) : Prop :=
  (∀ i < n, ((Finset.range n).filter (fun j => x i j = true)).card = 1) ∧
  ((Finset.range n).filter (fun j => x j j = true)).card = k ∧
  (∀ i < n, ∀ j < n, x i j = true → x j j = true) ∧
  (∀ j < n, L * boolToInt (x j j) ≤ ∑ i in Finset.range n, population i * boolToInt (x i j)) ∧
  (∀ j < n, ∑ i in Finset.range n, population i * boolToInt (x i j) ≤ U * boolToInt (x j j))

instance (n k : Nat) (L U : ℤ) (population : Nat → ℤ) (x : Nat → Nat → Bool) :
    Decidable (HessFeasible n k L U population x) := by
  unfold HessFeasible; infer_instance

/-- The objective of the Hess model, `∑ w[i][j] * x[i][j]`. -/
def hessCost (n : Nat) (w : Nat → Nat → ℚ) (x : Nat → Nat → Bool) : ℚ :=
  ∑ i in Finset.range n, ∑ j in Finset.range n, if x i j then w i j else 0

/-- The matrix `x` agrees with the fixing tables. -/
def AgreesWith (n : Nat) (F_0 F_1 : Nat → Nat → Bool) (x : Nat → Nat → Bool) : Prop :=
  ∀ i < n, ∀ j < n, (F_0 i j = true → x i j = false) ∧ (F_1 i j = true → x i j = true)

instance (n : Nat) (F_0 F_1 x : Nat → Nat → Bool) : Decidable (AgreesWith n F_0 F_1 x) := by
  unfold AgreesWith; infer_instance

/-- The four invariants of the fixing tables (data model). -/
def TablesOK (n k : Nat) (F_0 F_1 : Nat → Nat → Bool) : Prop :=
  (∀ i < n, ∀ j < n, ¬(F_0 i j = true ∧ F_1 i j = true)) ∧
  (∀ i < n, ∀ j < n, F_1 i j = true → F_1 j j = true) ∧
  (∀ i < n, ∀ j < n, F_0 j j = true → F_0 i j = true) ∧
  ((Finset.range n).filter (fun j => F_1 j j = true)).card ≤ k ∧
  k ≤ ((Finset.range n).filter (fun j => F_0 j j = false)).card

instance (n k : Nat) (F_0 F_1 : Nat → Nat → Bool) : Decidable (TablesOK n k F_0 F_1) := by
  unfold TablesOK; infer_instance

/-- The centers of `x`. -/
def centersOf (n : Nat) (x : Nat → Nat → Bool) : Finset Nat :=
  (Finset.range n).filter (fun j => x j j = true)

/-- What `std::sort` guarantees of `W_indices`: it is a rearrangement of `0 .. n-1` in which
no element is smaller (for `W_comp`) than an element before it. -/
def IsSortedIndices (n : Nat) (F_0 F_1 : Nat → Nat → Bool) (W : Nat → ℚ) (idx : List Nat) :
    Prop :=
  idx.Perm (List.range n) ∧ idx.Pairwise (fun a b => W_comp F_0 F_1 W b a = false)

/-- The reduced cost of column `j` under the matrix `x`. -/
def colCost (n : Nat) (wh : Nat → Nat → ℚ) (x : Nat → Nat → Bool) (j : Nat) : ℚ :=
  ∑ i in Finset.range n, if x i j then wh i j else 0

/-- What the pair `(i, j)` costs under `x` beyond its share of `W[j]`, in a column whose
center is open. -/
def excess (F_0 F_1 : Nat → Nat → Bool) (wh : Nat → Nat → ℚ) (x : Nat → Nat → Bool)
    (i j : Nat) : ℚ :=
  (if x i j then wh i j else 0) - contribution F_0 F_1 wh i j - (if i = j then wh j j else 0)

/-! ## Concrete instances (the scenarios of the specification) -/

/-- `get_objective_coefficient` of `hess.cpp`: `(dist/1000) * (dist/1000) * population`. -/
def get_objective_coefficient (dist : Nat → Nat → ℤ) (population : Nat → ℤ) (i j : Nat) : ℚ :=
  ((dist i j : ℚ) / 1000) * ((dist i j : ℚ) / 1000) * (population i : ℚ)

/-- Unit distances: `1` between distinct units, `0` on the diagonal. -/
def unitDist (i j : Nat) : ℤ := if i = j then 0 else 1

/-- The populations of scenario 2, `p = (10, 10, 10, 10)`. -/
def pop10 (_ : Nat) : ℤ := 10

/-- The cost matrix of scenario 2. -/
def w_scenario2 : Nat → Nat → ℚ := get_objective_coefficient unitDist pop10

/-- The empty fixing table. -/
def noFix (_ _ : Nat) : Bool := false

/-- The zero multiplier vector. -/
def mu0 (_ : Nat) : ℚ := 0

/-- The plan `σ = (0, 0, 3, 3)` of scenario 2 as a 0/1 matrix. -/
def x_scenario2 (i j : Nat) : Bool := decide (j = if i < 2 then 0 else 3)

/-- A fixing table that forbids column `0`. -/
def F0_col0 (_ j : Nat) : Bool := decide (j = 0)

/-- A fixing table that forces unit `3` to be a center. -/
def F1_center3 (i j : Nat) : Bool := decide (i = 3 ∧ j = 3)

/-- The value that the loop `// L` of `eugene_inner` stores for a selected center `j`. -/
def residualL (n : Nat) (L : ℤ) (population : Nat → ℤ) (wh : Nat → Nat → ℚ) (j : Nat) : ℚ :=
  1 - ∑ i in Finset.range n, (if counted wh i j then (population i : ℚ) / (L : ℚ) else 0)

/-- The value that the loop `//U` of `eugene_inner` stores for a selected center `j`. -/
def residualU (n : Nat) (U : ℤ) (population : Nat → ℤ) (wh : Nat → Nat → ℚ) (j : Nat) : ℚ :=
  -1 + ∑ i in Finset.range n, (if counted wh i j then (population i : ℚ) / (U : ℚ) else 0)

/-- The multiplier `mu'` keeps the signs of the population multipliers of `mu`: where a
component of the `lambda` or `upsilon` block of `mu` is negative, the one of `mu'` is not
positive, and where it is non-negative, the one of `mu'` is non-negative. -/
def SignCompatible (n : Nat) (mu mu' : Nat → ℚ) : Prop :=
  ∀ j < n,
    (lambda n mu j < 0 → lambda n mu' j ≤ 0) ∧ (0 ≤ lambda n mu j → 0 ≤ lambda n mu' j) ∧
    (upsilon n mu j < 0 → upsilon n mu' j ≤ 0) ∧ (0 ≤ upsilon n mu j → 0 ≤ upsilon n mu' j)

instance (n : Nat) (mu mu' : Nat → ℚ) : Decidable (SignCompatible n mu mu') := by
  unfold SignCompatible; infer_instance

/-- The multiplier vector of scenario 2 with `alpha = (1, 1, 1, 1)` and `lambda = upsilon = 0`. -/
def mu_alpha1 (t : Nat) : ℚ := if t < 4 then 1 else 0

/-! ## `lagrangianBasedSafeFixing` -/

/-- The assignment `F[i][j] = true` to a table. -/
def setTrue (F : Nat → Nat → Bool) (i j : Nat) : Nat → Nat → Bool :=
  Function.update F i (Function.update (F i) j true)

/-- `max(maxW, v)` with the macro `max`; `none` is the initial value `-INFINITY`. -/
def maxInf (maxW : Option ℚ) (v : ℚ) : Option ℚ :=
  match maxW with
  | none => some v
  | some a => some (cmax a v)

/-- `min(minW, v)` with the macro `min`; `none` is the initial value `INFINITY`. -/
def minInf (minW : Option ℚ) (v : ℚ) : Option ℚ :=
  match minW with
  | none => some v
  | some a => some (cmin a v)

/-- `a - maxW`: for `maxW = -INFINITY` the difference is `+INFINITY` (`none`). -/
def infSub (a : ℚ) (maxW : Option ℚ) : Option ℚ := maxW.map (fun m => a - m)

/-- `e + b` for a value `e` that may be `+INFINITY` (`none`). -/
def infAdd (e : Option ℚ) (b : ℚ) : Option ℚ := e.map (fun v => v + b)

/-- `a + minW`: for `minW = INFINITY` the sum is `+INFINITY` (`none`). -/
def infRAdd (a : ℚ) (minW : Option ℚ) : Option ℚ := minW.map (fun m => a + m)

/-- `e > UB` for a value `e` that may be `+INFINITY` (`none`) and a finite `UB`. -/
def infGt (e : Option ℚ) (UB : ℚ) : Bool :=
  match e with
  | none => true
  | some v => decide (v > UB)

/-- The first loop of `lagrangianBasedSafeFixing`: `maxW` over the `i` with
`S[i] && !F_1[i][i]`. -/
def compute_maxW (n : Nat) (F_1 : Nat → Nat → Bool) (W : Nat → ℚ) (S : Nat → Bool) : Option ℚ :=
  (List.range n).foldl (fun m i => if S i && !F_1 i i then maxInf m (W i) else m) none

/-- The second loop of `lagrangianBasedSafeFixing`: `minW` over the `i` with
`!S[i] && !F_0[i][i]`. -/
def compute_minW (n : Nat) (F_0 : Nat → Nat → Bool) (W : Nat → ℚ) (S : Nat → Bool) : Option ℚ :=
  (List.range n).foldl (fun m i => if !S i && !F_0 i i then minInf m (W i) else m) none

/-- The loop `// fix some vars x_ij to zero?` of `lagrangianBasedSafeFixing`. -/
def fixZeros (n : Nat) (W : Nat → ℚ) (S : Nat → Bool) (f_val UB : ℚ) (w_hat : Nat → Nat → ℚ)
    (maxW : Option ℚ) (F_0 : Nat → Nat → Bool) : Nat → Nat → Bool :=
  (List.range n).foldl
    (fun F j =>
      if !S j && infGt (infSub (f_val + W j) maxW) UB then
        (List.range n).foldl (fun F i => setTrue F i j) F
      else
        (List.range n).foldl
          (fun F i =>
            if i = j then F
            else
              let F' :=
                if !S j && infGt (infAdd (infSub (f_val + W j) maxW) (cmax 0 (w_hat i j))) UB
                then setTrue F i j else F
              if S j && decide (f_val + cmax 0 (w_hat i j) > UB) then setTrue F' i j else F')
          F)
    F_0

/-- The loop `// fix some vars x_jj to one?` of `lagrangianBasedSafeFixing`. -/
def fixOnes (clusters : List (List Nat)) (W : Nat → ℚ) (S : Nat → Bool) (f_val UB : ℚ)
    (minW : Option ℚ) (F_1 : Nat → Nat → Bool) : Nat → Nat → Bool :=
  clusters.foldl
    (fun F c =>
      c.foldl
        (fun F j =>
          if S j && infGt (infRAdd (f_val - W j) minW) UB then
            c.foldl (fun F i => setTrue F i j) F
          else F)
        F)
    F_1

/-- The function `lagrangianBasedSafeFixing` of `lagrange.cpp` (`n = S.size()`); it returns
the tables `F_0` and `F_1` that the source updates in place. The report printed at the end of
the source does not change the tables and is left out. -/
def lagrangianBasedSafeFixing (n : Nat) (F_0 F_1 : Nat → Nat → Bool)
    (clusters : List (List Nat)) (W : Nat → ℚ) (S : Nat → Bool) (f_val UB : ℚ)
    (w_hat : Nat → Nat → ℚ) : (Nat → Nat → Bool) × (Nat → Nat → Bool) :=
  let maxW := compute_maxW n F_1 W S
  let minW := compute_minW n F_0 W S
  (fixZeros n W S f_val UB w_hat maxW F_0, fixOnes clusters W S f_val UB minW F_1)

/-- The pairs that `fixZeros` sets: column `j` entirely when `j` is outside `S` and
`f_val + W[j] - maxW > UB`, otherwise the off-diagonal pairs that meet one of the two tests. -/
def zeroRule (n : Nat) (W : Nat → ℚ) (S : Nat → Bool) (f_val UB : ℚ) (w_hat : Nat → Nat → ℚ)
    (maxW : Option ℚ) (i j : Nat) : Bool :=
  decide (i < n) && decide (j < n) &&
    (if !S j && infGt (infSub (f_val + W j) maxW) UB then true
     else decide (i ≠ j) &&
       ((!S j && infGt (infAdd (infSub (f_val + W j) maxW) (cmax 0 (w_hat i j))) UB)
         || (S j && decide (f_val + cmax 0 (w_hat i j) > UB))))

/-- The pairs that `fixOnes` sets: `i` and `j` lie in a common cluster, `j` is in `S` and
`f_val - W[j] + minW > UB`. -/
def oneRule (clusters : List (List Nat)) (W : Nat → ℚ) (S : Nat → Bool) (f_val UB : ℚ)
    (minW : Option ℚ) (i j : Nat) : Bool :=
  clusters.any (fun c => decide (i ∈ c) && decide (j ∈ c)) &&
    (S j && infGt (infRAdd (f_val - W j) minW) UB)

/-! ### An input of `lagrangianBasedSafeFixing` on which a second call adds a fixing

Three units, `k = 2`, `S = {0, 1}` with unit `0` a forced center (`F_1[0][0]`), weights
`W = (10, 0, 5)`, `f_val = 0`, `UB = 1`, all reduced costs `0`, clusters `{0, 2}` and `{1}`.
The tables satisfy the invariants of the data model and `S` is the selection that
`eugene_inner` makes for these weights. -/

/-- The weights `W = (10, 0, 5)`. -/
def W_twice (j : Nat) : ℚ := if j = 0 then 10 else if j = 1 then 0 else 5

/-- The selected set `S = {0, 1}`. -/
def S_twice (j : Nat) : Bool := decide (j < 2)

/-- The table `F_1` with the single entry `F_1[0][0]`. -/
def F1_twice (i j : Nat) : Bool := decide (i = 0 ∧ j = 0)

/-- The reduced costs, all `0`. -/
def wh_zero (_ _ : Nat) : ℚ := 0

/-- The clusters `{0, 2}` and `{1}`. -/
def clusters_twice : List (List Nat) := [[0, 2], [1]]

/-- The districts of the plan `x`, one list of units per center, in increasing order. -/
def districtsOf (n : Nat) (x : Nat → Nat → Bool) : List (List Nat) :=
  ((List.range n).filter (fun j => x j j)).map (fun j => (List.range n).filter (fun i => x i j))

/-- Unit populations, `p = (1, 1, ...)`. -/
def pop1 (_ : Nat) : ℤ := 1

/-! ### Instance A: two units, one district

`n = 2`, `k = 1`, `L = U = 2`, `p = (1, 1)`; assigning unit `1` to unit `0` costs `1`,
assigning unit `0` to unit `1` costs `3`. The tables force both units into the district of
unit `0` (`F_1[0][0]`, `F_1[1][0]`) and forbid unit `1` as a center (`F_0[0][1]`,
`F_0[1][1]`); they satisfy the invariants of the data model and are the tables that
`lagrangianBasedSafeFixing` itself returns from the empty tables at the multipliers
`alpha = (3, 1)` with `UB = 1` (`safeFixing_A_first_call`). The plan that assigns both units
to unit `0` costs `1` and is optimal. -/

/-- The cost matrix of instance A. -/
def w_A (i j : Nat) : ℚ := if i = j then 0 else if i = 0 then 3 else 1

/-- The multipliers `alpha = (3, 1)`, `lambda = upsilon = 0` of the first call on instance A. -/
def mu_A (t : Nat) : ℚ := if t = 0 then 3 else if t = 1 then 1 else 0

/-- The table `F_0` of instance A: column `1`. -/
def F0_A (_ j : Nat) : Bool := decide (j = 1)

/-- The table `F_1` of instance A: column `0`. -/
def F1_A (_ j : Nat) : Bool := decide (j = 0)

/-- The plan of instance A: every unit in the district of unit `0`. -/
def x_A (_ j : Nat) : Bool := decide (j = 0)

/-! ### Instance B: three units, two districts

`n = 3`, `k = 2`, `L = 1`, `U = 2`, `p = (1, 1, 1)`; assigning unit `0` to another center costs
`2`, every other assignment to another center costs `1`. Every plan costs at least `1`. The
heuristic plan `σ = (0, 1, 0)` and the plan `σ = (0, 1, 1)` both cost `1`. -/

/-- The cost matrix of instance B. -/
def w_B (i j : Nat) : ℚ := if i = j then 0 else if i = 0 then 2 else 1

/-- The multipliers of instance B: `alpha[0] = 2`, all others `0`. -/
def mu_B (t : Nat) : ℚ := if t = 0 then 2 else 0

/-- The heuristic plan `σ = (0, 1, 0)` of instance B. -/
def x_heur_B (i j : Nat) : Bool := decide (j = if i = 1 then 1 else 0)

/-- The plan `σ = (0, 1, 1)` of instance B. -/
def x_opt_B (i j : Nat) : Bool := decide (j = if i = 0 then 0 else 1)

/-! ### Instance C: a pair fixed to zero off the diagonal

Two units, one district, `L = U = 2`, unit populations; unit `1` may not be assigned to the
center `0`. The plan with both units in the district of unit `1` is feasible and agrees with
the table. -/

/-- The costs of instance C: `w[0][1] = 5`, `w[1][0] = 1/2`, zero on the diagonal. -/
def w_C (i j : Nat) : ℚ := if i = j then 0 else if i = 0 then 5 else 1 / 2

/-- The table `F_0` of instance C: the single pair `(1, 0)`. -/
def F0_C (i j : Nat) : Bool := decide (i = 1 ∧ j = 0)

/-- The multipliers `alpha = (3, a)`, `lambda = upsilon = 0`. -/
def mu_C (a : ℚ) (t : Nat) : ℚ := if t = 0 then 3 else if t = 1 then a else 0

/-- The plan of instance C: both units in the district of unit `1`. -/
def x_C (_ j : Nat) : Bool := decide (j = 1)

/-- The plan `x` is an optimal solution of the Hess model among the plans that agree with the
tables. -/
def IsOptimal (n k : Nat) (L U : ℤ) (population : Nat → ℤ) (w : Nat → Nat → ℚ)
    (F_0 F_1 : Nat → Nat → Bool) (x : Nat → Nat → Bool) : Prop :=
  HessFeasible n k L U population x ∧ AgreesWith n F_0 F_1 x ∧
    ∀ z, HessFeasible n k L U population z → AgreesWith n F_0 F_1 z →
      hessCost n w x ≤ hessCost n w z

/-! ## The heuristics of `hess.cpp`

The MIP solver is an oracle. One call of `model.optimize()` together with the reads of the
status, of `ObjVal` and of the values `X` that follow it is one `Reply`. The replies of a run
are given as a list that the run consumes call by call; a run that needs a reply when the list
is used up sees the solver throw. An exception leaves the `try` block of the heuristic, and
`exit(1)` of the macro `ENSURE` ends the process; both are recorded in the `Flow` of the run.
-/

/-- What the solver does on one call of `optimize()`. -/
inductive Reply where
  /-- the call, or a read after it, throws a `GRBException` -/
  | raised : Reply
  /-- the call returns: `GRB_IntAttr_Status`, `GRB_DoubleAttr_ObjVal` (`none` if reading it
  throws) and the values `GRB_DoubleAttr_X` of the variables `p.x[0], p.x[1], ...` -/
  | answered (status : Int) (objVal : Option ℚ) (x : Nat → ℚ) : Reply

/-- How a piece of the program ends. -/
inductive Flow where
  /-- it runs to its end -/
  | normal : Flow
  /-- an exception was thrown -/
  | thrown : Flow
  /-- `ENSURE` called `exit(1)` -/
  | exited : Flow
  deriving DecidableEq

/-- Modelled from the spec: `MYINFINITY`, a macro of `models.h`, which is not among the
sources. The code initialises the running minima `iterUB` ("keep the global minimum") and
`bestCost` ("c* = argmin") with it, so it stands for `+∞`: a value above every objective and
every cost. Values that may be `MYINFINITY` are of type `WithTop ℚ`. -/
def MYINFINITY : WithTop ℚ := ⊤

/-- The fields of `hess_params` that the heuristics use: the number of units, the map `h`
from the key `n * i + j` of a pair to the index of its variable, and the tables. -/
structure hess_params where
  /-- the number of units -/
  n : Nat
  /-- the hash map from keys to variable indices -/
  h : Int → Option Nat
  /-- the table of the pairs fixed to zero -/
  F0 : Nat → Nat → Bool
  /-- the table of the pairs fixed to one -/
  F1 : Nat → Nat → Bool

/-- The value of an expression of type `int` whose exact value is `z`: the representative of
`z` modulo `2^32` in the range `-2^31 .. 2^31 - 1` of a 32-bit `int`. Within the range it is
`z` itself; beyond it the compiled program goes on with the wrapped value. -/
@[irreducible]
def int32 (z : Int) : Int := (z + 2147483648) % 4294967296 - 2147483648

/-- The key `n*i + j` of the pair `(i, j)` in the map `h`, as the expressions `n*i + j` of
`build_hess` and `populate_hess_params` and `p.n*i+j` of the macro `ENSURE` compute it: `n`,
`i` and `j` are of type `int`, and so are the product and the sum. -/
def pairKey (n : Nat) (i j : Int) : Int := int32 ((n : Int) * i + j)

/-- The loop `for (int j : centers) for (int i = 0; i < n; ++i) p.h[n*i + j] = cur++;` of
`populate_hess_params`: the map and the counter `cur`. -/
def populate_h (n : Nat) (centers : List Int) : (Int → Option Nat) × Nat :=
  centers.foldl
    (fun acc j =>
      (List.range n).foldl
        (fun acc (i : Nat) =>
          (Function.update acc.1 (pairKey n (i : Int) j) (some acc.2), acc.2 + 1))
        acc)
    (fun _ => none, 0)

/-- The function `populate_hess_params` of `hess.cpp`. -/
def populate_hess_params (n : Nat) (centers : List Int) : hess_params :=
  let aux_F1 : Int → Bool := centers.foldl (fun a j => Function.update a j true) (fun _ => false)
  let F0 : Nat → Nat → Bool := (List.range n).foldl
    (fun F (j : Nat) =>
      if !aux_F1 (j : Int) then (List.range n).foldl (fun F i => setTrue F i j) F else F)
    (fun _ _ => false)
  { n := n, h := (populate_h n centers).1, F0 := F0, F1 := fun _ _ => false }

/-- The test of the macro `ENSURE(i,j)`: the key of the pair is in the map (otherwise the
macro calls `exit(1)`). -/
def ENSURE (p : hess_params) (i j : Int) : Bool := (p.h (pairKey p.n i j)).isSome

/-- Modelled from the spec: the macro `X_V(i,j)` of `models.h`, which is not among the
sources: the variable of the pair `(i, j)`, found through the map from the key `n * i + j`
to the column index; here its value `X_V(i,j).get(GRB_DoubleAttr_X)` in the reply `x`. -/
def X_V (p : hess_params) (x : Nat → ℚ) (i j : Int) : ℚ :=
  x ((p.h (pairKey p.n i j)).getD 0)

/-- The checks `ENSURE(i, j)` and `ENSURE(j, j)` made while the objective and the constraint
`fixCenters` are set up. -/
def ensure_centers (n : Nat) (p : hess_params) (centers : List Int) : Bool :=
  (List.range n).all (fun (i : Nat) => centers.all (fun j => ENSURE p (i : Int) j)) &&
    centers.all (fun j => ENSURE p j j)

/-- The district of the center `cj`: the units `i` with `X_V(i, cj) > 0.5`, in increasing
order. -/
def districtOf (n : Nat) (p : hess_params) (x : Nat → ℚ) (cj : Int) : List Nat :=
  (List.range n).filter (fun (i : Nat) => decide (X_V p x (i : Int) cj > 1 / 2))

/-- The search of the best center of a district: `bestCenter = -1`, `bestCost = MYINFINITY`,
and every member `c` whose cost `∑ w[v][c]` over the district is below `bestCost` becomes the
best center. -/
def bestCenterOf (w : Nat → Nat → ℚ) (district : List Nat) : Int × WithTop ℚ :=
  district.foldl
    (fun best (c : Nat) =>
      let Cost : ℚ := district.foldl (fun acc v => acc + w v c) 0
      if (Cost : WithTop ℚ) < best.2 then ((c : Int), (Cost : WithTop ℚ)) else best)
    (-1, MYINFINITY)

/-- The variables of the Hess descent inside one restart. -/
structure DescentState where
  /-- the current centers -/
  centers : List Int
  /-- the best objective of this restart -/
  iterUB : WithTop ℚ
  /-- the plan of this restart -/
  iterHeuristicSolution : Nat → Int

/-- One pass of the loop `for (int j_i = 0; j_i < k; ++j_i)` of the Hess descent: the
district of `centers[j_i]` is read from the solution, recorded in `iterHeuristicSolution`, and
its best center replaces `centers[j_i]`. The result is `none` when `ENSURE` fails. -/
def recenter_step (n : Nat) (w : Nat → Nat → ℚ) (p : hess_params) (x : Nat → ℚ)
    (acc : Option (List Int × (Nat → Int) × Bool)) (j_i : Nat) :
    Option (List Int × (Nat → Int) × Bool) :=
  match acc with
  | none => none
  | some (centers, iterHS, centersChange) =>
    let cj : Int := centers.getD j_i 0
    if (List.range n).all (fun (i : Nat) => ENSURE p (i : Int) cj) then
      let district := districtOf n p x cj
      let iterHS' := district.foldl (fun hs i => Function.update hs i cj) iterHS
      let bestCenter := (bestCenterOf w district).1
      if cj ≠ bestCenter then some (centers.set j_i bestCenter, iterHS', true)
      else some (centers, iterHS', centersChange)
    else none

/-- The loop `do { ... } while (iterUB < oldIterUB && centersChange)` of `HessHeuristic`.
Every pass makes one call of the solver; the reply may depend on the centers of the model. -/
def descent (n k : Nat) (w : Nat → Nat → ℚ) :
    List (List Int → Reply) → DescentState → Flow × DescentState × List (List Int → Reply)
  | [], st => (Flow.thrown, st, [])
  | r :: rest, st =>
    let oldIterUB := st.iterUB
    let p := populate_hess_params n st.centers
    if ensure_centers n p st.centers then
      match r st.centers with
      | Reply.raised => (Flow.thrown, st, rest)
      | Reply.answered status objVal x =>
        if status = 2 ∨ status = 9 then
          match objVal with
          | none => (Flow.thrown, st, rest)
          | some v =>
            let iterUB : WithTop ℚ := (v : WithTop ℚ)
            if iterUB < oldIterUB then
              match (List.range k).foldl (recenter_step n w p x)
                  (some (st.centers, st.iterHeuristicSolution, false)) with
              | none => (Flow.exited, { st with iterUB := iterUB }, rest)
              | some (centers, iterHS, centersChange) =>
                let st' : DescentState :=
                  { centers := centers, iterUB := iterUB, iterHeuristicSolution := iterHS }
                if centersChange then descent n k w rest st'
                else (Flow.normal, st', rest)
            else (Flow.normal, { st with iterUB := iterUB }, rest)
        else (Flow.normal, st, rest)
    else (Flow.exited, st, rest)

/-- The incumbent of `HessHeuristic`: `UB` and `heuristicSolution`. -/
structure Incumbent where
  /-- the upper bound -/
  UB : WithTop ℚ
  /-- the plan, `-1` where nothing is assigned -/
  heuristicSolution : Nat → Int

/-- One restart (one pass of the loop over `iter`) of `HessHeuristic`: `shuffled` is
`allNodes` after `random_shuffle`. The incumbent is replaced when the descent ends with
`iterUB < UB`; an exception or an exit leaves it as it is. -/
def restart (n k : Nat) (w : Nat → Nat → ℚ) (shuffled : List Nat)
    (script : List (List Int → Reply)) (inc : Incumbent) :
    Flow × Incumbent × List (List Int → Reply) :=
  let centers : List Int := List.map (fun (c : Nat) => (c : Int)) (shuffled.take k)
  let st0 : DescentState :=
    { centers := centers, iterUB := MYINFINITY, iterHeuristicSolution := fun _ => -1 }
  match descent n k w script st0 with
  | (Flow.normal, st, rest) =>
    if st.iterUB < inc.UB then
      (Flow.normal, { UB := st.iterUB, heuristicSolution := st.iterHeuristicSolution }, rest)
    else (Flow.normal, inc, rest)
  | (flow, _, rest) => (flow, inc, rest)

/-- The loop `for (int iter = 0; iter < maxIterations; ++iter)` of `HessHeuristic`, with
`remaining = maxIterations - iter` passes to go; the first exception ends the loop. -/
def HessHeuristic_loop (n k : Nat) (w : Nat → Nat → ℚ) (shuffle : Nat → List Nat) :
    Nat → Nat → List (List Int → Reply) → Incumbent → Flow × Incumbent
  | 0, _, _, inc => (Flow.normal, inc)
  | remaining + 1, iter, script, inc =>
    match restart n k w (shuffle iter) script inc with
    | (Flow.normal, inc', rest) => HessHeuristic_loop n k w shuffle remaining (iter + 1) rest inc'
    | (flow, inc', _) => (flow, inc')

/-- The function `HessHeuristic` of `hess.cpp`: `maxIterations` restarts, `shuffle iter`
being `allNodes` after `random_shuffle` in restart `iter`. The plan starts as `-1`
everywhere. -/
def HessHeuristic (n k : Nat) (w : Nat → Nat → ℚ) (shuffle : Nat → List Nat)
    (script : List (List Int → Reply)) (UB : WithTop ℚ) (maxIterations : Nat) :
    Flow × Incumbent :=
  HessHeuristic_loop n k w shuffle maxIterations 0 script
    { UB := UB, heuristicSolution := fun _ => -1 }

/-- The plan `hs` assigns every unit to one of `k` centers, the centers (the units assigned
to themselves) to themselves, and the population of every district is between `L` and `U`. -/
def ValidPlan (n k : Nat) (L U : ℤ) (population : Nat → ℤ) (hs : Nat → Int) : Prop :=
  ((List.range n).filter (fun (c : Nat) => decide (hs c = (c : Int)))).length = k ∧
  (∀ i < n, ∃ c < n, hs c = (c : Int) ∧ hs i = (c : Int)) ∧
  (∀ c < n, hs c = (c : Int) →
    L ≤ ∑ i in Finset.range n, (if hs i = (c : Int) then population i else 0) ∧
    ∑ i in Finset.range n, (if hs i = (c : Int) then population i else 0) ≤ U)

instance (n k : Nat) (L U : ℤ) (population : Nat → ℤ) (hs : Nat → Int) :
    Decidable (ValidPlan n k L U population hs) := by
  unfold ValidPlan; infer_instance

/-- The list `centers` holds `k` distinct units. -/
def ValidCenters (n k : Nat) (centers : List Int) : Prop :=
  centers.length = k ∧ centers.Nodup ∧ ∀ c ∈ centers, 0 ≤ c ∧ c < (n : Int)

/-- The value of the variable `X_V(i, centers[c])` of unit `i` in the column of the `c`-th
center of the restricted model with the parameters `populate_hess_params` of `centers`, in the
reply `x`: the constraints of the model are set up on these variables and the plan is read
from them. -/
def X_col (n : Nat) (centers : List Int) (x : Nat → ℚ) (c i : Nat) : ℚ :=
  X_V (populate_hess_params n centers) x (i : Int) (centers.getD c 0)

/-- The values `x` are a 0/1 assignment that satisfies the constraints of the restricted
model on the variables `X_V(i, centers[c])`: every unit is assigned to exactly one column
(1b), the population of every column is between `L` and `U` (1d), and the variables of the
centers themselves sum to `k` (`fixCenters`). -/
def GoodAssignment (n k : Nat) (L U : ℤ) (population : Nat → ℤ) (centers : List Int)
    (x : Nat → ℚ) : Prop :=
  (∀ c < k, ∀ i < n, X_col n centers x c i = 0 ∨ X_col n centers x c i = 1) ∧
  (∀ i < n, ∑ c in Finset.range k, X_col n centers x c i = 1) ∧
  (∀ c < k, (L : ℚ) ≤ ∑ i in Finset.range n, (population i : ℚ) * X_col n centers x c i ∧
    ∑ i in Finset.range n, (population i : ℚ) * X_col n centers x c i ≤ (U : ℚ)) ∧
  ∑ c in Finset.range k, X_col n centers x c (centers.getD c 0).toNat = (k : ℚ)

/-- The promise of the solver: whenever it reports the status optimal (`2`) or time limit
(`9`) for a model with `k` distinct centers, its values are a good assignment. -/
def OraclePromise (n k : Nat) (L U : ℤ) (population : Nat → ℤ) (r : List Int → Reply) : Prop :=
  ∀ centers, ValidCenters n k centers → ∀ status objVal x,
    r centers = Reply.answered status objVal x → (status = 2 ∨ status = 9) →
      GoodAssignment n k L U population centers x

/-- The state of the recentering loop after the columns `0 .. m-1`: the centers of these
columns are units of their districts, the later centers are the old ones, and the units of
these columns are assigned to their old centers. -/
def RecenterInv (n k : Nat) (old : List Int) (x : Nat → ℚ) (hs0 : Nat → Int) (m : Nat)
    (acc : Option (List Int × (Nat → Int) × Bool)) : Prop :=
  ∃ cs hs fl, acc = some (cs, hs, fl) ∧ cs.length = k ∧
    (∀ c, m ≤ c → c < k → cs.getD c 0 = old.getD c 0) ∧
    (∀ c < m, ∃ u < n, X_col n old x c u = 1 ∧ cs.getD c 0 = (u : Int)) ∧
    (∀ i < n, (∀ c < m, X_col n old x c i = 1 → hs i = old.getD c 0) ∧
      ((∀ c < m, X_col n old x c i ≠ 1) → hs i = hs0 i))

/-- A reply of the solver for two units and one center: status optimal, objective `1`, every
variable at `1`. -/
def reply_all_ones : List Int → Reply :=
  fun _ => Reply.answered 2 (some 1) (fun _ => 1)

/-! ## `LocalSearch` -/

/-- The lambda `centers_to_string` of `LocalSearch`: the sorted centers, each printed and
followed by `_`. -/
def centers_to_string (centers : List Int) : String :=
  (List.insertionSort (fun a b => a ≤ b) centers).foldl (fun ret c => ret ++ toString c ++ "_") ""

/-- The initialisation of the centers in `LocalSearch`: `centers(k, -1)` and `pos = 0`, then
every unit `i` with `heuristicSolution[i] == i` is written to `centers[pos++]`. A write past
the end of `centers` (a plan with more than `k` such units) is dropped. -/
def initial_centers (n k : Nat) (heuristicSolution : Nat → Int) : List Int × Nat :=
  (List.range n).foldl
    (fun acc (i : Nat) =>
      if heuristicSolution i = (i : Int) then (acc.1.set acc.2 (i : Int), acc.2 + 1) else acc)
    (List.replicate k (-1), 0)

/-- The variables of `LocalSearch`. -/
structure SearchState where
  /-- the current centers -/
  centers : List Int
  /-- the parameters of the restricted model -/
  p : hess_params
  /-- the keys of the center sets already tried -/
  htbl : List String
  /-- the upper bound (a reference parameter) -/
  UB : WithTop ℚ
  /-- the plan (a reference parameter) -/
  heuristicSolution : Nat → Int

/-- The update of the plan after an improvement: for every unit `i` and every `j < k`, after
`ENSURE(i, centers[j])`, the unit is assigned to `centers[j]` if `X_V(i, centers[j]) > 0.5`.
The result is `none` when `ENSURE` fails. -/
def update_plan (n k : Nat) (p : hess_params) (centers : List Int) (x : Nat → ℚ)
    (heuristicSolution : Nat → Int) : Option (Nat → Int) :=
  (List.range n).foldl
    (fun acc (i : Nat) =>
      (List.range k).foldl
        (fun acc (j : Nat) =>
          match acc with
          | none => none
          | some hs =>
            if ENSURE p (i : Int) (centers.getD j 0) then
              if X_V p x (i : Int) (centers.getD j 0) > 1 / 2 then
                some (Function.update hs i (centers.getD j 0))
              else some hs
            else none)
        acc)
    (some heuristicSolution)

/-- The part of the body of the loop over the neighbours `u` that follows
`model.optimize()`, for the reply `rep` of the solver: the flow, the flag `improvement` and
the variables. The incumbent changes only if the status is optimal (`2`) or time limit (`9`)
and `newUB < UB`. -/
def commit (n k : Nat) (c_i : Nat) (u : Int) (rep : Reply) (st : SearchState) :
    Flow × Bool × SearchState :=
  match rep with
  | Reply.raised => (Flow.thrown, false, st)
  | Reply.answered status objVal x =>
    if status = 2 ∨ status = 9 then
      match objVal with
      | none => (Flow.thrown, false, st)
      | some newUB =>
        if (newUB : WithTop ℚ) < st.UB then
          let centers := st.centers.set c_i u
          let p := populate_hess_params n centers
          match update_plan n k p centers x st.heuristicSolution with
          | none =>
            (Flow.exited, true, { st with UB := (newUB : WithTop ℚ), centers := centers, p := p })
          | some hs =>
            (Flow.normal, true,
              { centers := centers, p := p, htbl := st.htbl, UB := (newUB : WithTop ℚ),
                heuristicSolution := hs })
        else (Flow.normal, false, st)
    else (Flow.normal, false, st)

/-- The pairs `(c_i, u)` that one pass of the loops `for (c_i ...) for (int u : g->nb(v))`
visits, in order, `v` being `centers[c_i]`. -/
def candidates (k : Nat) (nb : Int → List Int) (centers : List Int) : List (Nat × Int) :=
  (List.range k).flatMap (fun c_i => (nb (centers.getD c_i 0)).map (fun u => (c_i, u)))

/-- The loop `do { ... } while (improvement)` of `LocalSearch`, started in the middle of a
pass with the pairs `(c_i, u)` still to visit. A pair whose key is in `htbl` is skipped;
otherwise the key is inserted and, after `ENSURE(i, v)` for every unit, the solver is called.
An improvement ends the pass and starts the next one with the new centers; a pass without
improvement ends the loop. The solver of a script that is used up throws. -/
def search (n k : Nat) (nb : Int → List Int) :
    List (Nat × Int) → List (List Int → Reply) → SearchState → Flow × SearchState
  | [], _, st => (Flow.normal, st)
  | (c_i, u) :: cands, script, st =>
    let v := st.centers.getD c_i 0
    let centers_str := centers_to_string (st.centers.set c_i u)
    if centers_str ∈ st.htbl then search n k nb cands script st
    else
      let st1 : SearchState := { st with htbl := centers_str :: st.htbl }
      if (List.range n).all (fun (i : Nat) => ENSURE st.p (i : Int) v) then
        match script with
        | [] => (Flow.thrown, st1)
        | r :: rest =>
          match commit n k c_i u (r (st.centers.set c_i u)) st1 with
          | (Flow.normal, true, st2) => search n k nb (candidates k nb st2.centers) rest st2
          | (Flow.normal, false, st2) => search n k nb cands rest st2
          | (flow, _, st2) => (flow, st2)
      else (Flow.exited, st1)
termination_by cands script _ => (script.length, cands.length)
decreasing_by
  all_goals simp_wf
  · exact Prod.Lex.right _ (Nat.lt_succ_self _)
  · exact Prod.Lex.left _ _ (Nat.lt_succ_self _)
  · exact Prod.Lex.left _ _ (Nat.lt_succ_self _)

/-- The function `LocalSearch` of `hess.cpp`; `size` is `heuristicSolution.size()`, `nb` the
neighbours in the graph, `setup` tells whether the construction of the environment and of
the restricted model succeeds (it throws otherwise). The result is the returned value
(`none` if `ENSURE` called `exit(1)`) and the reference parameters `UB` and
`heuristicSolution`. -/
def LocalSearch (n k : Nat) (nb : Int → List Int) (size : Nat) (setup : Bool)
    (script : List (List Int → Reply)) (inc : Incumbent) : Option Bool × Incumbent :=
  if size < n then (some false, inc)
  else
    let centers := (initial_centers n k inc.heuristicSolution).1
    if (-1 : Int) ∈ centers then (some false, inc)
    else if !setup then (some false, inc)
    else
      let p := populate_hess_params n centers
      if ensure_centers n p centers then
        let st0 : SearchState :=
          { centers := centers, p := p, htbl := [], UB := inc.UB,
            heuristicSolution := inc.heuristicSolution }
        match search n k nb (candidates k nb centers) script st0 with
        | (Flow.normal, st) =>
          (some true, { UB := st.UB, heuristicSolution := st.heuristicSolution })
        | (Flow.thrown, st) =>
          (some false, { UB := st.UB, heuristicSolution := st.heuristicSolution })
        | (Flow.exited, st) =>
          (none, { UB := st.UB, heuristicSolution := st.heuristicSolution })
      else (none, inc)

/-- The incumbent `(UB', hs')` after a run from `(UB, hs)`: either nothing has changed, or
`UB'` is an objective that the solver reported in a reply of `script` with status optimal
or time limit, and it is strictly below `UB`. -/
def ChangedOnlyBelow (script : List (List Int → Reply)) (UB : WithTop ℚ) (hs : Nat → Int)
    (UB' : WithTop ℚ) (hs' : Nat → Int) : Prop :=
  (UB' = UB ∧ hs' = hs) ∨
    ∃ r ∈ script, ∃ cs status v x, r cs = Reply.answered status (some v) x ∧
      (status = 2 ∨ status = 9) ∧ UB' = (v : WithTop ℚ) ∧ (v : WithTop ℚ) < UB

/-! ## `run_gurobi` (`hess/main.cpp`): the translation of the solution -/

/-- The loop `// firstly assign district number for clusterheads` of `run_gurobi`:
`heads(n, 0)` and `cur = 1`, then every unit `i` with `x[i][i] > 0.5` gets
`heads[i] = cur++`. The result is `heads` and `cur`; `x` holds the values
`x[i][j].get(GRB_DoubleAttr_X)`. -/
def run_gurobi_heads (n : Nat) (x : Nat → Nat → ℚ) : (Nat → Int) × Int :=
  (List.range n).foldl
    (fun acc i => if x i i > 1 / 2 then (Function.update acc.1 i acc.2, acc.2 + 1) else acc)
    (fun _ => 0, 1)

/-- The last double loop of `run_gurobi`: `sol[i] = heads[j]` for every pair with
`x[i][j] > 0.5`, in the order of the loops; `sol` is the vector after `sol.resize(n)`. -/
def run_gurobi_sol (n : Nat) (x : Nat → Nat → ℚ) (sol : Nat → Int) : Nat → Int :=
  (List.range n).foldl
    (fun sol i =>
      (List.range n).foldl
        (fun sol j =>
          if x i j > 1 / 2 then Function.update sol i ((run_gurobi_heads n x).1 j) else sol)
        sol)
    sol

/-- The number of centers of the solution `x` (units `c` with `x[c][c] > 0.5`) below `m`. -/
def centersBelow (x : Nat → Nat → ℚ) (m : Nat) : Nat :=
  ((Finset.range m).filter (fun c => x c c > 1 / 2)).card

/-- A solution of two units with the single center `1`. -/
def x_center1 (_ j : Nat) : ℚ := if j = 1 then 1 else 0

/-! ## `build_hess`: the variable map of the full model -/

/-- The loop `// hash variables` of `build_hess`: `cur = 0`, then for every pair `(i, j)`,
rows first, `p.h[n*i + j] = cur++` if neither `F0[i][j]` nor `F1[i][j]`. The result is the
map and `cur`. -/
def build_hess_h (n : Nat) (F0 F1 : Nat → Nat → Bool) : (Int → Option Nat) × Nat :=
  (List.range n).foldl
    (fun acc (i : Nat) =>
      (List.range n).foldl
        (fun acc (j : Nat) =>
          if !F0 i j && !F1 i j then
            (Function.update acc.1 (pairKey n (i : Int) (j : Int)) (some acc.2), acc.2 + 1)
          else acc)
        acc)
    (fun _ => none, 0)

/-- The parameters that `build_hess` returns: `p.n = n`, the copies of the tables and the
variable map. -/
def build_hess (n : Nat) (F0 F1 : Nat → Nat → Bool) : hess_params :=
  { n := n, h := (build_hess_h n F0 F1).1, F0 := F0, F1 := F1 }

/-- The pairs `(i, j)` with `i, j < n` in the order of the loops of `build_hess`, rows
first. -/
def rowMajor (n : Nat) : List (Nat × Nat) :=
  (List.range n).flatMap (fun i => (List.range n).map (fun j => (i, j)))

/-- The free pairs (neither in `F0` nor in `F1`), rows first. -/
def freePairs (n : Nat) (F0 F1 : Nat → Nat → Bool) : List (Nat × Nat) :=
  (rowMajor n).filter (fun q => !F0 q.1 q.2 && !F1 q.1 q.2)

/-- The key of the pair `q = (i, j)` in the map of `build_hess`. -/
def keyOf (n : Nat) (q : Nat × Nat) : Int := pairKey n (q.1 : Int) (q.2 : Int)

/-- The number of free pairs `(i, j)` with `i, j < n`. -/
def numFree (n : Nat) (F0 F1 : Nat → Nat → Bool) : Nat :=
  ((Finset.range n ×ˢ Finset.range n).filter
    (fun q => F0 q.1 q.2 = false ∧ F1 q.1 q.2 = false)).card

/-! ## The calls of the solver in `LocalSearch` -/

/-- The number that a list of decimal digits denotes, continuing from `acc`. -/
def decimalValue (acc : Nat) (l : List Char) : Nat :=
  l.foldl (fun a c => 10 * a + (c.toNat - 48)) acc

/-- The characters of the token of a center in the key: its numeral and `_`. -/
def token (c : Int) : List Char := (toString c).data ++ ['_']

/-- The loop of `LocalSearch` as in `search`, together with the candidate center vectors
(`centers` with `centers[c_i] = u`) for which `model.optimize()` is called, in the order of
the calls. -/
def search_trace (n k : Nat) (nb : Int → List Int) :
    List (Nat × Int) → List (List Int → Reply) → SearchState →
      (Flow × SearchState) × List (List Int)
  | [], _, st => ((Flow.normal, st), [])
  | (c_i, u) :: cands, script, st =>
    let v := st.centers.getD c_i 0
    let centers_str := centers_to_string (st.centers.set c_i u)
    if centers_str ∈ st.htbl then search_trace n k nb cands script st
    else
      let st1 : SearchState := { st with htbl := centers_str :: st.htbl }
      if (List.range n).all (fun (i : Nat) => ENSURE st.p (i : Int) v) then
        match script with
        | [] => ((Flow.thrown, st1), [st.centers.set c_i u])
        | r :: rest =>
          match commit n k c_i u (r (st.centers.set c_i u)) st1 with
          | (Flow.normal, true, st2) =>
            ((search_trace n k nb (candidates k nb st2.centers) rest st2).1,
              st.centers.set c_i u ::
                (search_trace n k nb (candidates k nb st2.centers) rest st2).2)
          | (Flow.normal, false, st2) =>
            ((search_trace n k nb cands rest st2).1,
              st.centers.set c_i u :: (search_trace n k nb cands rest st2).2)
          | (flow, _, st2) => ((flow, st2), [st.centers.set c_i u])
      else ((Flow.exited, st1), [])
termination_by cands script _ => (script.length, cands.length)
decreasing_by
  all_goals simp_wf
  all_goals first
    | exact Prod.Lex.right _ (Nat.lt_succ_self _)
    | exact Prod.Lex.left _ _ (Nat.lt_succ_self _)

/-- The candidate center vectors for which a run of `LocalSearch` calls the solver, in the
order of the calls. -/
def LocalSearch_calls (n k : Nat) (nb : Int → List Int) (size : Nat) (setup : Bool)
    (script : List (List Int → Reply)) (inc : Incumbent) : List (List Int) :=
  if size < n then []
  else
    let centers := (initial_centers n k inc.heuristicSolution).1
    if (-1 : Int) ∈ centers then []
    else if !setup then []
    else
      let p := populate_hess_params n centers
      if ensure_centers n p centers then
        (search_trace n k nb (candidates k nb centers) script
          { centers := centers, p := p, htbl := [], UB := inc.UB,
            heuristicSolution := inc.heuristicSolution }).2
      else []

/-- The neighbours in the path `0 - 1 - 2`. -/
def nb_path3 (v : Int) : List Int :=
  if v = 0 then [1] else if v = 1 then [0, 2] else if v = 2 then [1] else []

/-- A reply of the solver that never improves on the bound `1`: status optimal, objective `1`,
every variable at `0`. -/
def reply_no_gain : List Int → Reply :=
  fun _ => Reply.answered 2 (some 1) (fun _ => 0)

/-- The plan of three units with three districts of one unit each, and the bound `1`. -/
def inc_singletons : Incumbent :=
  { UB := ((1 : ℚ) : WithTop ℚ), heuristicSolution := fun i => (i : Int) }

/-! ## The fixing rules of `lagrangianBasedSafeFixing` in the words of the specification -/

/-- Modelled from the spec: `maxW`, the maximum of `W[j]` over the `j` in `S` with `F1[j][j]`
false, and minus infinity (`⊥`) if there is none. -/
def maxW_spec (n : Nat) (F_1 : Nat → Nat → Bool) (W : Nat → ℚ) (S : Nat → Bool) : WithBot ℚ :=
  ((Finset.range n).filter (fun j => S j = true ∧ F_1 j j = false)).sup
    (fun j => (W j : WithBot ℚ))

/-- Modelled from the spec: `minW`, the minimum of `W[j]` over the `j` outside `S` with
`F0[j][j]` false, and plus infinity (`⊤`) if there is none. -/
def minW_spec (n : Nat) (F_0 : Nat → Nat → Bool) (W : Nat → ℚ) (S : Nat → Bool) : WithTop ℚ :=
  ((Finset.range n).filter (fun j => S j = false ∧ F_0 j j = false)).inf
    (fun j => (W j : WithTop ℚ))

/-- The value `maxW` of the source (`none` for `-INFINITY`) as an extended number. -/
def toBot : Option ℚ → WithBot ℚ
  | none => ⊥
  | some v => (v : WithBot ℚ)

/-- The value `minW` of the source (`none` for `INFINITY`) as an extended number. -/
def toTop : Option ℚ → WithTop ℚ
  | none => ⊤
  | some v => (v : WithTop ℚ)

/-! ## `SimpleRNG` (`rng.cpp`) -/

/-- `SimpleRNG::GetUint`: the new state `(m_w, m_z)` and the returned value
`(m_z << 16) + m_w`; the arithmetic of `unsigned int` is modulo `2^32`. -/
def GetUint (m_w m_z : Nat) : (Nat × Nat) × Nat :=
  let m_z' := (36969 * (m_z &&& 65535) + (m_z >>> 16)) % 2 ^ 32
  let m_w' := (18000 * (m_w &&& 65535) + (m_w >>> 16)) % 2 ^ 32
  ((m_w', m_z'), ((m_z' <<< 16) % 2 ^ 32 + m_w') % 2 ^ 32)

/-- `SimpleRNG::GetUniform`: the new state and `(u + 1.0) * 2.328306435454494e-10`, the
constant read as an exact rational. -/
def GetUniform (m_w m_z : Nat) : (Nat × Nat) × ℚ :=
  ((GetUint m_w m_z).1, (((GetUint m_w m_z).2 : ℚ) + 1) * (2328306435454494 / 10 ^ 25))

/-! ## `ContiguityHeuristic`: the components of the centers -/

/-- The loop `// find centers` of `ContiguityHeuristic`: the units `i` with
`heuristicSolution[i] == i`, in increasing order. -/
def find_centers (n : Nat) (heuristicSolution : Nat → Int) : List Nat :=
  (List.range n).filter (fun i => decide (heuristicSolution i = (i : Int)))

/-- The vector `assignToCenterj` of size `n`: true at the units `i` with
`heuristicSolution[i] == centers[j]`, for `cj = centers[j]`. -/
def assignToCenterj (n : Nat) (heuristicSolution : Nat → Int) (cj : Nat) (i : Nat) : Bool :=
  decide (i < n) && decide (heuristicSolution i = (cj : Int))

/-- The variables of the DFS. -/
structure DfsState where
  /-- the stack `s`, its back first -/
  s : List Nat
  /-- the vector `visited` -/
  visited : Nat → Bool
  /-- the list `J[j]` -/
  J : List Nat

/-- The body of the loop `for (int nb_cur : g->nb(cur))`: a neighbour that is assigned to the
center and not visited is marked, pushed on the stack and appended to `J[j]`. -/
def dfs_visit (assign : Nat → Bool) (st : DfsState) (nb_cur : Nat) : DfsState :=
  if assign nb_cur then
    if !st.visited nb_cur then
      { s := nb_cur :: st.s, visited := Function.update st.visited nb_cur true,
        J := st.J ++ [nb_cur] }
    else st
  else st

/-- The loop `while (!s.empty())` of the DFS, for at most `fuel` passes; `nb` gives the
neighbours `g->nb(v)`. The result is `none` if the stack is not empty after `fuel` passes. -/
def dfs_loop (nb : Nat → List Nat) (assign : Nat → Bool) : Nat → DfsState → Option DfsState
  | 0, st => if st.s.isEmpty then some st else none
  | fuel + 1, st =>
    match st.s with
    | [] => some st
    | cur :: rest =>
      dfs_loop nb assign fuel ((nb cur).foldl (dfs_visit assign) { st with s := rest })

/-- The list `J[j]` that `ContiguityHeuristic` computes for the center `cj = centers[j]`:
`J[j]`, the stack and `visited` start with `cj`, then the DFS runs. -/
def component (n : Nat) (nb : Nat → List Nat) (heuristicSolution : Nat → Int) (cj : Nat)
    (fuel : Nat) : Option (List Nat) :=
  (dfs_loop nb (assignToCenterj n heuristicSolution cj) fuel
    { s := [cj], visited := Function.update (fun _ => false) cj true, J := [cj] }).map
    (fun st => st.J)

/-- The list `interiorOfJ[j]`: the units `i` of `J[j]` for which the number of neighbours
`nb_i` with `heuristicSolution[nb_i] == centers[j]` is `g->nb(i).size()`. -/
def interiorOf (nb : Nat → List Nat) (heuristicSolution : Nat → Int) (cj : Nat)
    (J : List Nat) : List Nat :=
  J.filter (fun i =>
    decide ((nb i).foldl
      (fun count nb_i => if heuristicSolution nb_i = (cj : Int) then count + 1 else count) 0
        = (nb i).length))

/-- The invariant of the DFS from the center `c` while the neighbours `rem` of the unit `cur`
are still to be looked at: `J` has no duplicates and holds the visited units, which are
assigned to `c` and reachable from it; the stack is part of `J`; and every assigned neighbour
of a unit of `J` that is not on the stack is in `J`, or is one of `rem` if the unit is
`cur`. -/
structure DfsInv (nb : Nat → List Nat) (A : Nat → Bool) (c cur : Nat) (rem : List Nat)
    (st : DfsState) : Prop where
  /-- no unit is listed twice -/
  nodup : st.J.Nodup
  /-- the visited units are the listed ones -/
  visited_iff : ∀ v, st.visited v = true ↔ v ∈ st.J
  /-- the listed units are assigned to the center -/
  assigned : ∀ v ∈ st.J, A v = true
  /-- the listed units are reachable from the center -/
  reach : ∀ v ∈ st.J, Relation.ReflTransGen (fun a b => b ∈ nb a ∧ A b = true) c v
  /-- the stack holds listed units -/
  stack : ∀ v ∈ st.s, v ∈ st.J
  /-- the center is listed -/
  root : c ∈ st.J
  /-- the listed units that are not on the stack have their assigned neighbours listed -/
  closed : ∀ v ∈ st.J, v ∉ st.s → ∀ u ∈ nb v, A u = true → u ∈ st.J ∨ (v = cur ∧ u ∈ rem)

/-- The number of passes that the DFS can still make: the units on the stack and the assigned
units not yet visited. -/
def dfsPotential (n : Nat) (A : Nat → Bool) (st : DfsState) : Nat :=
  st.s.length + ((Finset.range n).filter (fun v => A v = true ∧ st.visited v = false)).card

/-- A graph of two units joined by an edge. -/
def nb_pair (v : Nat) : List Nat := if v = 0 then [1] else [0]

/-- The plan that assigns every unit to the center `0`. -/
def hs_zero (_ : Nat) : Int := 0
/-! ## Basic facts about the macros and the loops -/

theorem cmin_eq (a b : ℚ) : cmin a b = min a b := by
  unfold cmin
  split_ifs with h
  · exact (min_eq_left h.le).symm
  · exact (min_eq_right (not_lt.mp h)).symm

theorem cmax_eq (a b : ℚ) : cmax a b = max a b := by
  unfold cmax
  split_ifs with h
  · exact (max_eq_left (le_of_lt h)).symm
  · exact (max_eq_right (not_lt.mp h)).symm

theorem cabs_eq (x : ℚ) : cabs x = |x| := by
  unfold cabs
  split_ifs with h
  · exact (abs_of_pos h).symm
  · exact (abs_of_nonpos (not_lt.mp h)).symm

theorem cabs_nonneg (x : ℚ) : 0 ≤ cabs x := by
  rw [cabs_eq]; exact abs_nonneg x

/-- An accumulation loop over a list is the initial value plus the sum of the increments. -/
theorem foldl_add_eq_sum {β : Type} (f : β → ℚ) (l : List β) (init : ℚ) :
    l.foldl (fun acc c => acc + f c) init = init + (l.map f).sum := by
  induction l generalizing init with
  | nil => simp
  | cons a l ih => simp [ih, add_assoc]

/-- An accumulation loop over `i = 0 .. n-1` as a finite sum. -/
theorem foldl_range_add_eq_sum (f : Nat → ℚ) (n : Nat) (init : ℚ) :
    (List.range n).foldl (fun acc i => acc + f i) init = init + ∑ i in Finset.range n, f i := by
  rw [foldl_add_eq_sum]
  congr 1

theorem W_val_eq (n : Nat) (F_0 F_1 : Nat → Nat → Bool) (wh : Nat → Nat → ℚ) (j : Nat) :
    W_val n F_0 F_1 wh j = wh j j + ∑ i in Finset.range n, contribution F_0 F_1 wh i j := by
  unfold W_val
  rw [← foldl_range_add_eq_sum]
  congr 1
  funext acc i
  unfold contribution
  by_cases hij : i = j
  · simp [hij]
  · by_cases h0 : F_0 i j = true
    · simp [hij, h0]
    · by_cases h1 : F_1 i j = true
      · simp [hij, h0, h1]
      · simp [hij, h0, h1, cmin_eq]

/-! ## The sort -/

theorem insertSorted_perm (lt : Nat → Nat → Bool) (a : Nat) (l : List Nat) :
    (insertSorted lt a l).Perm (a :: l) := by
  induction l with
  | nil => simp [insertSorted]
  | cons b l ih =>
    unfold insertSorted
    split_ifs with h
    · exact (List.Perm.cons b ih).trans (List.Perm.swap a b l)
    · exact List.Perm.refl _

theorem sortBy_perm (lt : Nat → Nat → Bool) (l : List Nat) : (sortBy lt l).Perm l := by
  induction l with
  | nil => simp [sortBy]
  | cons a l ih =>
    unfold sortBy
    exact (insertSorted_perm lt a _).trans (List.Perm.cons a ih)

theorem insertSorted_pairwise {lt : Nat → Nat → Bool} {P : Nat → Prop}
    (hasym : ∀ x y, P x → P y → lt x y = true → lt y x = false)
    (htrans : ∀ x y z, P x → P y → P z → lt y x = false → lt z y = false → lt z x = false)
    (a : Nat) (l : List Nat) (ha : P a) (hl : ∀ b ∈ l, P b)
    (hs : l.Pairwise (fun x y => lt y x = false)) :
    (insertSorted lt a l).Pairwise (fun x y => lt y x = false) := by
  induction l with
  | nil => simp [insertSorted]
  | cons b l ih =>
    have hb : P b := hl b (List.mem_cons_self b l)
    have hl' : ∀ c ∈ l, P c := fun c hc => hl c (List.mem_cons_of_mem b hc)
    rw [List.pairwise_cons] at hs
    unfold insertSorted
    split_ifs with h
    · rw [List.pairwise_cons]
      refine ⟨?_, ih hl' hs.2⟩
      intro y hy
      rcases List.mem_cons.mp ((insertSorted_perm lt a l).mem_iff.mp hy) with rfl | hy'
      · exact hasym b y hb ha h
      · exact hs.1 y hy'
    · rw [List.pairwise_cons]
      refine ⟨?_, List.pairwise_cons.mpr hs⟩
      intro y hy
      rcases List.mem_cons.mp hy with rfl | hy'
      · simpa using h
      · exact htrans a b y ha hb (hl' y hy') (by simpa using h) (hs.1 y hy')

theorem sortBy_pairwise {lt : Nat → Nat → Bool} {P : Nat → Prop}
    (hasym : ∀ x y, P x → P y → lt x y = true → lt y x = false)
    (htrans : ∀ x y z, P x → P y → P z → lt y x = false → lt z y = false → lt z x = false)
    (l : List Nat) (hl : ∀ b ∈ l, P b) :
    (sortBy lt l).Pairwise (fun x y => lt y x = false) := by
  induction l with
  | nil => simp [sortBy]
  | cons a l ih =>
    unfold sortBy
    have hl' : ∀ c ∈ l, P c := fun c hc => hl c (List.mem_cons_of_mem a hc)
    refine insertSorted_pairwise hasym htrans a _ (hl a (List.mem_cons_self a l)) ?_ (ih hl')
    intro b hb
    exact hl' b ((sortBy_perm lt l).mem_iff.mp hb)


/-! ## The comparator is the lexicographic order of `(fixRank, W)` -/

theorem W_comp_iff {F_0 F_1 : Nat → Nat → Bool} {W : Nat → ℚ} {x y : Nat}
    (hx : ¬(F_0 x x = true ∧ F_1 x x = true)) (hy : ¬(F_0 y y = true ∧ F_1 y y = true)) :
    W_comp F_0 F_1 W x y = true ↔
      (fixRank F_0 F_1 x < fixRank F_0 F_1 y ∨
        (fixRank F_0 F_1 x = fixRank F_0 F_1 y ∧ W x < W y)) := by
  unfold W_comp fixRank boolToInt
  cases h0x : F_0 x x <;> cases h1x : F_1 x x <;> cases h0y : F_0 y y <;> cases h1y : F_1 y y <;>
    simp_all

theorem W_comp_asymm {n : Nat} {F_0 F_1 : Nat → Nat → Bool} {W : Nat → ℚ}
    (hc : ∀ j < n, ¬(F_0 j j = true ∧ F_1 j j = true)) (x y : Nat) (hx : x < n) (hy : y < n)
    (h : W_comp F_0 F_1 W x y = true) : W_comp F_0 F_1 W y x = false := by
  rw [W_comp_iff (hc x hx) (hc y hy)] at h
  rw [Bool.eq_false_iff, Ne, W_comp_iff (hc y hy) (hc x hx)]
  rintro (h' | ⟨h1, h2⟩)
  · rcases h with h | ⟨h, _⟩ <;> omega
  · rcases h with h | ⟨_, h⟩
    · omega
    · exact absurd h (not_lt.mpr h2.le)

theorem W_comp_trans {n : Nat} {F_0 F_1 : Nat → Nat → Bool} {W : Nat → ℚ}
    (hc : ∀ j < n, ¬(F_0 j j = true ∧ F_1 j j = true)) (x y z : Nat) (hx : x < n) (hy : y < n)
    (hz : z < n) (h1 : W_comp F_0 F_1 W y x = false) (h2 : W_comp F_0 F_1 W z y = false) :
    W_comp F_0 F_1 W z x = false := by
  rw [Bool.eq_false_iff, Ne, W_comp_iff (hc _ ‹_›) (hc _ ‹_›)] at h1 h2 ⊢
  push_neg at h1 h2 ⊢
  obtain ⟨a1, b1⟩ := h1
  obtain ⟨a2, b2⟩ := h2
  refine ⟨by omega, fun h => ?_⟩
  have e1 : fixRank F_0 F_1 y = fixRank F_0 F_1 x := by omega
  have e2 : fixRank F_0 F_1 z = fixRank F_0 F_1 y := by omega
  exact (b1 e1).trans (b2 e2)

theorem W_indices_perm (n : Nat) (F_0 F_1 : Nat → Nat → Bool) (W : Nat → ℚ) :
    (W_indices n F_0 F_1 W).Perm (List.range n) :=
  sortBy_perm _ _

theorem W_indices_sorted {n : Nat} {F_0 F_1 : Nat → Nat → Bool} (W : Nat → ℚ)
    (hc : ∀ j < n, ¬(F_0 j j = true ∧ F_1 j j = true)) :
    (W_indices n F_0 F_1 W).Pairwise (fun a b => W_comp F_0 F_1 W b a = false) :=
  sortBy_pairwise (P := fun j => j < n) (W_comp_asymm hc) (W_comp_trans hc) (List.range n)
    (fun _ hb => List.mem_range.mp hb)

/-! ## Sums over two sets of the same size -/

theorem sum_le_sum_of_cross_le (A B : Finset Nat) (f : Nat → ℚ) (hcard : A.card = B.card)
    (h : ∀ a ∈ A, ∀ b ∈ B, f a ≤ f b) : ∑ a in A, f a ≤ ∑ b in B, f b := by
  rcases B.eq_empty_or_nonempty with hB | hB
  · subst hB
    have hA : A = ∅ := Finset.card_eq_zero.mp (by simpa using hcard)
    simp [hA]
  · obtain ⟨b0, hb0, hmin⟩ := Finset.exists_min_image B f hB
    calc ∑ a in A, f a ≤ A.card • f b0 := Finset.sum_le_card_nsmul A f (f b0) (fun a ha => h a ha b0 hb0)
      _ = B.card • f b0 := by rw [hcard]
      _ ≤ ∑ b in B, f b := Finset.card_nsmul_le_sum B f (f b0) hmin

theorem card_sdiff_eq_of_card_eq (A B : Finset Nat) (hcard : A.card = B.card) :
    (A \ B).card = (B \ A).card := by
  have h1 := Finset.card_sdiff_add_card_inter A B
  have h2 := Finset.card_sdiff_add_card_inter B A
  rw [Finset.inter_comm] at h2
  omega

/-- Exchange argument: if every element of `A` missing from `B` is no heavier than every
element of `B` missing from `A`, then `A` is no heavier than `B`. -/
theorem sum_le_sum_of_exchange (A B : Finset Nat) (f : Nat → ℚ) (hcard : A.card = B.card)
    (h : ∀ a ∈ A, a ∉ B → ∀ b ∈ B, b ∉ A → f a ≤ f b) : ∑ a in A, f a ≤ ∑ b in B, f b := by
  have hA := Finset.sum_inter_add_sum_diff A B f
  have hB := Finset.sum_inter_add_sum_diff B A f
  rw [Finset.inter_comm] at hB
  have hx : ∑ a in A \ B, f a ≤ ∑ b in B \ A, f b := by
    apply sum_le_sum_of_cross_le _ _ _ (card_sdiff_eq_of_card_eq A B hcard)
    intro a ha b hb
    rw [Finset.mem_sdiff] at ha hb
    exact h a ha.1 ha.2 b hb.1 hb.2
  linarith

/-! ## The first `k` indices of a sorted index list -/

theorem W_indices_isSorted {n : Nat} {F_0 F_1 : Nat → Nat → Bool} (W : Nat → ℚ)
    (hc : ∀ j < n, ¬(F_0 j j = true ∧ F_1 j j = true)) :
    IsSortedIndices n F_0 F_1 W (W_indices n F_0 F_1 W) :=
  ⟨W_indices_perm n F_0 F_1 W, W_indices_sorted W hc⟩

section Selection

variable {n : Nat} {F_0 F_1 : Nat → Nat → Bool} {W : Nat → ℚ} {idx : List Nat}

theorem IsSortedIndices.mem_iff (h : IsSortedIndices n F_0 F_1 W idx) (j : Nat) :
    j ∈ idx ↔ j < n := by
  rw [h.1.mem_iff, List.mem_range]

theorem IsSortedIndices.nodup (h : IsSortedIndices n F_0 F_1 W idx) : idx.Nodup :=
  h.1.nodup_iff.mpr (List.nodup_range n)

theorem IsSortedIndices.length (h : IsSortedIndices n F_0 F_1 W idx) : idx.length = n := by
  rw [h.1.length_eq, List.length_range]

theorem IsSortedIndices.lt_of_mem_take (h : IsSortedIndices n F_0 F_1 W idx) {k j : Nat}
    (hj : j ∈ idx.take k) : j < n :=
  (h.mem_iff j).mp (List.mem_of_mem_take hj)

theorem IsSortedIndices.mem_drop (h : IsSortedIndices n F_0 F_1 W idx) {k j : Nat}
    (hj : j < n) (hnot : j ∉ idx.take k) : j ∈ idx.drop k := by
  have hm : j ∈ idx.take k ++ idx.drop k := by
    rw [List.take_append_drop]; exact (h.mem_iff j).mpr hj
  rcases List.mem_append.mp hm with h1 | h2
  · exact absurd h1 hnot
  · exact h2

theorem IsSortedIndices.cross (h : IsSortedIndices n F_0 F_1 W idx) {k a b : Nat}
    (ha : a ∈ idx.take k) (hb : b ∈ idx.drop k) : W_comp F_0 F_1 W b a = false := by
  have hp := h.2
  rw [← List.take_append_drop k idx, List.pairwise_append] at hp
  exact hp.2.2 a ha b hb

theorem IsSortedIndices.card_take (h : IsSortedIndices n F_0 F_1 W idx) {k : Nat}
    (hk : k ≤ n) : (idx.take k).toFinset.card = k := by
  rw [List.toFinset_card_of_nodup (h.nodup.sublist (List.take_sublist k idx)),
    List.length_take, h.length]
  exact Nat.min_eq_left hk

/-- Not smaller for the comparator, in terms of rank and weight. -/
theorem not_W_comp_iff (hc : ∀ j < n, ¬(F_0 j j = true ∧ F_1 j j = true)) {a b : Nat}
    (ha : a < n) (hb : b < n) :
    W_comp F_0 F_1 W b a = false ↔
      (fixRank F_0 F_1 a ≤ fixRank F_0 F_1 b ∧
        (fixRank F_0 F_1 b = fixRank F_0 F_1 a → W a ≤ W b)) := by
  rw [Bool.eq_false_iff, Ne, W_comp_iff (hc b hb) (hc a ha)]
  push_neg
  rfl

theorem fixRank_eq_zero_iff (j : Nat) : fixRank F_0 F_1 j = 0 ↔ F_1 j j = true := by
  unfold fixRank
  cases F_1 j j <;> cases F_0 j j <;> simp

theorem fixRank_eq_two_iff (hc : ∀ j < n, ¬(F_0 j j = true ∧ F_1 j j = true)) {j : Nat}
    (hj : j < n) : fixRank F_0 F_1 j = 2 ↔ F_0 j j = true := by
  have := hc j hj
  unfold fixRank
  cases h1 : F_1 j j <;> cases h0 : F_0 j j <;> simp_all

theorem fixRank_le_two (j : Nat) : fixRank F_0 F_1 j ≤ 2 := by
  unfold fixRank
  split_ifs <;> omega

/-- Every index with `F_1[j][j]` is among the first `k`, if there are at most `k` of them. -/
theorem IsSortedIndices.forced_mem_take (h : IsSortedIndices n F_0 F_1 W idx)
    (hc : ∀ j < n, ¬(F_0 j j = true ∧ F_1 j j = true)) {k : Nat} (hk : k ≤ n)
    (h1 : ((Finset.range n).filter (fun j => F_1 j j = true)).card ≤ k) {j : Nat} (hj : j < n)
    (hF : F_1 j j = true) : j ∈ idx.take k := by
  by_contra hnot
  have hd := h.mem_drop hj hnot
  have hsub : insert j (idx.take k).toFinset ⊆ (Finset.range n).filter (fun j => F_1 j j = true) := by
    intro a ha
    rw [Finset.mem_insert] at ha
    rw [Finset.mem_filter, Finset.mem_range]
    rcases ha with rfl | ha
    · exact ⟨hj, hF⟩
    · have ha' := List.mem_toFinset.mp ha
      have han := h.lt_of_mem_take ha'
      refine ⟨han, ?_⟩
      have := (not_W_comp_iff hc han hj).mp (h.cross ha' hd)
      rw [← @fixRank_eq_zero_iff F_0 F_1] at hF ⊢
      omega
  have hcard := Finset.card_le_card hsub
  rw [Finset.card_insert_of_not_mem (by simpa using hnot), h.card_take hk] at hcard
  omega

/-- No index with `F_0[j][j]` is among the first `k`, if at least `k` indices are without. -/
theorem IsSortedIndices.forbidden_not_mem_take (h : IsSortedIndices n F_0 F_1 W idx)
    (hc : ∀ j < n, ¬(F_0 j j = true ∧ F_1 j j = true)) {k : Nat} (hk : k ≤ n)
    (h0 : k ≤ ((Finset.range n).filter (fun j => F_0 j j = false)).card) {j : Nat}
    (hF : F_0 j j = true) : j ∉ idx.take k := by
  intro hmem
  have hj := h.lt_of_mem_take hmem
  have hsub : (Finset.range n).filter (fun j => F_0 j j = false) ⊆ (idx.take k).toFinset.erase j := by
    intro c hc'
    rw [Finset.mem_filter, Finset.mem_range] at hc'
    rw [Finset.mem_erase, List.mem_toFinset]
    refine ⟨?_, ?_⟩
    · rintro rfl
      rw [hF] at hc'
      exact absurd hc'.2 (by simp)
    · by_contra hnot
      have hd := h.mem_drop hc'.1 hnot
      have := (not_W_comp_iff hc hj hc'.1).mp (h.cross hmem hd)
      have h2 := (fixRank_eq_two_iff hc hj).mpr hF
      have h3 : fixRank F_0 F_1 c = 2 := by
        have := @fixRank_le_two F_0 F_1 c
        omega
      rw [fixRank_eq_two_iff hc hc'.1] at h3
      rw [h3] at hc'
      exact absurd hc'.2 (by simp)
  have hcard := Finset.card_le_card hsub
  rw [Finset.card_erase_of_mem (List.mem_toFinset.mpr hmem), h.card_take hk] at hcard
  have hkpos : 0 < k := by
    rcases Nat.eq_zero_or_pos k with h0' | h0'
    · subst h0'; simp at hmem
    · exact h0'
  omega

/-- An index among the first `k` is no heavier than a later one of the same rank. -/
theorem IsSortedIndices.W_le_of_rank_eq (h : IsSortedIndices n F_0 F_1 W idx)
    (hc : ∀ j < n, ¬(F_0 j j = true ∧ F_1 j j = true)) {k a b : Nat}
    (ha : a ∈ idx.take k) (hb : b < n) (hnb : b ∉ idx.take k)
    (hr : fixRank F_0 F_1 b = fixRank F_0 F_1 a) : W a ≤ W b :=
  ((not_W_comp_iff hc (h.lt_of_mem_take ha) hb).mp (h.cross ha (h.mem_drop hb hnb))).2 hr

/-- The first `k` indices are a lightest set of `k` admissible centers. -/
theorem IsSortedIndices.sum_take_le (h : IsSortedIndices n F_0 F_1 W idx)
    (hc : ∀ j < n, ¬(F_0 j j = true ∧ F_1 j j = true)) {k : Nat} (hk : k ≤ n)
    (T : Finset Nat) (hTn : ∀ j ∈ T, j < n) (hTk : T.card = k)
    (hT1 : ∀ j < n, F_1 j j = true → j ∈ T) (hT0 : ∀ j ∈ T, F_0 j j = false) :
    ∑ c in (idx.take k).toFinset, W c ≤ ∑ j in T, W j := by
  apply sum_le_sum_of_exchange _ _ _ ((h.card_take hk).trans hTk.symm)
  intro a ha haT b hb hbS
  rw [List.mem_toFinset] at ha hbS
  have han := h.lt_of_mem_take ha
  have hbn := hTn b hb
  have hcr := (not_W_comp_iff hc han hbn).mp (h.cross ha (h.mem_drop hbn hbS))
  have ha1 : fixRank F_0 F_1 a ≠ 0 := fun e => haT (hT1 a han ((fixRank_eq_zero_iff a).mp e))
  have hb2 : fixRank F_0 F_1 b ≠ 2 := by
    intro e
    have := (fixRank_eq_two_iff hc hbn).mp e
    rw [hT0 b hb] at this
    exact absurd this (by simp)
  have ha2 := @fixRank_le_two F_0 F_1 a
  have hb2' := @fixRank_le_two F_0 F_1 b
  exact hcr.2 (by omega)

end Selection

/-! ## What `eugene_tail` returns: value and selected set -/

theorem foldl_update_true (l : List Nat) (S0 : Nat → Bool) (j : Nat) :
    (l.foldl (fun S c => Function.update S c true) S0) j = (decide (j ∈ l) || S0 j) := by
  induction l generalizing S0 with
  | nil => simp
  | cons a l ih =>
    rw [List.foldl_cons, ih]
    by_cases hja : j = a
    · subst hja; simp
    · by_cases hjl : j ∈ l <;> simp [hja, hjl, Function.update_noteq hja]

section Tail

variable (n : Nat) (multipliers : Nat → ℚ) (L U : ℤ) (k : Nat) (population : Nat → ℤ)
  (wh : Nat → Nat → ℚ) (W : Nat → ℚ) (idx : List Nat)

theorem eugene_tail_S (j : Nat) :
    (eugene_tail n multipliers L U k population wh W idx).S j = decide (j ∈ idx.take k) := by
  simp [eugene_tail, foldl_update_true]

theorem eugene_tail_S_iff (j : Nat) :
    (eugene_tail n multipliers L U k population wh W idx).S j = true ↔ j ∈ idx.take k := by
  simp [eugene_tail_S]

theorem eugene_tail_W : (eugene_tail n multipliers L U k population wh W idx).W = W := rfl

theorem eugene_tail_w_hat :
    (eugene_tail n multipliers L U k population wh W idx).w_hat = wh := rfl

theorem eugene_tail_f_val :
    (eugene_tail n multipliers L U k population wh W idx).f_val
      = ∑ i in Finset.range n, alpha multipliers i + ((idx.take k).map W).sum := by
  show (idx.take k).foldl (fun acc c => acc + W c)
    ((List.range n).foldl (fun acc i => acc + alpha multipliers i) 0) = _
  rw [foldl_add_eq_sum, foldl_range_add_eq_sum, zero_add]

theorem eugene_tail_f_val_finset (hnd : idx.Nodup) :
    (eugene_tail n multipliers L U k population wh W idx).f_val
      = ∑ i in Finset.range n, alpha multipliers i + ∑ c in (idx.take k).toFinset, W c := by
  rw [eugene_tail_f_val, List.sum_toFinset W (hnd.sublist (List.take_sublist k idx))]

end Tail

/-! ## The Lagrangian bound -/

section Bound

variable {n k : Nat} {L U : ℤ} {population : Nat → ℤ} {x : Nat → Nat → Bool}

theorem HessFeasible.row_sum (hx : HessFeasible n k L U population x) {i : Nat} (hi : i < n)
    (c : ℚ) : ∑ j in Finset.range n, (if x i j then c else 0) = c := by
  rw [← Finset.sum_filter, Finset.sum_const, hx.1 i hi]
  simp

theorem HessFeasible.not_center (hx : HessFeasible n k L U population x) {i j : Nat}
    (hi : i < n) (hj : j < n) (h : x j j = false) : x i j = false := by
  by_contra hne
  have := hx.2.2.1 i hi j hj (by simpa using hne)
  rw [h] at this
  exact absurd this (by simp)

/-- In every column the relaxed constraints are paid for with a non-negative amount. -/
theorem column_gap_nonneg (multipliers : Nat → ℚ) (w : Nat → Nat → ℚ) (hL : 0 < L)
    (hLU : L ≤ U) (hx : HessFeasible n k L U population x) {j : Nat} (hj : j < n) :
    0 ≤ ∑ i in Finset.range n,
      (if x i j then w i j - alpha multipliers i - w_hat n multipliers L U population w i j
        else 0) := by
  set a := cabs (lambda n multipliers j) with ha
  set b := cabs (upsilon n multipliers j) with hb
  have ha0 : 0 ≤ a := cabs_nonneg _
  have hb0 : 0 ≤ b := cabs_nonneg _
  have hLq : (0 : ℚ) < (L : ℚ) := by exact_mod_cast hL
  have hUq : (0 : ℚ) < (U : ℚ) := by exact_mod_cast lt_of_lt_of_le hL hLU
  set P : ℤ := ∑ i in Finset.range n, population i * boolToInt (x i j) with hP
  have term : ∀ i ∈ Finset.range n,
      (if x i j then w i j - alpha multipliers i - w_hat n multipliers L U population w i j
        else 0)
      = a / L * ((population i * boolToInt (x i j) : ℤ) : ℚ)
        - b / U * ((population i * boolToInt (x i j) : ℤ) : ℚ)
        - (if i = j then (a - b) * ((boolToInt (x j j) : ℤ) : ℚ) else 0) := by
    intro i _
    unfold w_hat
    by_cases hij : i = j
    · subst hij
      cases hxi : x i i <;> simp [boolToInt, ← ha, ← hb]
      ring
    · cases hxi : x i j <;> simp [boolToInt, hij, ← ha, ← hb]
      ring
  have key : ∑ i in Finset.range n,
      (if x i j then w i j - alpha multipliers i - w_hat n multipliers L U population w i j
        else 0)
      = a / L * (P : ℚ) - b / U * (P : ℚ) - (a - b) * ((boolToInt (x j j) : ℤ) : ℚ) := by
    rw [Finset.sum_congr rfl term, Finset.sum_sub_distrib, Finset.sum_sub_distrib,
      ← Finset.mul_sum, ← Finset.mul_sum, Finset.sum_ite_eq' (Finset.range n) j,
      if_pos (Finset.mem_range.mpr hj), hP]
    push_cast
    ring
  rw [key]
  have hlo := hx.2.2.2.1 j hj
  have hhi := hx.2.2.2.2 j hj
  rw [← hP] at hlo hhi
  cases hxj : x j j
  · rw [hxj] at hlo hhi
    simp only [boolToInt, Bool.false_eq_true, if_false, mul_zero] at hlo hhi
    have hP0 : P = 0 := le_antisymm hhi hlo
    simp [hP0, boolToInt]
  · rw [hxj] at hlo hhi
    simp only [boolToInt, if_true, mul_one] at hlo hhi
    have hloq : (L : ℚ) ≤ (P : ℚ) := by exact_mod_cast hlo
    have hhiq : (P : ℚ) ≤ (U : ℚ) := by exact_mod_cast hhi
    have h1 : 1 ≤ (P : ℚ) / L := by rw [le_div_iff₀ hLq]; simpa using hloq
    have h2 : (P : ℚ) / U ≤ 1 := by rw [div_le_iff₀ hUq]; simpa using hhiq
    have e : a / L * (P : ℚ) - b / U * (P : ℚ) - (a - b) * ((boolToInt true : ℤ) : ℚ)
        = a * ((P : ℚ) / L - 1) + b * (1 - (P : ℚ) / U) := by
      simp [boolToInt]; ring
    rw [e]
    exact add_nonneg (mul_nonneg ha0 (sub_nonneg.mpr h1)) (mul_nonneg hb0 (sub_nonneg.mpr h2))

/-- The cost of `x` is at least the multipliers plus the reduced costs of its columns. -/
theorem hessCost_ge_colCost (multipliers : Nat → ℚ) (w : Nat → Nat → ℚ) (hL : 0 < L)
    (hLU : L ≤ U) (hx : HessFeasible n k L U population x) :
    ∑ i in Finset.range n, alpha multipliers i
      + ∑ j in Finset.range n, colCost n (w_hat n multipliers L U population w) x j
      ≤ hessCost n w x := by
  have h1 : ∑ i in Finset.range n, alpha multipliers i
      = ∑ j in Finset.range n, ∑ i in Finset.range n,
          (if x i j then alpha multipliers i else 0) := by
    rw [Finset.sum_comm]
    exact Finset.sum_congr rfl (fun i hi => (hx.row_sum (Finset.mem_range.mp hi) _).symm)
  have h2 : hessCost n w x
      = ∑ j in Finset.range n, ∑ i in Finset.range n, (if x i j then w i j else 0) := by
    unfold hessCost; rw [Finset.sum_comm]
  rw [h1, h2, ← Finset.sum_add_distrib, ← sub_nonneg, ← Finset.sum_sub_distrib]
  apply Finset.sum_nonneg
  intro j hj
  have hg := column_gap_nonneg multipliers w hL hLU hx (Finset.mem_range.mp hj)
  unfold colCost
  rw [← Finset.sum_add_distrib, ← Finset.sum_sub_distrib]
  refine le_of_le_of_eq hg (Finset.sum_congr rfl ?_)
  intro i _
  cases x i j <;> simp
  ring

end Bound

section Columns

variable {n k : Nat} {L U : ℤ} {population : Nat → ℤ} {x : Nat → Nat → Bool}
  {F_0 F_1 : Nat → Nat → Bool}

theorem excess_nonneg (wh : Nat → Nat → ℚ) (hag : AgreesWith n F_0 F_1 x) {i j : Nat}
    (hi : i < n) (hj : j < n) (hxj : x j j = true) : 0 ≤ excess F_0 F_1 wh x i j := by
  unfold excess contribution
  by_cases hij : i = j
  · subst hij; simp [hxj]
  · have h0 := (hag i hi j hj).1
    have h1 := (hag i hi j hj).2
    cases hF0 : F_0 i j
    · cases hF1 : F_1 i j
      · cases hxi : x i j
        · simp [hij]
        · simp only [hij, if_false, if_true, Bool.false_eq_true, sub_zero, sub_nonneg]
          exact min_le_right _ _
      · simp [hij, h1 hF1]
    · simp [hij, h0 hF0]

/-- The excess of a free pair that `x` uses is the positive part of its reduced cost. -/
theorem excess_of_free (wh : Nat → Nat → ℚ) {i j : Nat} (hij : i ≠ j) (h0 : F_0 i j = false)
    (h1 : F_1 i j = false) (hxi : x i j = true) :
    excess F_0 F_1 wh x i j = max 0 (wh i j) := by
  unfold excess contribution
  simp only [hij, h0, h1, hxi, if_false, if_true, Bool.false_eq_true, sub_zero]
  rcases le_total 0 (wh i j) with h | h
  · rw [min_eq_left h, max_eq_right h]; ring
  · rw [min_eq_right h, max_eq_left h]; ring

theorem colCost_eq_W_add_excess (wh : Nat → Nat → ℚ) {j : Nat} (hj : j < n) :
    colCost n wh x j
      = W_val n F_0 F_1 wh j + ∑ i in Finset.range n, excess F_0 F_1 wh x i j := by
  have h : ∑ i in Finset.range n, excess F_0 F_1 wh x i j
      = colCost n wh x j - ∑ i in Finset.range n, contribution F_0 F_1 wh i j - wh j j := by
    unfold excess colCost
    rw [Finset.sum_sub_distrib, Finset.sum_sub_distrib, Finset.sum_ite_eq' (Finset.range n) j,
      if_pos (Finset.mem_range.mpr hj)]
  rw [h, W_val_eq]
  ring

theorem W_le_colCost (wh : Nat → Nat → ℚ) (hag : AgreesWith n F_0 F_1 x) {j : Nat}
    (hj : j < n) (hxj : x j j = true) : W_val n F_0 F_1 wh j ≤ colCost n wh x j := by
  rw [@colCost_eq_W_add_excess n x F_0 F_1 wh j hj]
  have := Finset.sum_nonneg
    (fun i (hi : i ∈ Finset.range n) => excess_nonneg wh hag (Finset.mem_range.mp hi) hj hxj)
  linarith

/-- A column that uses the free pair `(i, j)` costs at least `W[j] + max(0, w_hat[i][j])`. -/
theorem W_add_max_le_colCost (wh : Nat → Nat → ℚ) (hag : AgreesWith n F_0 F_1 x) {i j : Nat}
    (hi : i < n) (hj : j < n) (hxj : x j j = true) (hij : i ≠ j) (h1 : F_1 i j = false)
    (hxi : x i j = true) : W_val n F_0 F_1 wh j + max 0 (wh i j) ≤ colCost n wh x j := by
  rw [@colCost_eq_W_add_excess n x F_0 F_1 wh j hj]
  have h0 : F_0 i j = false := by
    by_contra hne
    have := (hag i hi j hj).1 (by simpa using hne)
    rw [hxi] at this
    exact absurd this (by simp)
  have hs := Finset.single_le_sum
    (fun a (ha : a ∈ Finset.range n) => excess_nonneg wh hag (Finset.mem_range.mp ha) hj hxj)
    (Finset.mem_range.mpr hi)
  rw [excess_of_free wh hij h0 h1 hxi] at hs
  linarith

theorem colCost_eq_zero (wh : Nat → Nat → ℚ) (hx : HessFeasible n k L U population x) {j : Nat}
    (hj : j < n) (hxj : x j j = false) : colCost n wh x j = 0 := by
  unfold colCost
  apply Finset.sum_eq_zero
  intro i hi
  rw [hx.not_center (Finset.mem_range.mp hi) hj hxj]
  simp

theorem sum_colCost_eq (wh : Nat → Nat → ℚ) (hx : HessFeasible n k L U population x) :
    ∑ j in Finset.range n, colCost n wh x j = ∑ j in centersOf n x, colCost n wh x j := by
  unfold centersOf
  rw [Finset.sum_filter]
  apply Finset.sum_congr rfl
  intro j hj
  cases hxj : x j j
  · simp [colCost_eq_zero wh hx (Finset.mem_range.mp hj) hxj]
  · simp

theorem mem_centersOf {j : Nat} : j ∈ centersOf n x ↔ j < n ∧ x j j = true := by
  unfold centersOf
  rw [Finset.mem_filter, Finset.mem_range]

/-- Lagrangian bound: a feasible `x` that agrees with the tables costs at least the sum of
the multipliers `alpha` plus the weights `W` of its centers. -/
theorem lagrangian_bound (multipliers : Nat → ℚ) (w : Nat → Nat → ℚ) (hL : 0 < L)
    (hLU : L ≤ U) (hx : HessFeasible n k L U population x) (hag : AgreesWith n F_0 F_1 x) :
    ∑ i in Finset.range n, alpha multipliers i
      + ∑ j in centersOf n x, W_val n F_0 F_1 (w_hat n multipliers L U population w) j
      ≤ hessCost n w x := by
  have h1 := hessCost_ge_colCost multipliers w hL hLU hx
  rw [sum_colCost_eq _ hx] at h1
  have h2 : ∑ j in centersOf n x, W_val n F_0 F_1 (w_hat n multipliers L U population w) j
      ≤ ∑ j in centersOf n x, colCost n (w_hat n multipliers L U population w) x j :=
    Finset.sum_le_sum (fun j hj =>
      W_le_colCost _ hag (mem_centersOf.mp hj).1 (mem_centersOf.mp hj).2)
  linarith

/-- The centers of a feasible `x` that agrees with the tables are an admissible set. -/
theorem centersOf_admissible (hx : HessFeasible n k L U population x)
    (hag : AgreesWith n F_0 F_1 x) :
    (∀ j ∈ centersOf n x, j < n) ∧ (centersOf n x).card = k ∧
      (∀ j < n, F_1 j j = true → j ∈ centersOf n x) ∧
      (∀ j ∈ centersOf n x, F_0 j j = false) := by
  refine ⟨fun j hj => (mem_centersOf.mp hj).1, hx.2.1, ?_, ?_⟩
  · intro j hj hF
    exact mem_centersOf.mpr ⟨hj, (hag j hj j hj).2 hF⟩
  · intro j hj
    obtain ⟨hjn, hxj⟩ := mem_centersOf.mp hj
    by_contra hne
    have := (hag j hjn j hjn).1 (by simpa using hne)
    rw [hxj] at this
    exact absurd this (by simp)

end Columns

/-! ## What `eugene_inner` returns -/

section Inner

variable (n : Nat) (multipliers : Nat → ℚ) (L U : ℤ) (k : Nat) (population : Nat → ℤ)
  (w : Nat → Nat → ℚ) (F_0 F_1 : Nat → Nat → Bool)

theorem eugene_inner_W :
    (eugene_inner n multipliers L U k population w F_0 F_1).W
      = W_val n F_0 F_1 (w_hat n multipliers L U population w) := rfl

theorem eugene_inner_w_hat :
    (eugene_inner n multipliers L U k population w F_0 F_1).w_hat
      = w_hat n multipliers L U population w := rfl

theorem eugene_inner_S_iff (j : Nat) :
    (eugene_inner n multipliers L U k population w F_0 F_1).S j = true
      ↔ j ∈ (W_indices n F_0 F_1
          (W_val n F_0 F_1 (w_hat n multipliers L U population w))).take k := by
  unfold eugene_inner
  exact eugene_tail_S_iff _ _ _ _ _ _ _ _ _ _

theorem eugene_inner_f_val :
    (eugene_inner n multipliers L U k population w F_0 F_1).f_val
      = ∑ i in Finset.range n, alpha multipliers i
        + ∑ c in ((W_indices n F_0 F_1
            (W_val n F_0 F_1 (w_hat n multipliers L U population w))).take k).toFinset,
            W_val n F_0 F_1 (w_hat n multipliers L U population w) c := by
  unfold eugene_inner
  exact eugene_tail_f_val_finset _ _ _ _ _ _ _ _ _
    ((W_indices_perm _ _ _ _).nodup_iff.mpr (List.nodup_range n))

end Inner

/-! ## The array loops of the gradient -/

theorem foldl_range_update (v : Nat → ℚ) (n : Nat) (g0 : Nat → ℚ) (t : Nat) :
    ((List.range n).foldl (fun g i => Function.update g i (v i)) g0) t
      = if t < n then v t else g0 t := by
  induction n with
  | zero => simp
  | succ n ih =>
    rw [List.range_succ, List.foldl_append, List.foldl_cons, List.foldl_nil,
      Function.update_apply, ih]
    by_cases h1 : t = n
    · subst h1; simp
    · by_cases h2 : t < n
      · simp [h1, h2, Nat.lt_succ_of_lt h2]
      · have h3 : ¬ t < n + 1 := by omega
        simp [h1, h2, h3]

theorem foldl_range_zero (m n : Nat) (g0 : Nat → ℚ) (t : Nat) :
    ((List.range m).foldl
        (fun g i => Function.update (Function.update g (i + n) 0) (i + 2 * n) 0) g0) t
      = if (n ≤ t ∧ t < n + m) ∨ (2 * n ≤ t ∧ t < 2 * n + m) then 0 else g0 t := by
  induction m with
  | zero =>
    have : ¬((n ≤ t ∧ t < n + 0) ∨ (2 * n ≤ t ∧ t < 2 * n + 0)) := by omega
    rw [if_neg this]; rfl
  | succ m ih =>
    rw [List.range_succ, List.foldl_append, List.foldl_cons, List.foldl_nil,
      Function.update_apply, Function.update_apply, ih]
    by_cases h1 : t = m + 2 * n
    · have : (n ≤ t ∧ t < n + (m + 1)) ∨ (2 * n ≤ t ∧ t < 2 * n + (m + 1)) := by omega
      rw [if_pos h1, if_pos this]
    · by_cases h2 : t = m + n
      · have : (n ≤ t ∧ t < n + (m + 1)) ∨ (2 * n ≤ t ∧ t < 2 * n + (m + 1)) := by omega
        rw [if_neg h1, if_pos h2, if_pos this]
      · rw [if_neg h1, if_neg h2]
        by_cases h3 : (n ≤ t ∧ t < n + m) ∨ (2 * n ≤ t ∧ t < 2 * n + m)
        · have : (n ≤ t ∧ t < n + (m + 1)) ∨ (2 * n ≤ t ∧ t < 2 * n + (m + 1)) := by omega
          rw [if_pos h3, if_pos this]
        · have : ¬((n ≤ t ∧ t < n + (m + 1)) ∨ (2 * n ≤ t ∧ t < 2 * n + (m + 1))) := by omega
          rw [if_neg h3, if_neg this]

theorem foldl_update_offset (off : Nat) (v : Nat → ℚ) (l : List Nat) (g0 : Nat → ℚ) (t : Nat) :
    (l.foldl (fun g c => Function.update g (off + c) (v c)) g0) t
      = if off ≤ t ∧ t - off ∈ l then v (t - off) else g0 t := by
  induction l generalizing g0 with
  | nil => simp
  | cons a l ih =>
    rw [List.foldl_cons, ih, Function.update_apply]
    by_cases h1 : off ≤ t ∧ t - off ∈ l
    · have : off ≤ t ∧ t - off ∈ a :: l := ⟨h1.1, List.mem_cons_of_mem a h1.2⟩
      rw [if_pos h1, if_pos this]
    · rw [if_neg h1]
      by_cases h2 : t = off + a
      · have : off ≤ t ∧ t - off ∈ a :: l := by
          refine ⟨by omega, ?_⟩
          have : t - off = a := by omega
          rw [this]; exact List.mem_cons_self a l
        rw [if_pos h2, if_pos this]
        congr 1; omega
      · have : ¬(off ≤ t ∧ t - off ∈ a :: l) := by
          rintro ⟨h3, h4⟩
          rcases List.mem_cons.mp h4 with h5 | h5
          · exact h2 (by omega)
          · exact h1 ⟨h3, h5⟩
        rw [if_neg h2, if_neg this]

theorem foldl_range_negate (c : Nat → Prop) [DecidablePred c] (off m : Nat) (g0 : Nat → ℚ)
    (t : Nat) :
    ((List.range m).foldl
        (fun g i => if c i then Function.update g (i + off) (-(g (i + off))) else g) g0) t
      = if off ≤ t ∧ t < off + m ∧ c (t - off) then -(g0 t) else g0 t := by
  induction m generalizing t with
  | zero =>
    have : ¬(off ≤ t ∧ t < off + 0 ∧ c (t - off)) := by omega
    rw [if_neg this]; rfl
  | succ m ih =>
    rw [List.range_succ, List.foldl_append, List.foldl_cons, List.foldl_nil]
    by_cases hc : c m
    · rw [if_pos hc, Function.update_apply, ih, ih]
      by_cases h1 : t = m + off
      · have hm : t - off = m := by omega
        have h2 : off ≤ t ∧ t < off + (m + 1) ∧ c (t - off) := ⟨by omega, by omega, by rwa [hm]⟩
        have h3 : ¬(off ≤ m + off ∧ m + off < off + m ∧ c (m + off - off)) := by omega
        rw [if_pos h1, if_neg h3, if_pos h2, h1]
      · rw [if_neg h1]
        by_cases h2 : off ≤ t ∧ t < off + m ∧ c (t - off)
        · have : off ≤ t ∧ t < off + (m + 1) ∧ c (t - off) := ⟨h2.1, by omega, h2.2.2⟩
          rw [if_pos h2, if_pos this]
        · have : ¬(off ≤ t ∧ t < off + (m + 1) ∧ c (t - off)) := by
            rintro ⟨h3, h4, h5⟩
            exact h2 ⟨h3, by omega, h5⟩
          rw [if_neg h2, if_neg this]
    · rw [if_neg hc, ih]
      by_cases h2 : off ≤ t ∧ t < off + m ∧ c (t - off)
      · have : off ≤ t ∧ t < off + (m + 1) ∧ c (t - off) := ⟨h2.1, by omega, h2.2.2⟩
        rw [if_pos h2, if_pos this]
      · have : ¬(off ≤ t ∧ t < off + (m + 1) ∧ c (t - off)) := by
          rintro ⟨h3, h4, h5⟩
          by_cases h6 : t - off = m
          · rw [h6] at h5; exact hc h5
          · exact h2 ⟨h3, by omega, h5⟩
        rw [if_neg h2, if_neg this]

theorem foldl_count (p : Nat → Bool) (l : List Nat) (init : ℚ) :
    l.foldl (fun acc c => if p c then acc - 1 else acc) init = init - (l.countP p : ℚ) := by
  induction l generalizing init with
  | nil => simp
  | cons a l ih =>
    rw [List.foldl_cons, ih, List.countP_cons]
    cases hp : p a
    · simp
    · simp; ring

theorem foldl_range_sub (p : Nat → Bool) (f : Nat → ℚ) (n : Nat) (init : ℚ) :
    (List.range n).foldl (fun acc i => if p i then acc - f i else acc) init
      = init - ∑ i in Finset.range n, (if p i then f i else 0) := by
  have e : (fun (acc : ℚ) (i : Nat) => if p i then acc - f i else acc)
      = (fun acc i => acc + (if p i then -(f i) else 0)) := by
    funext acc i
    split_ifs <;> ring
  rw [e, foldl_range_add_eq_sum, sub_eq_add_neg, ← Finset.sum_neg_distrib]
  congr 1
  apply Finset.sum_congr rfl
  intro i _
  split_ifs <;> simp

theorem foldl_range_add_if (p : Nat → Bool) (f : Nat → ℚ) (n : Nat) (init : ℚ) :
    (List.range n).foldl (fun acc i => if p i then acc + f i else acc) init
      = init + ∑ i in Finset.range n, (if p i then f i else 0) := by
  have e : (fun (acc : ℚ) (i : Nat) => if p i then acc + f i else acc)
      = (fun acc i => acc + (if p i then f i else 0)) := by
    funext acc i
    split_ifs <;> ring
  rw [e, foldl_range_add_eq_sum]

/-! ## What `eugene_tail` returns: the gradient -/

section TailGrad

variable (n : Nat) (multipliers : Nat → ℚ) (L U : ℤ) (k : Nat) (population : Nat → ℤ)
  (wh : Nat → Nat → ℚ) (W : Nat → ℚ) (idx : List Nat)

theorem eugene_tail_grad_alpha {i : Nat} (hi : i < n) :
    (eugene_tail n multipliers L U k population wh W idx).grad i
      = 1 - ((idx.take k).countP (counted wh i) : ℚ) := by
  unfold eugene_tail
  simp only [foldl_range_negate, foldl_update_offset, foldl_range_zero, foldl_range_update,
    foldl_count]
  have h1 : ¬(2 * n ≤ i) := by omega
  have h2 : ¬(n ≤ i) := by omega
  simp [h1, h2, hi]

theorem eugene_tail_grad_lambda {j : Nat} (hj : j < n) :
    (eugene_tail n multipliers L U k population wh W idx).grad (n + j)
      = if lambda n multipliers j < 0
        then -(if j ∈ idx.take k then residualL n L population wh j else 0)
        else (if j ∈ idx.take k then residualL n L population wh j else 0) := by
  unfold eugene_tail residualL
  simp only [foldl_range_negate, foldl_update_offset, foldl_range_zero, foldl_range_update,
    foldl_count, foldl_range_sub]
  have h1 : ¬(2 * n ≤ n + j) := by omega
  have h2 : n ≤ n + j := by omega
  have h3 : n + j - n = j := by omega
  have h4 : n + j < n + n := by omega
  simp [h1, h2, h3, h4]

theorem eugene_tail_grad_upsilon (hidx : ∀ c ∈ idx.take k, c < n) {j : Nat} (hj : j < n) :
    (eugene_tail n multipliers L U k population wh W idx).grad (2 * n + j)
      = if upsilon n multipliers j < 0
        then -(if j ∈ idx.take k then residualU n U population wh j else 0)
        else (if j ∈ idx.take k then residualU n U population wh j else 0) := by
  unfold eugene_tail residualU
  simp only [foldl_range_negate, foldl_update_offset, foldl_range_zero, foldl_range_update,
    foldl_count, foldl_range_add_if]
  have h1 : 2 * n ≤ 2 * n + j := by omega
  have h2 : ¬(2 * n + j < n + n) := by omega
  have h3 : 2 * n + j - 2 * n = j := by omega
  have h4 : 2 * n + j < 2 * n + n := by omega
  have h5 : 2 * n + j - n ∉ idx.take k := fun h => by
    have := hidx _ h
    omega
  have h6 : n ≤ 2 * n + j := by omega
  simp [h1, h2, h3, h4, h5, h6]

end TailGrad

/-! ## Scenario 2 with zero multipliers -/

theorem sortBy_eq_self_of_never_lt (lt : Nat → Nat → Bool) (h : ∀ a b, lt a b = false)
    (l : List Nat) : sortBy lt l = l := by
  induction l with
  | nil => rfl
  | cons a l ih =>
    unfold sortBy
    rw [ih]
    cases l with
    | nil => rfl
    | cons b l => simp [insertSorted, h]

theorem w_hat_mu0 (n : Nat) (L U : ℤ) (population : Nat → ℤ) (w : Nat → Nat → ℚ) :
    w_hat n mu0 L U population w = w := by
  funext i j
  simp [w_hat, mu0, cabs, alpha, lambda, upsilon]

theorem w_scenario2_eq (i j : Nat) : w_scenario2 i j = if i = j then 0 else 1 / 100000 := by
  unfold w_scenario2 get_objective_coefficient unitDist pop10
  split_ifs <;> norm_num

theorem w_scenario2_nonneg (i j : Nat) : 0 ≤ w_scenario2 i j := by
  rw [w_scenario2_eq]; split_ifs <;> norm_num

theorem counted_w_scenario2 (i c : Nat) : counted w_scenario2 i c = decide (i = c) := by
  unfold counted
  have : ¬ w_scenario2 i c < 0 := not_lt.mpr (w_scenario2_nonneg i c)
  simp [this]

theorem W_val_scenario2 (n : Nat) (j : Nat) : W_val n noFix noFix w_scenario2 j = 0 := by
  rw [W_val_eq]
  have h0 : w_scenario2 j j = 0 := by rw [w_scenario2_eq]; simp
  rw [h0, zero_add]
  apply Finset.sum_eq_zero
  intro i _
  unfold contribution noFix
  by_cases hij : i = j
  · simp [hij]
  · simp [hij, w_scenario2_nonneg]

theorem W_indices_scenario2 :
    W_indices 4 noFix noFix (W_val 4 noFix noFix w_scenario2) = [0, 1, 2, 3] := by
  unfold W_indices
  rw [sortBy_eq_self_of_never_lt]
  · rfl
  · intro a b
    simp [W_comp, noFix, boolToInt, W_val_scenario2]

theorem eugene_inner_scenario2 :
    eugene_inner 4 mu0 20 20 2 pop10 w_scenario2 noFix noFix
      = eugene_tail 4 mu0 20 20 2 pop10 w_scenario2 (W_val 4 noFix noFix w_scenario2)
          [0, 1, 2, 3] := by
  unfold eugene_inner
  simp only [w_hat_mu0, W_indices_scenario2]

/-! ## The gradient of `eugene_inner` with empty tables is a supergradient -/

theorem W_val_noFix (n : Nat) (wh : Nat → Nat → ℚ) (j : Nat) :
    W_val n noFix noFix wh j
      = wh j j + ∑ i in Finset.range n, (if i = j then 0 else min 0 (wh i j)) := by
  rw [W_val_eq]
  congr 1

/-- Linearisation of a column weight at `wh`: the pairs counted by the gradient carry the
change of the reduced cost. -/
theorem W_val_noFix_le (n : Nat) (wh wh' : Nat → Nat → ℚ) {j : Nat} (hj : j < n) :
    W_val n noFix noFix wh' j
      ≤ W_val n noFix noFix wh j
        + ∑ i in Finset.range n, (if counted wh i j then wh' i j - wh i j else 0) := by
  rw [W_val_noFix, W_val_noFix]
  have e : ∑ i in Finset.range n, (if i = j then wh' i j - wh i j else 0)
      = wh' j j - wh j j := by
    rw [Finset.sum_ite_eq' (Finset.range n) j, if_pos (Finset.mem_range.mpr hj)]
  have key : ∑ i in Finset.range n, (if i = j then 0 else min 0 (wh' i j))
        + ∑ i in Finset.range n, (if i = j then wh' i j - wh i j else 0)
      ≤ ∑ i in Finset.range n, (if i = j then 0 else min 0 (wh i j))
        + ∑ i in Finset.range n, (if counted wh i j then wh' i j - wh i j else 0) := by
    rw [← Finset.sum_add_distrib, ← Finset.sum_add_distrib]
    apply Finset.sum_le_sum
    intro i _
    unfold counted
    by_cases hij : i = j
    · simp [hij]
    · by_cases hneg : wh i j < 0
      · simp only [hij, hneg, if_false, decide_False, decide_True, Bool.or_true, if_true,
          Bool.false_or, add_zero]
        rw [min_eq_right hneg.le]
        have := min_le_right 0 (wh' i j)
        linarith
      · simp only [hij, hneg, if_false, decide_False, Bool.or_false, Bool.false_eq_true,
          add_zero]
        rw [min_eq_left (not_lt.mp hneg)]
        exact min_le_left 0 (wh' i j)
  rw [e] at key
  linarith

theorem noFix_consistent (n : Nat) : ∀ j < n, ¬(noFix j j = true ∧ noFix j j = true) := by
  intro j _; simp [noFix]

/-- With empty tables the first `k` indices sorted by `W` are no heavier (for `W`) than the
first `k` indices of any other sorted order. -/
theorem sum_take_le_noFix (n k : Nat) (W W0 : Nat → ℚ) :
    ∑ c in ((W_indices n noFix noFix W).take k).toFinset, W c
      ≤ ∑ c in ((W_indices n noFix noFix W0).take k).toFinset, W c := by
  have hs := W_indices_isSorted W (noFix_consistent n)
  have hs0 := W_indices_isSorted W0 (noFix_consistent n)
  rcases Nat.lt_or_ge n k with hk | hk
  · have h1 : (W_indices n noFix noFix W).take k = W_indices n noFix noFix W :=
      List.take_of_length_le (by rw [hs.length]; omega)
    have h2 : (W_indices n noFix noFix W0).take k = W_indices n noFix noFix W0 :=
      List.take_of_length_le (by rw [hs0.length]; omega)
    rw [h1, h2, List.toFinset_eq_of_perm _ _ (hs.1.trans hs0.1.symm)]
  · apply hs.sum_take_le (noFix_consistent n) hk
    · intro j hj
      exact hs0.lt_of_mem_take (List.mem_toFinset.mp hj)
    · exact hs0.card_take hk
    · intro j _ hF
      simp [noFix] at hF
    · intro j _
      rfl

theorem counted_self (wh : Nat → Nat → ℚ) (j : Nat) : counted wh j j = true := by
  simp [counted]

/-- The change of the counted reduced costs of column `j` between two multiplier vectors. -/
theorem column_change (n : Nat) (mu mu' : Nat → ℚ) (L U : ℤ) (population : Nat → ℤ)
    (w wh0 : Nat → Nat → ℚ) {j : Nat} (hj : j < n) :
    ∑ i in Finset.range n,
        (if counted wh0 i j then
          w_hat n mu' L U population w i j - w_hat n mu L U population w i j else 0)
      = -∑ i in Finset.range n, (if counted wh0 i j then mu' i - mu i else 0)
        + (cabs (lambda n mu' j) - cabs (lambda n mu j)) * residualL n L population wh0 j
        + (cabs (upsilon n mu' j) - cabs (upsilon n mu j)) * residualU n U population wh0 j := by
  set A := cabs (lambda n mu' j) - cabs (lambda n mu j) with hA
  set B := cabs (upsilon n mu' j) - cabs (upsilon n mu j) with hB
  have term : ∀ i ∈ Finset.range n,
      (if counted wh0 i j then
          w_hat n mu' L U population w i j - w_hat n mu L U population w i j else 0)
      = -(if counted wh0 i j then mu' i - mu i else 0)
        - A * (if counted wh0 i j then (population i : ℚ) / (L : ℚ) else 0)
        + B * (if counted wh0 i j then (population i : ℚ) / (U : ℚ) else 0)
        + (if i = j then A - B else 0) := by
    intro i _
    by_cases hij : i = j
    · subst hij
      simp only [counted_self, if_true, w_hat, alpha, hA, hB]
      ring
    · cases hc : counted wh0 i j
      · simp [hij]
      · simp only [if_true, w_hat, alpha, hij, if_false, hA, hB]
        ring
  rw [Finset.sum_congr rfl term, Finset.sum_add_distrib, Finset.sum_add_distrib,
    Finset.sum_sub_distrib, Finset.sum_neg_distrib, ← Finset.mul_sum, ← Finset.mul_sum,
    Finset.sum_ite_eq' (Finset.range n) j, if_pos (Finset.mem_range.mpr hj)]
  unfold residualL residualU
  ring

/-- The reflected component of the gradient times the change of a signed multiplier is the
unreflected component times the change of the absolute value. -/
theorem reflect_mul (G l l' : ℚ) (h1 : l < 0 → l' ≤ 0) (h2 : 0 ≤ l → 0 ≤ l') :
    (if l < 0 then -G else G) * (l' - l) = G * (cabs l' - cabs l) := by
  rw [cabs_eq, cabs_eq]
  by_cases hl : l < 0
  · rw [if_pos hl, abs_of_neg hl, abs_of_nonpos (h1 hl)]; ring
  · rw [if_neg hl, abs_of_nonneg (not_lt.mp hl), abs_of_nonneg (h2 (not_lt.mp hl))]

theorem countP_eq_sum (p : Nat → Bool) (n : Nat) (l : List Nat) (hnd : l.Nodup)
    (hl : ∀ c ∈ l, c < n) :
    (l.countP p : ℚ) = ∑ j in Finset.range n, (if j ∈ l then (if p j then 1 else 0) else 0) := by
  induction l with
  | nil => simp
  | cons a l ih =>
    have hnd' := List.nodup_cons.mp hnd
    have ha : a < n := hl a (List.mem_cons_self a l)
    have e : ∀ j ∈ Finset.range n,
        (if j ∈ a :: l then (if p j then (1 : ℚ) else 0) else 0)
          = (if j = a then (if p a then 1 else 0) else 0)
            + (if j ∈ l then (if p j then 1 else 0) else 0) := by
      intro j _
      by_cases hja : j = a
      · subst hja
        simp [hnd'.1]
      · simp [hja]
    rw [List.countP_cons, Finset.sum_congr rfl e, Finset.sum_add_distrib,
      Finset.sum_ite_eq' (Finset.range n) a, if_pos (Finset.mem_range.mpr ha),
      ← ih hnd'.2 (fun c hc => hl c (List.mem_cons_of_mem a hc))]
    push_cast
    cases p a <;> simp [add_comm]

theorem sum_range_three (n : Nat) (F : Nat → ℚ) :
    ∑ t in Finset.range (3 * n), F t
      = ∑ i in Finset.range n, F i + ∑ j in Finset.range n, F (n + j)
        + ∑ j in Finset.range n, F (2 * n + j) := by
  have h3 : 3 * n = n + (n + n) := by ring
  rw [h3, Finset.sum_range_add, Finset.sum_range_add, add_assoc]
  congr 2
  apply Finset.sum_congr rfl
  intro j _
  congr 1
  ring

theorem sum_toFinset_eq_sum_range (n : Nat) (l : List Nat) (hl : ∀ c ∈ l, c < n)
    (f : Nat → ℚ) :
    ∑ c in l.toFinset, f c = ∑ j in Finset.range n, (if j ∈ l then f j else 0) := by
  rw [← Finset.sum_filter]
  apply Finset.sum_congr _ (fun _ _ => rfl)
  ext j
  rw [List.mem_toFinset, Finset.mem_filter, Finset.mem_range]
  exact ⟨fun h => ⟨hl j h, h⟩, fun h => h.2⟩

theorem eugene_inner_grad_alpha (n : Nat) (mu : Nat → ℚ) (L U : ℤ) (k : Nat)
    (population : Nat → ℤ) (w : Nat → Nat → ℚ) (F_0 F_1 : Nat → Nat → Bool) {i : Nat}
    (hi : i < n) :
    (eugene_inner n mu L U k population w F_0 F_1).grad i
      = 1 - (((W_indices n F_0 F_1
          (W_val n F_0 F_1 (w_hat n mu L U population w))).take k).countP
            (counted (w_hat n mu L U population w) i) : ℚ) := by
  unfold eugene_inner
  exact eugene_tail_grad_alpha _ _ _ _ _ _ _ _ _ hi

theorem eugene_inner_grad_lambda (n : Nat) (mu : Nat → ℚ) (L U : ℤ) (k : Nat)
    (population : Nat → ℤ) (w : Nat → Nat → ℚ) (F_0 F_1 : Nat → Nat → Bool) {j : Nat}
    (hj : j < n) :
    (eugene_inner n mu L U k population w F_0 F_1).grad (n + j)
      = if lambda n mu j < 0
        then -(if j ∈ (W_indices n F_0 F_1
            (W_val n F_0 F_1 (w_hat n mu L U population w))).take k
          then residualL n L population (w_hat n mu L U population w) j else 0)
        else (if j ∈ (W_indices n F_0 F_1
            (W_val n F_0 F_1 (w_hat n mu L U population w))).take k
          then residualL n L population (w_hat n mu L U population w) j else 0) := by
  unfold eugene_inner
  exact eugene_tail_grad_lambda _ _ _ _ _ _ _ _ _ hj

theorem eugene_inner_grad_upsilon (n : Nat) (mu : Nat → ℚ) (L U : ℤ) (k : Nat)
    (population : Nat → ℤ) (w : Nat → Nat → ℚ) (F_0 F_1 : Nat → Nat → Bool) {j : Nat}
    (hj : j < n) :
    (eugene_inner n mu L U k population w F_0 F_1).grad (2 * n + j)
      = if upsilon n mu j < 0
        then -(if j ∈ (W_indices n F_0 F_1
            (W_val n F_0 F_1 (w_hat n mu L U population w))).take k
          then residualU n U population (w_hat n mu L U population w) j else 0)
        else (if j ∈ (W_indices n F_0 F_1
            (W_val n F_0 F_1 (w_hat n mu L U population w))).take k
          then residualU n U population (w_hat n mu L U population w) j else 0) := by
  unfold eugene_inner
  refine eugene_tail_grad_upsilon _ _ _ _ _ _ _ _ _ ?_ hj
  intro c hc
  have := List.mem_of_mem_take hc
  rw [(W_indices_perm _ _ _ _).mem_iff] at this
  exact List.mem_range.mp this

/-- With empty tables the value at `mu'` lies below the value at `mu` plus the gradient at
`mu` applied to `mu' - mu`, whenever `mu'` keeps the signs of the population multipliers. -/
theorem supergradient_core (n k : Nat) (L U : ℤ) (population : Nat → ℤ) (w : Nat → Nat → ℚ)
    (mu mu' : Nat → ℚ) (hs : SignCompatible n mu mu') :
    (eugene_inner n mu' L U k population w noFix noFix).f_val
      ≤ (eugene_inner n mu L U k population w noFix noFix).f_val
        + ∑ t in Finset.range (3 * n),
            (eugene_inner n mu L U k population w noFix noFix).grad t * (mu' t - mu t) := by
  have hS := W_indices_isSorted (W_val n noFix noFix (w_hat n mu L U population w))
    (noFix_consistent n)
  have hlt : ∀ c ∈ (W_indices n noFix noFix
      (W_val n noFix noFix (w_hat n mu L U population w))).take k, c < n :=
    fun c hc => hS.lt_of_mem_take hc
  have hnd : ((W_indices n noFix noFix
      (W_val n noFix noFix (w_hat n mu L U population w))).take k).Nodup :=
    hS.nodup.sublist (List.take_sublist _ _)
  have hA := sum_take_le_noFix n k (W_val n noFix noFix (w_hat n mu' L U population w))
    (W_val n noFix noFix (w_hat n mu L U population w))
  have hB := Finset.sum_le_sum (fun c hc =>
    W_val_noFix_le n (w_hat n mu L U population w) (w_hat n mu' L U population w)
      (hlt c (List.mem_toFinset.mp hc)))
  rw [Finset.sum_add_distrib] at hB
  have hI : ∑ i in Finset.range n, alpha mu' i - ∑ i in Finset.range n, alpha mu i
      + ∑ c in ((W_indices n noFix noFix
          (W_val n noFix noFix (w_hat n mu L U population w))).take k).toFinset,
          ∑ i in Finset.range n,
            (if counted (w_hat n mu L U population w) i c then
              w_hat n mu' L U population w i c - w_hat n mu L U population w i c else 0)
      = ∑ t in Finset.range (3 * n),
          (eugene_inner n mu L U k population w noFix noFix).grad t * (mu' t - mu t) := by
    rw [sum_range_three]
    have gA : ∀ i ∈ Finset.range n,
        (eugene_inner n mu L U k population w noFix noFix).grad i * (mu' i - mu i)
          = (mu' i - mu i) - ∑ j in Finset.range n,
              (if j ∈ (W_indices n noFix noFix
                  (W_val n noFix noFix (w_hat n mu L U population w))).take k
                then (if counted (w_hat n mu L U population w) i j then mu' i - mu i else 0)
                else 0) := by
      intro i hi
      rw [eugene_inner_grad_alpha _ _ _ _ _ _ _ _ _ (Finset.mem_range.mp hi),
        countP_eq_sum _ n _ hnd hlt, sub_mul, one_mul, Finset.sum_mul]
      congr 1
      apply Finset.sum_congr rfl
      intro j _
      split_ifs <;> simp
    have gL : ∀ j ∈ Finset.range n,
        (eugene_inner n mu L U k population w noFix noFix).grad (n + j)
            * (mu' (n + j) - mu (n + j))
          = (if j ∈ (W_indices n noFix noFix
                (W_val n noFix noFix (w_hat n mu L U population w))).take k
              then residualL n L population (w_hat n mu L U population w) j else 0)
            * (cabs (lambda n mu' j) - cabs (lambda n mu j)) := by
      intro j hj
      have hj' := Finset.mem_range.mp hj
      rw [eugene_inner_grad_lambda _ _ _ _ _ _ _ _ _ hj']
      exact reflect_mul _ _ _ (hs j hj').1 (hs j hj').2.1
    have gU : ∀ j ∈ Finset.range n,
        (eugene_inner n mu L U k population w noFix noFix).grad (2 * n + j)
            * (mu' (2 * n + j) - mu (2 * n + j))
          = (if j ∈ (W_indices n noFix noFix
                (W_val n noFix noFix (w_hat n mu L U population w))).take k
              then residualU n U population (w_hat n mu L U population w) j else 0)
            * (cabs (upsilon n mu' j) - cabs (upsilon n mu j)) := by
      intro j hj
      have hj' := Finset.mem_range.mp hj
      rw [eugene_inner_grad_upsilon _ _ _ _ _ _ _ _ _ hj']
      exact reflect_mul _ _ _ (hs j hj').2.2.1 (hs j hj').2.2.2
    rw [Finset.sum_congr rfl gA, Finset.sum_congr rfl gL, Finset.sum_congr rfl gU,
      sum_toFinset_eq_sum_range n _ hlt]
    have hcol : ∀ j ∈ Finset.range n,
        (if j ∈ (W_indices n noFix noFix
            (W_val n noFix noFix (w_hat n mu L U population w))).take k
          then ∑ i in Finset.range n,
            (if counted (w_hat n mu L U population w) i j then
              w_hat n mu' L U population w i j - w_hat n mu L U population w i j else 0)
          else 0)
        = -∑ i in Finset.range n,
              (if j ∈ (W_indices n noFix noFix
                  (W_val n noFix noFix (w_hat n mu L U population w))).take k
                then (if counted (w_hat n mu L U population w) i j then mu' i - mu i else 0)
                else 0)
          + (if j ∈ (W_indices n noFix noFix
                (W_val n noFix noFix (w_hat n mu L U population w))).take k
              then residualL n L population (w_hat n mu L U population w) j else 0)
            * (cabs (lambda n mu' j) - cabs (lambda n mu j))
          + (if j ∈ (W_indices n noFix noFix
                (W_val n noFix noFix (w_hat n mu L U population w))).take k
              then residualU n U population (w_hat n mu L U population w) j else 0)
            * (cabs (upsilon n mu' j) - cabs (upsilon n mu j)) := by
      intro j hj
      rw [column_change n mu mu' L U population w _ (Finset.mem_range.mp hj)]
      split_ifs
      · ring
      · simp
    rw [Finset.sum_congr rfl hcol, Finset.sum_add_distrib, Finset.sum_add_distrib,
      Finset.sum_neg_distrib, Finset.sum_sub_distrib, Finset.sum_comm]
    unfold alpha
    rw [← Finset.sum_sub_distrib]
    ring
  rw [eugene_inner_f_val n mu', eugene_inner_f_val n mu]
  linarith

/-! ## Scenario 2: values at `mu = 0` and at `alpha = 1` -/

theorem scenario2_grad_alpha :
    (eugene_inner 4 mu0 20 20 2 pop10 w_scenario2 noFix noFix).grad 0 = 0 ∧
    (eugene_inner 4 mu0 20 20 2 pop10 w_scenario2 noFix noFix).grad 1 = 0 ∧
    (eugene_inner 4 mu0 20 20 2 pop10 w_scenario2 noFix noFix).grad 2 = 1 ∧
    (eugene_inner 4 mu0 20 20 2 pop10 w_scenario2 noFix noFix).grad 3 = 1 := by
  rw [eugene_inner_scenario2]
  refine ⟨?_, ?_, ?_, ?_⟩ <;>
  · rw [eugene_tail_grad_alpha _ _ _ _ _ _ _ _ _ (by decide)]
    simp [counted_w_scenario2, List.countP_cons]

theorem scenario2_f_val_mu0 :
    (eugene_inner 4 mu0 20 20 2 pop10 w_scenario2 noFix noFix).f_val = 0 := by
  rw [eugene_inner_scenario2, eugene_tail_f_val]
  simp [alpha, mu0, W_val_scenario2]

theorem w_hat_mu_alpha1 {i : Nat} (hi : i < 4) (j : Nat) :
    w_hat 4 mu_alpha1 20 20 pop10 w_scenario2 i j = w_scenario2 i j - 1 := by
  have h1 : ¬(4 + j < 4) := by omega
  have h2 : ¬(2 * 4 + j < 4) := by omega
  simp [w_hat, mu_alpha1, cabs, alpha, lambda, upsilon, hi, h1, h2]

theorem W_val_mu_alpha1 {j : Nat} (hj : j < 4) :
    W_val 4 noFix noFix (w_hat 4 mu_alpha1 20 20 pop10 w_scenario2) j = -4 + 3 / 100000 := by
  rw [W_val_noFix]
  have hw : ∀ i ∈ Finset.range 4,
      (if i = j then (0 : ℚ) else min 0 (w_hat 4 mu_alpha1 20 20 pop10 w_scenario2 i j))
        = if i = j then 0 else 1 / 100000 - 1 := by
    intro i hi
    rw [w_hat_mu_alpha1 (Finset.mem_range.mp hi), w_scenario2_eq]
    by_cases hij : i = j
    · simp [hij]
    · simp only [hij, if_false]
      rw [min_eq_right (by norm_num)]
  rw [Finset.sum_congr rfl hw, w_hat_mu_alpha1 hj, w_scenario2_eq]
  interval_cases j <;> simp [Finset.sum_range_succ] <;> norm_num

theorem scenario2_f_val_mu_alpha1 :
    (eugene_inner 4 mu_alpha1 20 20 2 pop10 w_scenario2 noFix noFix).f_val
      = -4 + 6 / 100000 := by
  have hS := W_indices_isSorted
    (W_val 4 noFix noFix (w_hat 4 mu_alpha1 20 20 pop10 w_scenario2)) (noFix_consistent 4)
  rw [eugene_inner_f_val]
  have hc : ∀ c ∈ ((W_indices 4 noFix noFix
      (W_val 4 noFix noFix (w_hat 4 mu_alpha1 20 20 pop10 w_scenario2))).take 2).toFinset,
      W_val 4 noFix noFix (w_hat 4 mu_alpha1 20 20 pop10 w_scenario2) c = -4 + 3 / 100000 :=
    fun c hc => W_val_mu_alpha1 (hS.lt_of_mem_take (List.mem_toFinset.mp hc))
  rw [Finset.sum_congr rfl hc, Finset.sum_const, hS.card_take (by decide)]
  simp only [Finset.sum_range_succ, Finset.sum_range_zero, alpha, mu_alpha1]
  norm_num

theorem scenario2_gradient_step :
    ∑ t in Finset.range (3 * 4),
        (eugene_inner 4 mu0 20 20 2 pop10 w_scenario2 noFix noFix).grad t
          * (mu_alpha1 t - mu0 t) = 2 := by
  obtain ⟨h0, h1, h2, h3⟩ := scenario2_grad_alpha
  simp [Finset.sum_range_succ, mu_alpha1, mu0, h0, h1, h2, h3]
  norm_num

theorem signCompatible_mu0_mu_alpha1 : SignCompatible 4 mu0 mu_alpha1 := by
  intro j hj
  have h1 : ¬(4 + j < 4) := by omega
  have h2 : ¬(2 * 4 + j < 4) := by omega
  simp [lambda, upsilon, mu0, mu_alpha1, h1, h2]

/-! ## The loops of `lagrangianBasedSafeFixing` only add entries -/

theorem setTrue_apply (F : Nat → Nat → Bool) (a b i j : Nat) :
    setTrue F a b i j = (F i j || (decide (i = a) && decide (j = b))) := by
  unfold setTrue
  by_cases hi : i = a
  · subst hi
    by_cases hj : j = b
    · subst hj; simp
    · simp [Function.update_noteq hj, hj]
  · simp [Function.update_noteq hi, hi]

/-- A loop whose steps only add entries adds the union of what the steps add. -/
theorem foldl_marks {β : Type} (op : (Nat → Nat → Bool) → β → (Nat → Nat → Bool))
    (M : β → Nat → Nat → Bool) (h : ∀ F a i j, op F a i j = (F i j || M a i j))
    (l : List β) (F : Nat → Nat → Bool) (i j : Nat) :
    (l.foldl op F) i j = (F i j || l.any (fun a => M a i j)) := by
  induction l generalizing F with
  | nil => simp
  | cons a l ih =>
    rw [List.foldl_cons, ih, h, List.any_cons, Bool.or_assoc]

theorem any_range_eq (n b : Nat) (R : Nat → Bool) :
    (List.range n).any (fun j => decide (b = j) && R j) = (decide (b < n) && R b) := by
  rw [Bool.eq_iff_iff]
  simp only [List.any_eq_true, List.mem_range, Bool.and_eq_true, decide_eq_true_eq]
  constructor
  · rintro ⟨j, hj, rfl, hR⟩
    exact ⟨hj, hR⟩
  · rintro ⟨hb, hR⟩
    exact ⟨b, hb, rfl, hR⟩

theorem fixZeros_apply (n : Nat) (W : Nat → ℚ) (S : Nat → Bool) (f_val UB : ℚ)
    (wh : Nat → Nat → ℚ) (maxW : Option ℚ) (F : Nat → Nat → Bool) (i j : Nat) :
    fixZeros n W S f_val UB wh maxW F i j = (F i j || zeroRule n W S f_val UB wh maxW i j) := by
  unfold fixZeros
  rw [foldl_marks _ (fun j' a b => decide (b = j') && (decide (a < n) &&
    (if !S j' && infGt (infSub (f_val + W j') maxW) UB then true
     else decide (a ≠ j') &&
       ((!S j' && infGt (infAdd (infSub (f_val + W j') maxW) (cmax 0 (wh a j'))) UB)
         || (S j' && decide (f_val + cmax 0 (wh a j') > UB))))))]
  · rw [any_range_eq]
    unfold zeroRule
    cases decide (i < n) <;> cases decide (j < n) <;> simp
  · intro F j' a b
    by_cases hc1 : (!S j' && infGt (infSub (f_val + W j') maxW) UB) = true
    · rw [if_pos hc1, if_pos hc1]
      rw [foldl_marks _ (fun i' a b => decide (a = i') && decide (b = j'))
        (fun F i' a b => setTrue_apply F i' j' a b)]
      congr 1
      rw [Bool.eq_iff_iff]
      simp only [List.any_eq_true, List.mem_range, Bool.and_eq_true, decide_eq_true_eq]
      constructor
      · rintro ⟨i', hi', rfl, rfl⟩
        exact ⟨rfl, hi', trivial⟩
      · rintro ⟨rfl, ha, _⟩
        exact ⟨a, ha, rfl, rfl⟩
    · rw [if_neg hc1, if_neg hc1]
      rw [foldl_marks _ (fun i' a b => decide (a = i') && (decide (b = j') &&
        (decide (i' ≠ j') &&
          ((!S j' && infGt (infAdd (infSub (f_val + W j') maxW) (cmax 0 (wh i' j'))) UB)
            || (S j' && decide (f_val + cmax 0 (wh i' j') > UB))))))]
      · congr 1
        rw [any_range_eq]
        cases decide (a < n) <;> cases decide (b = j') <;> simp
      · intro F i' a b
        by_cases hij : i' = j'
        · simp [hij]
        · simp only [hij, if_false]
          by_cases h2 : (!S j' && infGt (infAdd (infSub (f_val + W j') maxW)
              (cmax 0 (wh i' j'))) UB) = true
          · by_cases h3 : (S j' && decide (f_val + cmax 0 (wh i' j') > UB)) = true
            · rw [if_pos h2, if_pos h3, setTrue_apply, setTrue_apply, h2, h3]
              cases F a b <;> cases decide (a = i') <;> cases decide (b = j') <;> simp [hij]
            · rw [if_pos h2, if_neg h3, setTrue_apply, h2]
              simp only [Bool.not_eq_true] at h3
              rw [h3]
              cases F a b <;> cases decide (a = i') <;> cases decide (b = j') <;> simp [hij]
          · by_cases h3 : (S j' && decide (f_val + cmax 0 (wh i' j') > UB)) = true
            · rw [if_neg h2, if_pos h3, setTrue_apply, h3]
              simp only [Bool.not_eq_true] at h2
              rw [h2]
              cases F a b <;> cases decide (a = i') <;> cases decide (b = j') <;> simp [hij]
            · rw [if_neg h2, if_neg h3]
              simp only [Bool.not_eq_true] at h2 h3
              rw [h2, h3]
              simp

theorem fixOnes_apply (clusters : List (List Nat)) (W : Nat → ℚ) (S : Nat → Bool)
    (f_val UB : ℚ) (minW : Option ℚ) (F : Nat → Nat → Bool) (i j : Nat) :
    fixOnes clusters W S f_val UB minW F i j
      = (F i j || oneRule clusters W S f_val UB minW i j) := by
  unfold fixOnes
  rw [foldl_marks _ (fun c a b => decide (a ∈ c) && decide (b ∈ c) &&
    (S b && infGt (infRAdd (f_val - W b) minW) UB))]
  · congr 1
    unfold oneRule
    rw [Bool.eq_iff_iff]
    simp only [List.any_eq_true, Bool.and_eq_true, decide_eq_true_eq]
    constructor
    · rintro ⟨c, hc, ⟨h1, h2⟩, h3⟩
      exact ⟨⟨c, hc, h1, h2⟩, h3⟩
    · rintro ⟨⟨c, hc, h1, h2⟩, h3⟩
      exact ⟨c, hc, ⟨h1, h2⟩, h3⟩
  · intro F c a b
    rw [foldl_marks _ (fun j' a b => decide (b = j') && (decide (a ∈ c) &&
      (S j' && infGt (infRAdd (f_val - W j') minW) UB)))]
    · congr 1
      rw [Bool.eq_iff_iff]
      simp only [List.any_eq_true, Bool.and_eq_true, decide_eq_true_eq]
      constructor
      · rintro ⟨j', hj', rfl, h1, h2⟩
        exact ⟨⟨h1, hj'⟩, h2⟩
      · rintro ⟨⟨h1, h2⟩, h3⟩
        exact ⟨b, h2, rfl, h1, h3⟩
    · intro F j' a b
      by_cases hc : (S j' && infGt (infRAdd (f_val - W j') minW) UB) = true
      · rw [if_pos hc, hc]
        rw [foldl_marks _ (fun i' a b => decide (a = i') && decide (b = j'))
          (fun F i' a b => setTrue_apply F i' j' a b)]
        congr 1
        rw [Bool.eq_iff_iff]
        simp only [List.any_eq_true, Bool.and_eq_true, decide_eq_true_eq, Bool.and_true]
        constructor
        · rintro ⟨i', hi', rfl, rfl⟩
          exact ⟨rfl, hi'⟩
        · rintro ⟨rfl, ha⟩
          exact ⟨a, ha, rfl, rfl⟩
      · rw [if_neg hc]
        simp only [Bool.not_eq_true] at hc
        rw [hc]
        simp

theorem lagrangianBasedSafeFixing_fst (n : Nat) (F_0 F_1 : Nat → Nat → Bool)
    (clusters : List (List Nat)) (W : Nat → ℚ) (S : Nat → Bool) (f_val UB : ℚ)
    (wh : Nat → Nat → ℚ) (i j : Nat) :
    (lagrangianBasedSafeFixing n F_0 F_1 clusters W S f_val UB wh).1 i j
      = (F_0 i j || zeroRule n W S f_val UB wh (compute_maxW n F_1 W S) i j) :=
  fixZeros_apply _ _ _ _ _ _ _ _ _ _

theorem lagrangianBasedSafeFixing_snd (n : Nat) (F_0 F_1 : Nat → Nat → Bool)
    (clusters : List (List Nat)) (W : Nat → ℚ) (S : Nat → Bool) (f_val UB : ℚ)
    (wh : Nat → Nat → ℚ) (i j : Nat) :
    (lagrangianBasedSafeFixing n F_0 F_1 clusters W S f_val UB wh).2 i j
      = (F_1 i j || oneRule clusters W S f_val UB (compute_minW n F_0 W S) i j) :=
  fixOnes_apply _ _ _ _ _ _ _ _ _

/-! ## Calling `lagrangianBasedSafeFixing` twice -/

theorem W_val_A_zero : W_val 2 F0_A F1_A w_A 0 = 1 := by
  rw [W_val_eq]
  simp [Finset.sum_range_succ, contribution, F0_A, F1_A, w_A]

theorem W_indices_A (W : Nat → ℚ) : W_indices 2 F0_A F1_A W = [0, 1] := by
  have h2 : List.range 2 = [0, 1] := rfl
  simp [W_indices, h2, sortBy, insertSorted, W_comp, boolToInt, F0_A, F1_A]

theorem eugene_inner_A :
    eugene_inner 2 mu0 2 2 1 pop1 w_A F0_A F1_A
      = eugene_tail 2 mu0 2 2 1 pop1 w_A (W_val 2 F0_A F1_A w_A) [0, 1] := by
  unfold eugene_inner
  simp only [w_hat_mu0, W_indices_A]

theorem eugene_inner_A_f_val : (eugene_inner 2 mu0 2 2 1 pop1 w_A F0_A F1_A).f_val = 1 := by
  rw [eugene_inner_A, eugene_tail_f_val]
  simp [alpha, mu0, W_val_A_zero]

theorem eugene_inner_A_S_zero : (eugene_inner 2 mu0 2 2 1 pop1 w_A F0_A F1_A).S 0 = true := by
  rw [eugene_inner_A, eugene_tail_S]; decide

theorem eugene_inner_A_w_hat : (eugene_inner 2 mu0 2 2 1 pop1 w_A F0_A F1_A).w_hat = w_A := by
  rw [eugene_inner_w_hat, w_hat_mu0]

/-- On instance A the zero-fixing loop sets `F_0[1][0]`. -/
theorem safeFixing_A_sets_zero :
    (lagrangianBasedSafeFixing 2 F0_A F1_A [[0, 1]]
        (eugene_inner 2 mu0 2 2 1 pop1 w_A F0_A F1_A).W
        (eugene_inner 2 mu0 2 2 1 pop1 w_A F0_A F1_A).S
        (eugene_inner 2 mu0 2 2 1 pop1 w_A F0_A F1_A).f_val 1
        (eugene_inner 2 mu0 2 2 1 pop1 w_A F0_A F1_A).w_hat).1 1 0 = true := by
  rw [lagrangianBasedSafeFixing_fst, eugene_inner_A_f_val, eugene_inner_A_w_hat]
  simp [zeroRule, eugene_inner_A_S_zero, w_A, cmax]
  norm_num

/-! ## Lower bounds on the cost of a plan -/

theorem hessCost_ge_of_pair {n : Nat} {w : Nat → Nat → ℚ} (hw : ∀ i j, 0 ≤ w i j)
    (x : Nat → Nat → Bool) {i j : Nat} (hi : i < n) (hj : j < n) (hx : x i j = true) :
    w i j ≤ hessCost n w x := by
  unfold hessCost
  have h1 : ∑ j' in Finset.range n, (if x i j' then w i j' else 0)
      ≤ ∑ i' in Finset.range n, ∑ j' in Finset.range n, (if x i' j' then w i' j' else 0) :=
    Finset.single_le_sum (f := fun i' => ∑ j' in Finset.range n, (if x i' j' then w i' j' else 0))
      (fun i' _ => Finset.sum_nonneg (fun j' _ => by split_ifs <;> simp [hw]))
      (Finset.mem_range.mpr hi)
  have h2 : (if x i j then w i j else 0)
      ≤ ∑ j' in Finset.range n, (if x i j' then w i j' else 0) :=
    Finset.single_le_sum (f := fun j' => if x i j' then w i j' else 0)
      (fun j' _ => by dsimp only; split_ifs <;> simp [hw]) (Finset.mem_range.mpr hj)
  rw [if_pos hx] at h2
  exact h2.trans h1

/-- With fewer centers than units some unit is assigned to another unit. -/
theorem HessFeasible.exists_assigned {n k : Nat} {L U : ℤ} {population : Nat → ℤ}
    {x : Nat → Nat → Bool} (hx : HessFeasible n k L U population x) (hk : k < n) :
    ∃ i < n, ∃ j < n, i ≠ j ∧ x i j = true := by
  have hex : ∃ i < n, x i i = false := by
    by_contra hall
    push_neg at hall
    have : (Finset.range n).filter (fun j => x j j = true) = Finset.range n := by
      apply Finset.filter_true_of_mem
      intro j hj
      simpa using hall j (Finset.mem_range.mp hj)
    have hcard := hx.2.1
    rw [this, Finset.card_range] at hcard
    omega
  obtain ⟨i, hi, hxi⟩ := hex
  have hrow := hx.1 i hi
  have hne : ((Finset.range n).filter (fun j => x i j = true)).Nonempty := by
    rw [← Finset.card_pos, hrow]; exact Nat.one_pos
  obtain ⟨j, hj⟩ := hne
  rw [Finset.mem_filter, Finset.mem_range] at hj
  refine ⟨i, hi, j, hj.1, ?_, hj.2⟩
  rintro rfl
  rw [hxi] at hj
  exact absurd hj.2 (by simp)

theorem hessCost_A_ge (z : Nat → Nat → Bool) (hz : HessFeasible 2 1 2 2 pop1 z) :
    1 ≤ hessCost 2 w_A z := by
  obtain ⟨i, hi, j, hj, hij, hx⟩ := hz.exists_assigned (by decide)
  have hw : ∀ i j, 0 ≤ w_A i j := fun i j => by unfold w_A; split_ifs <;> norm_num
  have h := hessCost_ge_of_pair hw z hi hj hx
  have h1 : 1 ≤ w_A i j := by
    unfold w_A; simp only [hij, if_false]; split_ifs <;> norm_num
  exact h1.trans h

theorem hessCost_x_A : hessCost 2 w_A x_A = 1 := by
  simp [hessCost, Finset.sum_range_succ, x_A, w_A]

/-! ## Instance B -/

theorem w_hat_B (i j : Nat) :
    w_hat 3 mu_B 1 2 pop1 w_B i j = w_B i j - (if i = 0 then 2 else 0) := by
  simp [w_hat, mu_B, alpha, lambda, upsilon, cabs]

theorem W_val_B {j : Nat} (hj : j < 3) :
    W_val 3 noFix noFix (w_hat 3 mu_B 1 2 pop1 w_B) j = if j = 0 then -2 else 0 := by
  rw [W_val_noFix]
  simp only [w_hat_B, w_B]
  interval_cases j <;> simp [Finset.sum_range_succ]

theorem W_indices_B :
    W_indices 3 noFix noFix (W_val 3 noFix noFix (w_hat 3 mu_B 1 2 pop1 w_B)) = [0, 1, 2] := by
  have h3 : List.range 3 = [0, 1, 2] := rfl
  have e0 := W_val_B (j := 0) (by decide)
  have e1 := W_val_B (j := 1) (by decide)
  have e2 := W_val_B (j := 2) (by decide)
  simp at e0 e1 e2
  simp [W_indices, h3, sortBy, insertSorted, W_comp, boolToInt, noFix, e0, e1, e2]

theorem eugene_inner_B :
    eugene_inner 3 mu_B 1 2 2 pop1 w_B noFix noFix
      = eugene_tail 3 mu_B 1 2 2 pop1 (w_hat 3 mu_B 1 2 pop1 w_B)
          (W_val 3 noFix noFix (w_hat 3 mu_B 1 2 pop1 w_B)) [0, 1, 2] := by
  unfold eugene_inner
  simp only [W_indices_B]

theorem eugene_inner_B_f_val : (eugene_inner 3 mu_B 1 2 2 pop1 w_B noFix noFix).f_val = 0 := by
  rw [eugene_inner_B, eugene_tail_f_val]
  have e0 := W_val_B (j := 0) (by decide)
  have e1 := W_val_B (j := 1) (by decide)
  simp at e0 e1
  simp [Finset.sum_range_succ, alpha, mu_B, e0, e1]

theorem eugene_inner_B_S (j : Nat) :
    (eugene_inner 3 mu_B 1 2 2 pop1 w_B noFix noFix).S j = decide (j ∈ [0, 1]) := by
  rw [eugene_inner_B, eugene_tail_S]; rfl

theorem eugene_inner_B_W {j : Nat} (hj : j < 3) :
    (eugene_inner 3 mu_B 1 2 2 pop1 w_B noFix noFix).W j = if j = 0 then -2 else 0 := by
  rw [eugene_inner_W, W_val_B hj]

/-- On instance B, with the districts of the heuristic plan as clusters and its cost as `UB`,
the one-fixing loop sets `F_1[2][0]`. -/
theorem safeFixing_B_sets_one :
    (lagrangianBasedSafeFixing 3 noFix noFix [[0, 2], [1]]
        (eugene_inner 3 mu_B 1 2 2 pop1 w_B noFix noFix).W
        (eugene_inner 3 mu_B 1 2 2 pop1 w_B noFix noFix).S
        (eugene_inner 3 mu_B 1 2 2 pop1 w_B noFix noFix).f_val 1
        (eugene_inner 3 mu_B 1 2 2 pop1 w_B noFix noFix).w_hat).2 2 0 = true := by
  have h3 : List.range 3 = [0, 1, 2] := rfl
  have e0 := eugene_inner_B_W (j := 0) (by decide)
  have e2 := eugene_inner_B_W (j := 2) (by decide)
  simp at e0 e2
  rw [lagrangianBasedSafeFixing_snd, eugene_inner_B_f_val]
  simp [oneRule, compute_minW, h3, eugene_inner_B_S, noFix, e0, e2, minInf, infGt, infRAdd]

theorem w_B_nonneg (i j : Nat) : 0 ≤ w_B i j := by
  unfold w_B; split_ifs <;> norm_num

theorem hessCost_B_ge (z : Nat → Nat → Bool) (hz : HessFeasible 3 2 1 2 pop1 z) :
    1 ≤ hessCost 3 w_B z := by
  obtain ⟨i, hi, j, hj, hij, hx⟩ := hz.exists_assigned (by decide)
  have h := hessCost_ge_of_pair w_B_nonneg z hi hj hx
  have h1 : 1 ≤ w_B i j := by
    unfold w_B; simp only [hij, if_false]; split_ifs <;> norm_num
  exact h1.trans h

theorem hessCost_x_heur_B : hessCost 3 w_B x_heur_B = 1 := by
  simp [hessCost, Finset.sum_range_succ, x_heur_B, w_B]

theorem hessCost_x_opt_B : hessCost 3 w_B x_opt_B = 1 := by
  simp [hessCost, Finset.sum_range_succ, x_opt_B, w_B]

/-! ## `maxW` and `minW` -/

theorem minInf_le (m : Option ℚ) (v : ℚ) : ∃ r, minInf m v = some r ∧ r ≤ v ∧
    ∀ m0, m = some m0 → r ≤ m0 := by
  cases m with
  | none => exact ⟨v, rfl, le_refl v, fun m0 h => by cases h⟩
  | some a =>
    refine ⟨cmin a v, rfl, ?_, ?_⟩
    · rw [cmin_eq]; exact min_le_right a v
    · intro m0 h
      cases h
      rw [cmin_eq]; exact min_le_left _ v

theorem maxInf_ge (m : Option ℚ) (v : ℚ) : ∃ r, maxInf m v = some r ∧ v ≤ r ∧
    ∀ m0, m = some m0 → m0 ≤ r := by
  cases m with
  | none => exact ⟨v, rfl, le_refl v, fun m0 h => by cases h⟩
  | some a =>
    refine ⟨cmax a v, rfl, ?_, ?_⟩
    · rw [cmax_eq]; exact le_max_right a v
    · intro m0 h
      cases h
      rw [cmax_eq]; exact le_max_left _ v

theorem foldl_minInf_some (q : Nat → Bool) (W : Nat → ℚ) (l : List Nat) (m0 : ℚ) :
    ∃ r, l.foldl (fun m i => if q i then minInf m (W i) else m) (some m0) = some r ∧ r ≤ m0 := by
  induction l generalizing m0 with
  | nil => exact ⟨m0, rfl, le_refl m0⟩
  | cons a l ih =>
    rw [List.foldl_cons]
    by_cases hq : q a = true
    · rw [if_pos hq]
      obtain ⟨r1, h1, _, h3⟩ := minInf_le (some m0) (W a)
      rw [h1]
      obtain ⟨r, hr, hle⟩ := ih r1
      exact ⟨r, hr, hle.trans (h3 m0 rfl)⟩
    · rw [if_neg hq]
      exact ih m0

theorem foldl_minInf_le (q : Nat → Bool) (W : Nat → ℚ) (l : List Nat) (init : Option ℚ)
    {b : Nat} (hb : b ∈ l) (hq : q b = true) :
    ∃ r, l.foldl (fun m i => if q i then minInf m (W i) else m) init = some r ∧ r ≤ W b := by
  induction l generalizing init with
  | nil => cases hb
  | cons a l ih =>
    rw [List.foldl_cons]
    rcases List.mem_cons.mp hb with rfl | hb'
    · rw [if_pos hq]
      obtain ⟨r1, h1, h2, _⟩ := minInf_le init (W b)
      rw [h1]
      obtain ⟨r, hr, hle⟩ := foldl_minInf_some q W l r1
      exact ⟨r, hr, hle.trans h2⟩
    · exact ih _ hb'

theorem foldl_maxInf_some (q : Nat → Bool) (W : Nat → ℚ) (l : List Nat) (m0 : ℚ) :
    ∃ r, l.foldl (fun m i => if q i then maxInf m (W i) else m) (some m0) = some r ∧ m0 ≤ r := by
  induction l generalizing m0 with
  | nil => exact ⟨m0, rfl, le_refl m0⟩
  | cons a l ih =>
    rw [List.foldl_cons]
    by_cases hq : q a = true
    · rw [if_pos hq]
      obtain ⟨r1, h1, _, h3⟩ := maxInf_ge (some m0) (W a)
      rw [h1]
      obtain ⟨r, hr, hle⟩ := ih r1
      exact ⟨r, hr, (h3 m0 rfl).trans hle⟩
    · rw [if_neg hq]
      exact ih m0

theorem foldl_maxInf_ge (q : Nat → Bool) (W : Nat → ℚ) (l : List Nat) (init : Option ℚ)
    {b : Nat} (hb : b ∈ l) (hq : q b = true) :
    ∃ r, l.foldl (fun m i => if q i then maxInf m (W i) else m) init = some r ∧ W b ≤ r := by
  induction l generalizing init with
  | nil => cases hb
  | cons a l ih =>
    rw [List.foldl_cons]
    rcases List.mem_cons.mp hb with rfl | hb'
    · rw [if_pos hq]
      obtain ⟨r1, h1, h2, _⟩ := maxInf_ge init (W b)
      rw [h1]
      obtain ⟨r, hr, hle⟩ := foldl_maxInf_some q W l r1
      exact ⟨r, hr, h2.trans hle⟩
    · exact ih _ hb'

/-- `minW` is finite and at most `W[b]` for every free `b` outside `S`. -/
theorem compute_minW_le (n : Nat) (F_0 : Nat → Nat → Bool) (W : Nat → ℚ) (S : Nat → Bool)
    {b : Nat} (hb : b < n) (hS : S b = false) (hF : F_0 b b = false) :
    ∃ m, compute_minW n F_0 W S = some m ∧ m ≤ W b :=
  foldl_minInf_le (fun i => !S i && !F_0 i i) W (List.range n) none (List.mem_range.mpr hb)
    (by simp [hS, hF])

/-- `maxW` is finite and at least `W[a]` for every unforced `a` in `S`. -/
theorem compute_maxW_ge (n : Nat) (F_1 : Nat → Nat → Bool) (W : Nat → ℚ) (S : Nat → Bool)
    {a : Nat} (ha : a < n) (hS : S a = true) (hF : F_1 a a = false) :
    ∃ m, compute_maxW n F_1 W S = some m ∧ W a ≤ m :=
  foldl_maxInf_ge (fun i => S i && !F_1 i i) W (List.range n) none (List.mem_range.mpr ha)
    (by simp [hS, hF])

/-! ## Exchanging one center -/

section Swap

variable {n : Nat} {F_0 F_1 : Nat → Nat → Bool} {W : Nat → ℚ} {idx : List Nat}

/-- An admissible set of centers that misses the selected `j` contains an unselected `b`, and
is at least as heavy as the selection with `j` replaced by `b`. -/
theorem IsSortedIndices.swap_out (h : IsSortedIndices n F_0 F_1 W idx)
    (hc : ∀ j < n, ¬(F_0 j j = true ∧ F_1 j j = true)) {k : Nat} (hk : k ≤ n)
    (h1 : ((Finset.range n).filter (fun j => F_1 j j = true)).card ≤ k)
    (h0 : k ≤ ((Finset.range n).filter (fun j => F_0 j j = false)).card)
    (T : Finset Nat) (hTn : ∀ j ∈ T, j < n) (hTk : T.card = k)
    (hT1 : ∀ j < n, F_1 j j = true → j ∈ T) (hT0 : ∀ j ∈ T, F_0 j j = false)
    {j : Nat} (hj : j ∈ idx.take k) (hjT : j ∉ T) :
    ∃ b ∈ T, b ∉ idx.take k ∧
      ∑ c in (idx.take k).toFinset, W c - W j + W b ≤ ∑ t in T, W t := by
  have hcard := card_sdiff_eq_of_card_eq (idx.take k).toFinset T ((h.card_take hk).trans hTk.symm)
  have hpos : 0 < ((idx.take k).toFinset \ T).card :=
    Finset.card_pos.mpr ⟨j, Finset.mem_sdiff.mpr ⟨List.mem_toFinset.mpr hj, hjT⟩⟩
  rw [hcard] at hpos
  obtain ⟨b, hb⟩ := Finset.card_pos.mp hpos
  rw [Finset.mem_sdiff, List.mem_toFinset] at hb
  obtain ⟨hbT, hbS⟩ := hb
  refine ⟨b, hbT, hbS, ?_⟩
  have hjn := h.lt_of_mem_take hj
  have hjb : j ∉ T.erase b := fun hm => hjT (Finset.mem_of_mem_erase hm)
  have hle := h.sum_take_le hc hk (insert j (T.erase b))
    (by
      intro c hc'
      rcases Finset.mem_insert.mp hc' with rfl | hc''
      · exact hjn
      · exact hTn c (Finset.mem_of_mem_erase hc''))
    (by
      rw [Finset.card_insert_of_not_mem hjb, Finset.card_erase_of_mem hbT, hTk]
      have : 0 < T.card := Finset.card_pos.mpr ⟨b, hbT⟩
      omega)
    (by
      intro c hcn hF
      refine Finset.mem_insert_of_mem (Finset.mem_erase.mpr ⟨?_, hT1 c hcn hF⟩)
      rintro rfl
      exact hbS (h.forced_mem_take hc hk h1 hcn hF))
    (by
      intro c hc'
      rcases Finset.mem_insert.mp hc' with rfl | hc''
      · by_contra hne
        exact h.forbidden_not_mem_take hc hk h0 (by simpa using hne) hj
      · exact hT0 c (Finset.mem_of_mem_erase hc''))
  rw [Finset.sum_insert hjb] at hle
  have := Finset.add_sum_erase T W hbT
  linarith

/-- An admissible set of centers that uses the unselected `j` misses a selected, unforced
`a`, and is at least as heavy as the selection with `a` replaced by `j`. -/
theorem IsSortedIndices.swap_in (h : IsSortedIndices n F_0 F_1 W idx)
    (hc : ∀ j < n, ¬(F_0 j j = true ∧ F_1 j j = true)) {k : Nat} (hk : k ≤ n)
    (h1 : ((Finset.range n).filter (fun j => F_1 j j = true)).card ≤ k)
    (h0 : k ≤ ((Finset.range n).filter (fun j => F_0 j j = false)).card)
    (T : Finset Nat) (hTn : ∀ j ∈ T, j < n) (hTk : T.card = k)
    (hT1 : ∀ j < n, F_1 j j = true → j ∈ T) (hT0 : ∀ j ∈ T, F_0 j j = false)
    {j : Nat} (hjT : j ∈ T) (hj : j ∉ idx.take k) :
    ∃ a ∈ idx.take k, a ∉ T ∧ F_1 a a = false ∧
      ∑ c in (idx.take k).toFinset, W c + W j - W a ≤ ∑ t in T, W t := by
  have hcard := card_sdiff_eq_of_card_eq (idx.take k).toFinset T ((h.card_take hk).trans hTk.symm)
  have hpos : 0 < (T \ (idx.take k).toFinset).card :=
    Finset.card_pos.mpr ⟨j, Finset.mem_sdiff.mpr ⟨hjT, fun hm => hj (List.mem_toFinset.mp hm)⟩⟩
  rw [← hcard] at hpos
  obtain ⟨a, ha⟩ := Finset.card_pos.mp hpos
  rw [Finset.mem_sdiff, List.mem_toFinset] at ha
  obtain ⟨haS, haT⟩ := ha
  have han := h.lt_of_mem_take haS
  have haF : F_1 a a = false := by
    by_contra hne
    exact haT (hT1 a han (by simpa using hne))
  refine ⟨a, haS, haT, haF, ?_⟩
  have haj : a ∉ T.erase j := fun hm => haT (Finset.mem_of_mem_erase hm)
  have hle := h.sum_take_le hc hk (insert a (T.erase j))
    (by
      intro c hc'
      rcases Finset.mem_insert.mp hc' with rfl | hc''
      · exact han
      · exact hTn c (Finset.mem_of_mem_erase hc''))
    (by
      rw [Finset.card_insert_of_not_mem haj, Finset.card_erase_of_mem hjT, hTk]
      have : 0 < T.card := Finset.card_pos.mpr ⟨j, hjT⟩
      omega)
    (by
      intro c hcn hF
      refine Finset.mem_insert_of_mem (Finset.mem_erase.mpr ⟨?_, hT1 c hcn hF⟩)
      rintro rfl
      exact hj (h.forced_mem_take hc hk h1 hcn hF))
    (by
      intro c hc'
      rcases Finset.mem_insert.mp hc' with rfl | hc''
      · by_contra hne
        exact h.forbidden_not_mem_take hc hk h0 (by simpa using hne) haS
      · exact hT0 c (Finset.mem_of_mem_erase hc''))
  rw [Finset.sum_insert haj] at hle
  have := Finset.add_sum_erase T W hjT
  linarith

end Swap

/-! ## Soundness of the fixing rules -/

section Soundness

variable {n k : Nat} {L U : ℤ} {population : Nat → ℤ} {x : Nat → Nat → Bool}
  {F_0 F_1 : Nat → Nat → Bool}

/-- A feasible `x` that agrees with the tables and uses the unforced pair `(i, j)` costs at
least the multipliers `alpha`, the weights of its centers and `max(0, w_hat[i][j])`. -/
theorem lagrangian_bound_pair (multipliers : Nat → ℚ) (w : Nat → Nat → ℚ) (hL : 0 < L)
    (hLU : L ≤ U) (hx : HessFeasible n k L U population x) (hag : AgreesWith n F_0 F_1 x)
    {i j : Nat} (hi : i < n) (hj : j < n) (hij : i ≠ j) (h1 : F_1 i j = false)
    (hxi : x i j = true) :
    ∑ i in Finset.range n, alpha multipliers i
      + ∑ c in centersOf n x, W_val n F_0 F_1 (w_hat n multipliers L U population w) c
      + max 0 (w_hat n multipliers L U population w i j)
      ≤ hessCost n w x := by
  have hxj : x j j = true := hx.2.2.1 i hi j hj hxi
  have hjT : j ∈ centersOf n x := mem_centersOf.mpr ⟨hj, hxj⟩
  have hb := hessCost_ge_colCost multipliers w hL hLU hx
  rw [sum_colCost_eq _ hx] at hb
  have h2 : ∑ c in (centersOf n x).erase j,
        W_val n F_0 F_1 (w_hat n multipliers L U population w) c
      ≤ ∑ c in (centersOf n x).erase j, colCost n (w_hat n multipliers L U population w) x c :=
    Finset.sum_le_sum (fun c hc =>
      W_le_colCost _ hag (mem_centersOf.mp (Finset.mem_of_mem_erase hc)).1
        (mem_centersOf.mp (Finset.mem_of_mem_erase hc)).2)
  have h3 := W_add_max_le_colCost (w_hat n multipliers L U population w) hag hi hj hxj hij h1
    hxi
  have e1 := Finset.add_sum_erase (centersOf n x)
    (W_val n F_0 F_1 (w_hat n multipliers L U population w)) hjT
  have e2 := Finset.add_sum_erase (centersOf n x)
    (colCost n (w_hat n multipliers L U population w) x) hjT
  linarith

theorem infGt_infRAdd_some (a m UB : ℚ) :
    infGt (infRAdd a (some m)) UB = true ↔ UB < a + m := by
  simp [infGt, infRAdd]

theorem infGt_infSub_some (a m UB : ℚ) :
    infGt (infSub a (some m)) UB = true ↔ UB < a - m := by
  simp [infGt, infSub]

theorem infGt_infAdd_infSub_some (a m b UB : ℚ) :
    infGt (infAdd (infSub a (some m)) b) UB = true ↔ UB < a - m + b := by
  simp [infGt, infSub, infAdd]

/-- Soundness of the one-fixing rule on the diagonal: if the rule fires for column `j`, every
feasible `x` that agrees with the tables and costs at most `UB` has `j` as a center. -/
theorem oneRule_center (multipliers : Nat → ℚ) (w : Nat → Nat → ℚ)
    (clusters : List (List Nat)) (UB : ℚ) (hk : k ≤ n) (hL : 0 < L) (hLU : L ≤ U)
    (hF : TablesOK n k F_0 F_1) (hx : HessFeasible n k L U population x)
    (hag : AgreesWith n F_0 F_1 x) (hcost : hessCost n w x ≤ UB) {i j : Nat}
    (hrule : oneRule clusters
      (eugene_inner n multipliers L U k population w F_0 F_1).W
      (eugene_inner n multipliers L U k population w F_0 F_1).S
      (eugene_inner n multipliers L U k population w F_0 F_1).f_val UB
      (compute_minW n F_0
        (eugene_inner n multipliers L U k population w F_0 F_1).W
        (eugene_inner n multipliers L U k population w F_0 F_1).S) i j = true) :
    x j j = true := by
  by_contra hxj
  have hc : ∀ j < n, ¬(F_0 j j = true ∧ F_1 j j = true) := fun j hj => hF.1 j hj j hj
  have hs := W_indices_isSorted (W_val n F_0 F_1 (w_hat n multipliers L U population w)) hc
  obtain ⟨hTn, hTk, hT1, hT0⟩ := centersOf_admissible hx hag
  unfold oneRule at hrule
  simp only [Bool.and_eq_true] at hrule
  obtain ⟨_, hSj, hgt⟩ := hrule
  rw [eugene_inner_S_iff] at hSj
  have hjT : j ∉ centersOf n x := fun hm => hxj (mem_centersOf.mp hm).2
  obtain ⟨b, hbT, hbS, hsum⟩ := hs.swap_out hc hk hF.2.2.2.1 hF.2.2.2.2 (centersOf n x)
    hTn hTk hT1 hT0 hSj hjT
  have hbS' : (eugene_inner n multipliers L U k population w F_0 F_1).S b = false := by
    rw [Bool.eq_false_iff, Ne, eugene_inner_S_iff]; exact hbS
  obtain ⟨m, hm, hmle⟩ := compute_minW_le n F_0
    (eugene_inner n multipliers L U k population w F_0 F_1).W _ (hTn b hbT) hbS' (hT0 b hbT)
  rw [hm, infGt_infRAdd_some, eugene_inner_f_val, eugene_inner_W] at hgt
  rw [eugene_inner_W] at hmle
  have hb := @lagrangian_bound n k L U population x F_0 F_1 multipliers w hL hLU hx hag
  linarith

/-- The zero-fixing rule, case by case. -/
theorem zeroRule_iff (n : Nat) (W : Nat → ℚ) (S : Nat → Bool) (f_val UB : ℚ)
    (wh : Nat → Nat → ℚ) (maxW : Option ℚ) (i j : Nat) :
    zeroRule n W S f_val UB wh maxW i j = true ↔
      i < n ∧ j < n ∧
        ((S j = false ∧ infGt (infSub (f_val + W j) maxW) UB = true) ∨
          (i ≠ j ∧
            ((S j = false ∧
                infGt (infAdd (infSub (f_val + W j) maxW) (cmax 0 (wh i j))) UB = true) ∨
              (S j = true ∧ UB < f_val + cmax 0 (wh i j))))) := by
  unfold zeroRule
  cases hS : S j <;> cases h1 : infGt (infSub (f_val + W j) maxW) UB <;>
    cases h2 : infGt (infAdd (infSub (f_val + W j) maxW) (cmax 0 (wh i j))) UB <;>
    simp [and_assoc]

/-- Soundness of the zero-fixing rule on the pairs that are not forced: if the rule fires for
`(i, j)` and `F_1[i][j]` is false, every feasible `x` that agrees with the tables and costs at
most `UB` has `x[i][j] = 0`. -/
theorem zeroRule_sound (multipliers : Nat → ℚ) (w : Nat → Nat → ℚ) (UB : ℚ) (hk : k ≤ n)
    (hL : 0 < L) (hLU : L ≤ U) (hF : TablesOK n k F_0 F_1)
    (hx : HessFeasible n k L U population x) (hag : AgreesWith n F_0 F_1 x)
    (hcost : hessCost n w x ≤ UB) {i j : Nat} (hF1 : F_1 i j = false)
    (hrule : zeroRule n
      (eugene_inner n multipliers L U k population w F_0 F_1).W
      (eugene_inner n multipliers L U k population w F_0 F_1).S
      (eugene_inner n multipliers L U k population w F_0 F_1).f_val UB
      (eugene_inner n multipliers L U k population w F_0 F_1).w_hat
      (compute_maxW n F_1
        (eugene_inner n multipliers L U k population w F_0 F_1).W
        (eugene_inner n multipliers L U k population w F_0 F_1).S) i j = true) :
    x i j = false := by
  by_contra hxi
  have hxi : x i j = true := by simpa using hxi
  have hc : ∀ j < n, ¬(F_0 j j = true ∧ F_1 j j = true) := fun j hj => hF.1 j hj j hj
  have hs := W_indices_isSorted (W_val n F_0 F_1 (w_hat n multipliers L U population w)) hc
  obtain ⟨hTn, hTk, hT1, hT0⟩ := centersOf_admissible hx hag
  rw [zeroRule_iff] at hrule
  obtain ⟨hi, hj, hrest⟩ := hrule
  have hxj : x j j = true := hx.2.2.1 i hi j hj hxi
  have hjT : j ∈ centersOf n x := mem_centersOf.mpr ⟨hj, hxj⟩
  have hb := @lagrangian_bound n k L U population x F_0 F_1 multipliers w hL hLU hx hag
  have hsel := hs.sum_take_le hc hk (centersOf n x) hTn hTk hT1 hT0
  have hpair : i ≠ j →
      ∑ i in Finset.range n, alpha multipliers i
        + ∑ c in centersOf n x, W_val n F_0 F_1 (w_hat n multipliers L U population w) c
        + max 0 (w_hat n multipliers L U population w i j) ≤ hessCost n w x :=
    fun hij => @lagrangian_bound_pair n k L U population x F_0 F_1 multipliers w hL hLU hx hag
      i j hi hj hij hF1 hxi
  have hout : (eugene_inner n multipliers L U k population w F_0 F_1).S j = false →
      ∃ m, compute_maxW n F_1
          (eugene_inner n multipliers L U k population w F_0 F_1).W
          (eugene_inner n multipliers L U k population w F_0 F_1).S = some m ∧
        ∑ c in ((W_indices n F_0 F_1
            (W_val n F_0 F_1 (w_hat n multipliers L U population w))).take k).toFinset,
            W_val n F_0 F_1 (w_hat n multipliers L U population w) c
          + W_val n F_0 F_1 (w_hat n multipliers L U population w) j - m
          ≤ ∑ t in centersOf n x, W_val n F_0 F_1 (w_hat n multipliers L U population w) t := by
    intro hSj
    have hjS : j ∉ (W_indices n F_0 F_1
        (W_val n F_0 F_1 (w_hat n multipliers L U population w))).take k := by
      rw [← eugene_inner_S_iff, hSj]; simp
    obtain ⟨a, haS, _, haF, hsum⟩ := hs.swap_in hc hk hF.2.2.2.1 hF.2.2.2.2 (centersOf n x)
      hTn hTk hT1 hT0 hjT hjS
    have haS' : (eugene_inner n multipliers L U k population w F_0 F_1).S a = true := by
      rw [eugene_inner_S_iff]; exact haS
    obtain ⟨m, hm, hmge⟩ := compute_maxW_ge n F_1
      (eugene_inner n multipliers L U k population w F_0 F_1).W _ (hs.lt_of_mem_take haS)
      haS' haF
    rw [eugene_inner_W] at hmge
    exact ⟨m, hm, by linarith⟩
  rcases hrest with ⟨hSj, hgt⟩ | ⟨hij, ⟨hSj, hgt⟩ | ⟨_, hgt⟩⟩
  · obtain ⟨m, hm, hsum⟩ := hout hSj
    rw [hm, infGt_infSub_some, eugene_inner_f_val, eugene_inner_W] at hgt
    linarith
  · obtain ⟨m, hm, hsum⟩ := hout hSj
    rw [hm, infGt_infAdd_infSub_some, eugene_inner_f_val, eugene_inner_W, eugene_inner_w_hat,
      cmax_eq] at hgt
    have := hpair hij
    linarith
  · rw [eugene_inner_f_val, eugene_inner_w_hat, cmax_eq] at hgt
    have := hpair hij
    linarith

end Soundness

/-! ## Optimal plans of the instances -/

theorem isOptimal_x_A : IsOptimal 2 1 2 2 pop1 w_A F0_A F1_A x_A :=
  ⟨by decide, by decide, fun z hz _ => by rw [hessCost_x_A]; exact hessCost_A_ge z hz⟩

theorem isOptimal_x_heur_B : IsOptimal 3 2 1 2 pop1 w_B noFix noFix x_heur_B :=
  ⟨by decide, by decide, fun z hz _ => by rw [hessCost_x_heur_B]; exact hessCost_B_ge z hz⟩

theorem isOptimal_x_opt_B : IsOptimal 3 2 1 2 pop1 w_B noFix noFix x_opt_B :=
  ⟨by decide, by decide, fun z hz _ => by rw [hessCost_x_opt_B]; exact hessCost_B_ge z hz⟩

/-- Zero-fixing is sound on the pairs that are not forced: a pair `(i, j)` with `F_1[i][j]`
false that `lagrangianBasedSafeFixing` newly sets in `F_0` is `0` in every feasible plan that
agrees with the input tables and costs at most `UB`. -/
theorem zero_fixing_sound_of_not_forced (n k : Nat) (L U : ℤ) (population : Nat → ℤ)
    (w : Nat → Nat → ℚ) (multipliers : Nat → ℚ) (F_0 F_1 : Nat → Nat → Bool)
    (clusters : List (List Nat)) (UB : ℚ) (x : Nat → Nat → Bool) (hk : k ≤ n) (hL : 0 < L)
    (hLU : L ≤ U) (hF : TablesOK n k F_0 F_1) (hx : HessFeasible n k L U population x)
    (hag : AgreesWith n F_0 F_1 x) (hcost : hessCost n w x ≤ UB) (i j : Nat)
    (hnew : (lagrangianBasedSafeFixing n F_0 F_1 clusters
      (eugene_inner n multipliers L U k population w F_0 F_1).W
      (eugene_inner n multipliers L U k population w F_0 F_1).S
      (eugene_inner n multipliers L U k population w F_0 F_1).f_val UB
      (eugene_inner n multipliers L U k population w F_0 F_1).w_hat).1 i j = true)
    (hold : F_0 i j = false) (hF1 : F_1 i j = false) : x i j = false := by
  rw [lagrangianBasedSafeFixing_fst, hold, Bool.false_or] at hnew
  exact zeroRule_sound multipliers w UB hk hL hLU hF hx hag hcost hF1 hnew

/-! ## Instance A: the tables come from a first call -/

theorem w_hat_mu_A (i j : Nat) :
    w_hat 2 mu_A 2 2 pop1 w_A i j = w_A i j - (if i = 0 then 3 else if i = 1 then 1 else 0) := by
  have h1 : 2 + j ≠ 1 := by omega
  have h2 : 2 * 2 + j ≠ 1 := by omega
  simp [w_hat, mu_A, alpha, lambda, upsilon, cabs, h1, h2]

theorem W_val_mu_A {j : Nat} (hj : j < 2) :
    W_val 2 noFix noFix (w_hat 2 mu_A 2 2 pop1 w_A) j = if j = 0 then -3 else -1 := by
  rw [W_val_noFix]
  simp only [w_hat_mu_A, w_A]
  interval_cases j <;> simp [Finset.sum_range_succ]

theorem W_indices_mu_A :
    W_indices 2 noFix noFix (W_val 2 noFix noFix (w_hat 2 mu_A 2 2 pop1 w_A)) = [0, 1] := by
  have h2 : List.range 2 = [0, 1] := rfl
  have e0 := W_val_mu_A (j := 0) (by decide)
  have e1 := W_val_mu_A (j := 1) (by decide)
  simp at e0 e1
  simp [W_indices, h2, sortBy, insertSorted, W_comp, boolToInt, noFix, e0, e1]

theorem eugene_inner_mu_A :
    eugene_inner 2 mu_A 2 2 1 pop1 w_A noFix noFix
      = eugene_tail 2 mu_A 2 2 1 pop1 (w_hat 2 mu_A 2 2 pop1 w_A)
          (W_val 2 noFix noFix (w_hat 2 mu_A 2 2 pop1 w_A)) [0, 1] := by
  unfold eugene_inner
  simp only [W_indices_mu_A]

theorem eugene_inner_mu_A_f_val :
    (eugene_inner 2 mu_A 2 2 1 pop1 w_A noFix noFix).f_val = 1 := by
  rw [eugene_inner_mu_A, eugene_tail_f_val]
  have e0 := W_val_mu_A (j := 0) (by decide)
  simp at e0
  simp [Finset.sum_range_succ, alpha, mu_A, e0]

theorem eugene_inner_mu_A_S (j : Nat) :
    (eugene_inner 2 mu_A 2 2 1 pop1 w_A noFix noFix).S j = decide (j ∈ [0]) := by
  rw [eugene_inner_mu_A, eugene_tail_S]; rfl

/-- From the empty tables, with `UB = 1` and the cluster `{0, 1}`, the call of
`lagrangianBasedSafeFixing` at the multipliers `alpha = (3, 1)` returns the tables of
instance A. -/
theorem safeFixing_A_first_call (i j : Nat) (hi : i < 2) (hj : j < 2) :
    (lagrangianBasedSafeFixing 2 noFix noFix [[0, 1]]
        (eugene_inner 2 mu_A 2 2 1 pop1 w_A noFix noFix).W
        (eugene_inner 2 mu_A 2 2 1 pop1 w_A noFix noFix).S
        (eugene_inner 2 mu_A 2 2 1 pop1 w_A noFix noFix).f_val 1
        (eugene_inner 2 mu_A 2 2 1 pop1 w_A noFix noFix).w_hat).1 i j = F0_A i j ∧
    (lagrangianBasedSafeFixing 2 noFix noFix [[0, 1]]
        (eugene_inner 2 mu_A 2 2 1 pop1 w_A noFix noFix).W
        (eugene_inner 2 mu_A 2 2 1 pop1 w_A noFix noFix).S
        (eugene_inner 2 mu_A 2 2 1 pop1 w_A noFix noFix).f_val 1
        (eugene_inner 2 mu_A 2 2 1 pop1 w_A noFix noFix).w_hat).2 i j = F1_A i j := by
  have h2 : List.range 2 = [0, 1] := rfl
  have e0 := W_val_mu_A (j := 0) (by decide)
  have e1 := W_val_mu_A (j := 1) (by decide)
  simp at e0 e1
  rw [lagrangianBasedSafeFixing_fst, lagrangianBasedSafeFixing_snd, eugene_inner_mu_A_f_val,
    eugene_inner_w_hat, eugene_inner_W]
  interval_cases i <;> interval_cases j <;>
    simp [zeroRule, oneRule, compute_maxW, compute_minW, h2, eugene_inner_mu_A_S, noFix, e0, e1,
      maxInf, minInf, infGt, infSub, infAdd, infRAdd, cmax, w_hat_mu_A, w_A, F0_A, F1_A]

/-! ## Instance C: the gradient with a pair fixed to zero off the diagonal -/

theorem w_hat_mu_C (a : ℚ) (i j : Nat) :
    w_hat 2 (mu_C a) 2 2 pop1 w_C i j
      = w_C i j - (if i = 0 then 3 else if i = 1 then a else 0) := by
  have h1 : 2 + j ≠ 1 := by omega
  have h2 : 2 * 2 + j ≠ 1 := by omega
  simp [w_hat, mu_C, alpha, lambda, upsilon, cabs, h1, h2]

/-- The column weights of instance C: `W[0] = -3` does not depend on `alpha[1]`, since the
pair `(1, 0)` is skipped; `W[1] = -a`. -/
theorem W_val_mu_C (a : ℚ) :
    W_val 2 F0_C noFix (w_hat 2 (mu_C a) 2 2 pop1 w_C) 0 = -3 ∧
    W_val 2 F0_C noFix (w_hat 2 (mu_C a) 2 2 pop1 w_C) 1 = -a := by
  have h2 : List.range 2 = [0, 1] := rfl
  constructor
  · simp [W_val, h2, F0_C, noFix, w_hat_mu_C, w_C]
  · simp [W_val, h2, F0_C, noFix, w_hat_mu_C, w_C, cmin]
    norm_num

theorem W_indices_mu_C (a : ℚ) (ha : a < 3) :
    W_indices 2 F0_C noFix (W_val 2 F0_C noFix (w_hat 2 (mu_C a) 2 2 pop1 w_C)) = [0, 1] := by
  have h2 : List.range 2 = [0, 1] := rfl
  obtain ⟨e0, e1⟩ := W_val_mu_C a
  have hlt : ¬ (3 < a) := by linarith
  simp [W_indices, h2, sortBy, insertSorted, W_comp, boolToInt, F0_C, noFix, e0, e1, hlt]

theorem eugene_inner_mu_C (a : ℚ) (ha : a < 3) :
    eugene_inner 2 (mu_C a) 2 2 1 pop1 w_C F0_C noFix
      = eugene_tail 2 (mu_C a) 2 2 1 pop1 (w_hat 2 (mu_C a) 2 2 pop1 w_C)
          (W_val 2 F0_C noFix (w_hat 2 (mu_C a) 2 2 pop1 w_C)) [0, 1] := by
  unfold eugene_inner
  simp only [W_indices_mu_C a ha]

/-- On instance C the bound is `f(alpha) = alpha[1]` as long as `alpha[1] < 3`. -/
theorem eugene_inner_mu_C_f_val (a : ℚ) (ha : a < 3) :
    (eugene_inner 2 (mu_C a) 2 2 1 pop1 w_C F0_C noFix).f_val = a := by
  rw [eugene_inner_mu_C a ha, eugene_tail_f_val]
  simp [Finset.sum_range_succ, alpha, mu_C, (W_val_mu_C a).1]

/-- On instance C at `alpha = (3, 1)` the component of the gradient for `alpha[1]` is `0`:
unit `1` is counted for the selected center `0` because `w_hat[1][0] < 0`, although the pair
`(1, 0)` is fixed to zero and does not enter `W[0]`. -/
theorem eugene_inner_mu_C_grad :
    (eugene_inner 2 (mu_C 1) 2 2 1 pop1 w_C F0_C noFix).grad 1 = 0 := by
  rw [eugene_inner_grad_alpha 2 (mu_C 1) 2 2 1 pop1 w_C F0_C noFix (by decide : 1 < 2),
    W_indices_mu_C 1 (by norm_num)]
  have hc : counted (w_hat 2 (mu_C 1) 2 2 pop1 w_C) 1 0 = true := by
    simp [counted, w_hat_mu_C, w_C]
    norm_num
  simp [List.countP_cons, hc]

theorem mu_C_gradient_step (a : ℚ) :
    ∑ t in Finset.range (3 * 2),
        (eugene_inner 2 (mu_C 1) 2 2 1 pop1 w_C F0_C noFix).grad t * (mu_C a t - mu_C 1 t)
      = 0 := by
  simp [Finset.sum_range_succ, mu_C, eugene_inner_mu_C_grad]

/-! ## The map of `populate_hess_params` -/

/-! ## Keys in 32-bit arithmetic -/

theorem int32_eq_self {z : Int} (h1 : -2147483648 ≤ z) (h2 : z < 2147483648) :
    int32 z = z := by
  unfold int32
  omega

/-- Two values in `0 .. 2^32 - 1` with the same 32-bit representative are equal. -/
theorem int32_inj {z z' : Int} (h1 : 0 ≤ z) (h2 : z < 4294967296) (h1' : 0 ≤ z')
    (h2' : z' < 4294967296) (h : int32 z = int32 z') : z = z' := by
  unfold int32 at h
  omega

/-- The exact value `n * i + j` of the key of a pair of units is in `0 .. n * n - 1`. -/
theorem key_range {n i : Nat} {j : Int} (hi : i < n) (hj : 0 ≤ j ∧ j < (n : Int)) :
    0 ≤ (n : Int) * (i : Int) + j ∧ (n : Int) * (i : Int) + j < (n : Int) * (n : Int) := by
  have h1 : (n : Int) * (i : Int) ≤ (n : Int) * ((n : Int) - 1) :=
    mul_le_mul_of_nonneg_left (by omega) (by omega)
  have h3 : 0 ≤ (n : Int) * (i : Int) := by positivity
  constructor <;> nlinarith

/-- For `n * n ≤ 2^31` the key of a pair of units is `n * i + j` itself. -/
theorem pairKey_eq {n i : Nat} {j : Int} (hn : n * n ≤ 2147483648) (hi : i < n)
    (hj : 0 ≤ j ∧ j < (n : Int)) : pairKey n (i : Int) j = (n : Int) * (i : Int) + j := by
  unfold pairKey
  have h2 : (n : Int) * (n : Int) ≤ 2147483648 := by exact_mod_cast hn
  obtain ⟨h3, h4⟩ := key_range hi hj
  exact int32_eq_self (by omega) (by omega)

/-- Two keys `n * i + j` with `0 ≤ j < n` determine `i` and `j`. -/
theorem key_inj {n : Nat} {i i' : Nat} {j j' : Int} (hj : 0 ≤ j ∧ j < (n : Int))
    (hj' : 0 ≤ j' ∧ j' < (n : Int))
    (h : (n : Int) * (i : Int) + j = (n : Int) * (i' : Int) + j') : i = i' ∧ j = j' := by
  have hi : (i : Int) = (i' : Int) := by
    by_contra hne
    rcases lt_or_gt_of_ne hne with hlt | hgt
    · have : (i : Int) + 1 ≤ (i' : Int) := hlt
      have : (n : Int) * ((i : Int) + 1) ≤ (n : Int) * (i' : Int) :=
        mul_le_mul_of_nonneg_left this (by omega)
      nlinarith
    · have : (i' : Int) + 1 ≤ (i : Int) := hgt
      have : (n : Int) * ((i' : Int) + 1) ≤ (n : Int) * (i : Int) :=
        mul_le_mul_of_nonneg_left this (by omega)
      nlinarith
  refine ⟨by exact_mod_cast hi, ?_⟩
  rw [hi] at h
  omega

/-- For `n * n ≤ 2^32` the keys of two different pairs of units are different. -/
theorem pairKey_inj {n : Nat} (hn : n * n ≤ 4294967296) {i i' : Nat} {j j' : Int}
    (hi : i < n) (hj : 0 ≤ j ∧ j < (n : Int)) (hi' : i' < n) (hj' : 0 ≤ j' ∧ j' < (n : Int))
    (h : pairKey n (i : Int) j = pairKey n (i' : Int) j') : i = i' ∧ j = j' := by
  unfold pairKey at h
  have h2 : (n : Int) * (n : Int) ≤ 4294967296 := by exact_mod_cast hn
  obtain ⟨h3, h4⟩ := key_range hi hj
  obtain ⟨h3', h4'⟩ := key_range hi' hj'
  exact key_inj hj hj' (int32_inj h3 (by omega) h3' (by omega) h)

/-- After a numbering loop every key of its list has an entry, and so has every key that had
one before. -/
theorem number_fold_isSome (ks : List Int) (acc : (Int → Option Nat) × Nat) {key : Int}
    (h : key ∈ ks ∨ (acc.1 key).isSome = true) :
    ((ks.foldl (fun acc key => (Function.update acc.1 key (some acc.2), acc.2 + 1)) acc).1
      key).isSome = true := by
  induction ks generalizing acc with
  | nil =>
    rcases h with h | h
    · exact absurd h (List.not_mem_nil key)
    · exact h
  | cons a l ih =>
    rw [List.foldl_cons]
    apply ih
    by_cases hka : key = a
    · right
      show (Function.update acc.1 a (some acc.2) key).isSome = true
      rw [hka, Function.update_same]
      rfl
    · rcases h with h | h
      · rcases List.mem_cons.mp h with h | h
        · exact absurd h hka
        · exact Or.inl h
      · right
        show (Function.update acc.1 a (some acc.2) key).isSome = true
        rw [Function.update_noteq hka]
        exact h

/-- The loops of `populate_h` are the numbering loop over the keys of the pairs, center by
center. -/
theorem populate_h_eq (n : Nat) (centers : List Int) :
    populate_h n centers
      = (centers.flatMap
          (fun j => (List.range n).map (fun (i : Nat) => pairKey n (i : Int) j))).foldl
        (fun acc key => (Function.update acc.1 key (some acc.2), acc.2 + 1))
        (fun _ => none, 0) := by
  have key : ∀ (l : List Int) (acc : (Int → Option Nat) × Nat),
      l.foldl
        (fun acc j =>
          (List.range n).foldl
            (fun acc (i : Nat) =>
              (Function.update acc.1 (pairKey n (i : Int) j) (some acc.2), acc.2 + 1))
            acc) acc
      = (l.flatMap
          (fun j => (List.range n).map (fun (i : Nat) => pairKey n (i : Int) j))).foldl
        (fun acc key => (Function.update acc.1 key (some acc.2), acc.2 + 1)) acc := by
    intro l
    induction l with
    | nil => intro acc; rfl
    | cons j l ih =>
      intro acc
      rw [List.foldl_cons, List.flatMap_cons, List.foldl_append, List.foldl_map, ih]
  exact key centers _

/-- The key of every pair of a unit and a center is in the map of `populate_hess_params`,
whatever the number of units. -/
theorem populate_h_isSome (n : Nat) (centers : List Int) {i : Nat} (hi : i < n) {j : Int}
    (hj : j ∈ centers) :
    ((populate_hess_params n centers).h (pairKey n (i : Int) j)).isSome = true := by
  show ((populate_h n centers).1 _).isSome = true
  rw [populate_h_eq]
  apply number_fold_isSome
  left
  rw [List.mem_flatMap]
  exact ⟨j, hj, List.mem_map.mpr ⟨i, List.mem_range.mpr hi, rfl⟩⟩

section Good

variable {n k : Nat} {L U : ℤ} {population : Nat → ℤ} {centers : List Int} {x : Nat → ℚ}

theorem ValidCenters.getD_range (hv : ValidCenters n k centers) {c : Nat} (hc : c < k) :
    0 ≤ centers.getD c 0 ∧ centers.getD c 0 < (n : Int) := by
  have hc' : c < centers.length := by rw [hv.1]; exact hc
  rw [List.getD_eq_getElem _ _ hc']
  exact hv.2.2 _ (List.getElem_mem hc')

theorem ValidCenters.toNat_lt (hv : ValidCenters n k centers) {c : Nat} (hc : c < k) :
    (centers.getD c 0).toNat < n := by
  have := hv.getD_range hc
  omega

theorem ValidCenters.cast_toNat (hv : ValidCenters n k centers) {c : Nat} (hc : c < k) :
    (((centers.getD c 0).toNat : Nat) : Int) = centers.getD c 0 := by
  have := hv.getD_range hc
  omega

theorem ValidCenters.getD_inj (hv : ValidCenters n k centers) {c c' : Nat} (hc : c < k)
    (hc' : c' < k) (h : centers.getD c 0 = centers.getD c' 0) : c = c' := by
  have h1 : c < centers.length := by rw [hv.1]; exact hc
  have h2 : c' < centers.length := by rw [hv.1]; exact hc'
  rw [List.getD_eq_getElem _ _ h1, List.getD_eq_getElem _ _ h2] at h
  exact (List.Nodup.getElem_inj_iff hv.2.1).mp h

theorem ValidCenters.exists_index (hv : ValidCenters n k centers) {j : Int}
    (hj : j ∈ centers) : ∃ c < k, centers.getD c 0 = j := by
  obtain ⟨c, hc, rfl⟩ := List.getElem_of_mem hj
  exact ⟨c, by rw [← hv.1]; exact hc, List.getD_eq_getElem _ _ hc⟩

/-- In a constant reply every variable has the constant as its value. -/
theorem X_col_const (n : Nat) (centers : List Int) (v : ℚ) (c i : Nat) :
    X_col n centers (fun _ => v) c i = v := rfl

/-- The value that the program reads for unit `i` and the `c`-th center. -/
theorem X_V_lookup (n : Nat) (centers : List Int) (x : Nat → ℚ) (c i : Nat) :
    X_V (populate_hess_params n centers) x (i : Int) (centers.getD c 0)
      = X_col n centers x c i := rfl

theorem ENSURE_lookup (hv : ValidCenters n k centers) {c : Nat} (hc : c < k) {i : Nat}
    (hi : i < n) : ENSURE (populate_hess_params n centers) (i : Int) (centers.getD c 0) = true := by
  have hc' : c < centers.length := by rw [hv.1]; exact hc
  have hmem : centers.getD c 0 ∈ centers := by
    rw [List.getD_eq_getElem _ _ hc']
    exact List.getElem_mem hc'
  exact populate_h_isSome n centers hi hmem

theorem ensure_centers_true (hv : ValidCenters n k centers) :
    ensure_centers n (populate_hess_params n centers) centers = true := by
  unfold ensure_centers
  rw [Bool.and_eq_true, List.all_eq_true, List.all_eq_true]
  constructor
  · intro i hi
    rw [List.all_eq_true]
    intro j hj
    obtain ⟨c, hc, rfl⟩ := hv.exists_index hj
    exact ENSURE_lookup hv hc (List.mem_range.mp hi)
  · intro j hj
    obtain ⟨c, hc, rfl⟩ := hv.exists_index hj
    have := ENSURE_lookup hv hc (hv.toNat_lt hc)
    rwa [hv.cast_toNat hc] at this

/-- The checks `ENSURE(i, v)` for all units `i` and a center `v` succeed. -/
theorem ENSURE_all (hv : ValidCenters n k centers) {c : Nat} (hc : c < k) :
    (List.range n).all
      (fun (i : Nat) => ENSURE (populate_hess_params n centers) (i : Int) (centers.getD c 0))
      = true := by
  rw [List.all_eq_true]
  intro i hi
  exact ENSURE_lookup hv hc (List.mem_range.mp hi)

/-- In a constant reply every variable that the program reads has the constant as its
value. -/
theorem X_V_const (p : hess_params) (v : ℚ) (i j : Int) : X_V p (fun _ => v) i j = v := rfl

theorem GoodAssignment.gt_half_iff (hg : GoodAssignment n k L U population centers x) {c : Nat}
    (hc : c < k) {i : Nat} (hi : i < n) : X_col n centers x c i > 1 / 2 ↔ X_col n centers x c i = 1 := by
  rcases hg.1 c hc i hi with h | h <;> rw [h] <;> norm_num

theorem GoodAssignment.nonneg (hg : GoodAssignment n k L U population centers x) {c : Nat}
    (hc : c < k) {i : Nat} (hi : i < n) : 0 ≤ X_col n centers x c i := by
  rcases hg.1 c hc i hi with h | h <;> simp [h]

theorem GoodAssignment.le_one (hg : GoodAssignment n k L U population centers x) {c : Nat}
    (hc : c < k) {i : Nat} (hi : i < n) : X_col n centers x c i ≤ 1 := by
  rcases hg.1 c hc i hi with h | h <;> simp [h]

/-- Every unit is in the column of some center. -/
theorem GoodAssignment.exists_col (hg : GoodAssignment n k L U population centers x) {i : Nat}
    (hi : i < n) : ∃ c < k, X_col n centers x c i = 1 := by
  by_contra hne
  push_neg at hne
  have hz : ∑ c in Finset.range k, X_col n centers x c i = 0 := by
    apply Finset.sum_eq_zero
    intro c hc
    rcases hg.1 c (Finset.mem_range.mp hc) i hi with h | h
    · exact h
    · exact absurd h (hne c (Finset.mem_range.mp hc))
  rw [hg.2.1 i hi] at hz
  exact one_ne_zero hz

/-- No unit is in the columns of two centers. -/
theorem GoodAssignment.col_unique (hg : GoodAssignment n k L U population centers x) {i : Nat}
    (hi : i < n) {c c' : Nat} (hc : c < k) (hc' : c' < k) (h1 : X_col n centers x c i = 1)
    (h2 : X_col n centers x c' i = 1) : c = c' := by
  by_contra hne
  have hsub : ({c, c'} : Finset Nat) ⊆ Finset.range k := by
    intro a ha
    rw [Finset.mem_insert, Finset.mem_singleton] at ha
    rcases ha with rfl | rfl <;> exact Finset.mem_range.mpr ‹_›
  have hle := Finset.sum_le_sum_of_subset_of_nonneg hsub
    (f := fun c => X_col n centers x c i)
    (fun a ha _ => hg.nonneg (Finset.mem_range.mp ha) hi)
  rw [Finset.sum_pair hne, hg.2.1 i hi] at hle
  simp only [h1, h2] at hle
  norm_num at hle

/-- The variable of every center in its own column is `1`. -/
theorem GoodAssignment.center_one (hg : GoodAssignment n k L U population centers x)
    (hv : ValidCenters n k centers) {c : Nat} (hc : c < k) :
    X_col n centers x c (centers.getD c 0).toNat = 1 := by
  have hsum : ∑ c in Finset.range k, (1 - X_col n centers x c (centers.getD c 0).toNat) = 0 := by
    rw [Finset.sum_sub_distrib, hg.2.2.2]
    simp
  have := (Finset.sum_eq_zero_iff_of_nonneg (fun a ha =>
    sub_nonneg.mpr (hg.le_one (Finset.mem_range.mp ha)
      (hv.toNat_lt (Finset.mem_range.mp ha))))).mp hsum c (Finset.mem_range.mpr hc)
  linarith

end Good

/-! ## The recentering loop -/

theorem foldl_update_const (v : Int) (l : List Nat) (hs0 : Nat → Int) (i : Nat) :
    (l.foldl (fun hs i => Function.update hs i v) hs0) i = if i ∈ l then v else hs0 i := by
  induction l generalizing hs0 with
  | nil => simp
  | cons a l ih =>
    rw [List.foldl_cons, ih]
    by_cases hil : i ∈ l
    · simp [hil]
    · by_cases hia : i = a
      · subst hia; simp [hil]
      · simp [hil, hia, Function.update_noteq hia]

theorem bestCenter_fold_mem (w : Nat → Nat → ℚ) (D l : List Nat) (hl : ∀ c ∈ l, c ∈ D)
    (best : Int × WithTop ℚ) (hb : ∃ u ∈ D, best.1 = (u : Int)) :
    ∃ u ∈ D, (l.foldl
      (fun best (c : Nat) =>
        let Cost : ℚ := D.foldl (fun acc v => acc + w v c) 0
        if (Cost : WithTop ℚ) < best.2 then ((c : Int), (Cost : WithTop ℚ)) else best)
      best).1 = (u : Int) := by
  induction l generalizing best with
  | nil => exact hb
  | cons c l ih =>
    rw [List.foldl_cons]
    apply ih (fun a ha => hl a (List.mem_cons_of_mem c ha))
    dsimp only
    split_ifs
    · exact ⟨c, hl c (List.mem_cons_self c l), rfl⟩
    · exact hb

/-- The best center of a non-empty district is one of its units. -/
theorem bestCenterOf_mem (w : Nat → Nat → ℚ) (D : List Nat) (hD : D ≠ []) :
    ∃ u ∈ D, (bestCenterOf w D).1 = (u : Int) := by
  unfold bestCenterOf
  have key : ∀ l : List Nat, l ≠ [] → (∀ c ∈ l, c ∈ D) →
      ∃ u ∈ D, (l.foldl
        (fun best (c : Nat) =>
          let Cost : ℚ := D.foldl (fun acc v => acc + w v c) 0
          if (Cost : WithTop ℚ) < best.2 then ((c : Int), (Cost : WithTop ℚ)) else best)
        (-1, MYINFINITY)).1 = (u : Int) := by
    intro l hl hsub
    cases l with
    | nil => exact absurd rfl hl
    | cons c l =>
      rw [List.foldl_cons]
      apply bestCenter_fold_mem w D l (fun a ha => hsub a (List.mem_cons_of_mem c ha))
      dsimp only
      rw [if_pos (by unfold MYINFINITY; exact WithTop.coe_lt_top _)]
      exact ⟨c, hsub c (List.mem_cons_self c l), rfl⟩
  exact key D hD (fun c hc => hc)

section Recenter

variable {n k : Nat} {L U : ℤ} {population : Nat → ℤ} {old : List Int} {x : Nat → ℚ}

theorem mem_districtOf (hg : GoodAssignment n k L U population old x) {c : Nat} (hc : c < k)
    (i : Nat) :
    i ∈ districtOf n (populate_hess_params n old) x (old.getD c 0)
      ↔ i < n ∧ X_col n old x c i = 1 := by
  unfold districtOf
  rw [List.mem_filter, List.mem_range]
  constructor
  · rintro ⟨hi, h⟩
    rw [decide_eq_true_eq, X_V_lookup n old x c i, hg.gt_half_iff hc hi] at h
    exact ⟨hi, h⟩
  · rintro ⟨hi, h⟩
    refine ⟨hi, ?_⟩
    rw [decide_eq_true_eq, X_V_lookup n old x c i, hg.gt_half_iff hc hi]
    exact h

theorem recenterInv_step (w : Nat → Nat → ℚ) (hv : ValidCenters n k old)
    (hg : GoodAssignment n k L U population old x) (hs0 : Nat → Int) {m : Nat} (hm : m < k)
    {acc : Option (List Int × (Nat → Int) × Bool)} (hinv : RecenterInv n k old x hs0 m acc) :
    RecenterInv n k old x hs0 (m + 1)
      (recenter_step n w (populate_hess_params n old) x acc m) := by
  obtain ⟨cs, hs, fl, rfl, hlen, hlater, hearlier, hhs⟩ := hinv
  have hcm : cs.getD m 0 = old.getD m 0 := hlater m (le_refl m) hm
  have hens : (List.range n).all
      (fun (i : Nat) => ENSURE (populate_hess_params n old) (i : Int) (old.getD m 0)) = true := by
    rw [List.all_eq_true]
    intro i hi
    exact ENSURE_lookup hv hm (List.mem_range.mp hi)
  -- the district of column `m` contains its center
  have hcen : (old.getD m 0).toNat ∈
      districtOf n (populate_hess_params n old) x (old.getD m 0) :=
    (mem_districtOf hg hm _).mpr ⟨hv.toNat_lt hm, hg.center_one hv hm⟩
  obtain ⟨u, hu, hbest⟩ := bestCenterOf_mem w
    (districtOf n (populate_hess_params n old) x (old.getD m 0))
    (List.ne_nil_of_mem hcen)
  have hu' := (mem_districtOf hg hm u).mp hu
  -- the plan after the column
  have hplan : ∀ i < n,
      (∀ c < m + 1, X_col n old x c i = 1 →
        ((districtOf n (populate_hess_params n old) x (old.getD m 0)).foldl
          (fun hs i => Function.update hs i (old.getD m 0)) hs) i = old.getD c 0) ∧
      ((∀ c < m + 1, X_col n old x c i ≠ 1) →
        ((districtOf n (populate_hess_params n old) x (old.getD m 0)).foldl
          (fun hs i => Function.update hs i (old.getD m 0)) hs) i = hs0 i) := by
    intro i hi
    rw [foldl_update_const]
    constructor
    · intro c hc hx
      by_cases hcm' : c = m
      · subst hcm'
        rw [if_pos ((mem_districtOf hg hm i).mpr ⟨hi, hx⟩)]
      · have hc' : c < m := by omega
        have hnot : i ∉ districtOf n (populate_hess_params n old) x (old.getD m 0) := by
          intro hmem
          have := (mem_districtOf hg hm i).mp hmem
          exact hcm' (hg.col_unique hi (by omega) hm hx this.2)
        rw [if_neg hnot]
        exact (hhs i hi).1 c hc' hx
    · intro hnone
      have hnot : i ∉ districtOf n (populate_hess_params n old) x (old.getD m 0) := by
        intro hmem
        exact hnone m (by omega) ((mem_districtOf hg hm i).mp hmem).2
      rw [if_neg hnot]
      exact (hhs i hi).2 (fun c hc => hnone c (by omega))
  unfold recenter_step
  simp only [hcm]
  rw [if_pos hens]
  by_cases hsame : old.getD m 0 = (bestCenterOf w
      (districtOf n (populate_hess_params n old) x (old.getD m 0))).1
  · rw [if_neg (not_not.mpr hsame)]
    refine ⟨cs, _, fl, rfl, hlen, ?_, ?_, hplan⟩
    · intro c hc1 hc2
      exact hlater c (by omega) hc2
    · intro c hc
      by_cases hcm' : c = m
      · subst hcm'
        exact ⟨u, hu'.1, hu'.2, by rw [hcm, hsame, hbest]⟩
      · exact hearlier c (by omega)
  · rw [if_pos hsame]
    refine ⟨cs.set m _, _, true, rfl, by rw [List.length_set]; exact hlen, ?_, ?_, hplan⟩
    · intro c hc1 hc2
      have hne : m ≠ c := by omega
      rw [List.getD_eq_getElem?_getD, List.getElem?_set_ne hne, ← List.getD_eq_getElem?_getD]
      exact hlater c (by omega) hc2
    · intro c hc
      by_cases hcm' : c = m
      · subst hcm'
        refine ⟨u, hu'.1, hu'.2, ?_⟩
        rw [List.getD_eq_getElem?_getD, List.getElem?_set_self (by omega)]
        exact hbest
      · have hne : m ≠ c := fun h => hcm' h.symm
        obtain ⟨u', h1, h2, h3⟩ := hearlier c (by omega)
        refine ⟨u', h1, h2, ?_⟩
        rw [List.getD_eq_getElem?_getD, List.getElem?_set_ne hne, ← List.getD_eq_getElem?_getD]
        exact h3

theorem recenterInv_all (w : Nat → Nat → ℚ) (hv : ValidCenters n k old)
    (hg : GoodAssignment n k L U population old x) (hs0 : Nat → Int) (fl : Bool) :
    RecenterInv n k old x hs0 k
      ((List.range k).foldl (recenter_step n w (populate_hess_params n old) x)
        (some (old, hs0, fl))) := by
  have key : ∀ m, m ≤ k → RecenterInv n k old x hs0 m
      ((List.range m).foldl (recenter_step n w (populate_hess_params n old) x)
        (some (old, hs0, fl))) := by
    intro m
    induction m with
    | zero =>
      intro _
      refine ⟨old, hs0, fl, rfl, hv.1, fun c _ _ => rfl, fun c hc => absurd hc (by omega), ?_⟩
      intro i _
      exact ⟨fun c hc => absurd hc (by omega), fun _ => rfl⟩
    | succ m ih =>
      intro hm
      rw [List.range_succ, List.foldl_append, List.foldl_cons, List.foldl_nil]
      exact recenterInv_step w hv hg hs0 (by omega) (ih (by omega))
  exact key k (le_refl k)

end Recenter

/-! ## From the columns of a good assignment to a valid plan -/

section Plan

variable {n k : Nat} {L U : ℤ} {population : Nat → ℤ} {old : List Int} {x : Nat → ℚ}

/-- A plan that assigns every unit to the center of its column is valid. -/
theorem validPlan_of_columns (hv : ValidCenters n k old)
    (hg : GoodAssignment n k L U population old x) (hs : Nat → Int)
    (hhs : ∀ i < n, ∀ c < k, X_col n old x c i = 1 → hs i = old.getD c 0) :
    ValidPlan n k L U population hs := by
  -- every center is assigned to itself
  have hself : ∀ c < k, hs (old.getD c 0).toNat = old.getD c 0 := fun c hc =>
    hhs _ (hv.toNat_lt hc) c hc (hg.center_one hv hc)
  -- the units assigned to a center are those of its column
  have hiff : ∀ i < n, ∀ c < k, hs i = old.getD c 0 ↔ X_col n old x c i = 1 := by
    intro i hi c hc
    refine ⟨fun h => ?_, hhs i hi c hc⟩
    obtain ⟨c', hc', hx'⟩ := hg.exists_col hi
    have := hhs i hi c' hc' hx'
    rw [h] at this
    rw [hv.getD_inj hc hc' this]
    exact hx'
  -- the fixed points of the plan are the centers
  have hfix : ∀ u < n, hs u = (u : Int) → ∃ c < k, old.getD c 0 = (u : Int) := by
    intro u hu hsu
    obtain ⟨c, hc, hx⟩ := hg.exists_col hu
    exact ⟨c, hc, by rw [← hhs u hu c hc hx, hsu]⟩
  refine ⟨?_, ?_, ?_⟩
  · have hnd1 : ((List.range n).filter (fun (c : Nat) => decide (hs c = (c : Int)))).Nodup :=
      (List.nodup_range n).filter _
    have hnd2 : (old.map Int.toNat).Nodup := by
      apply List.Nodup.map_on _ hv.2.1
      intro a ha b hb hab
      have h1 := hv.2.2 a ha
      have h2 := hv.2.2 b hb
      omega
    have heq : ((List.range n).filter (fun (c : Nat) => decide (hs c = (c : Int)))).toFinset
        = (old.map Int.toNat).toFinset := by
      ext u
      rw [List.mem_toFinset, List.mem_toFinset, List.mem_filter, List.mem_range, List.mem_map,
        decide_eq_true_eq]
      constructor
      · rintro ⟨hu, hsu⟩
        obtain ⟨c, hc, hcu⟩ := hfix u hu hsu
        have hc' : c < old.length := by rw [hv.1]; exact hc
        refine ⟨old.getD c 0, ?_, by rw [hcu]; rfl⟩
        rw [List.getD_eq_getElem _ _ hc']
        exact List.getElem_mem hc'
      · rintro ⟨j, hj, rfl⟩
        obtain ⟨c, hc, rfl⟩ := hv.exists_index hj
        exact ⟨hv.toNat_lt hc, by rw [hself c hc, hv.cast_toNat hc]⟩
    rw [← List.toFinset_card_of_nodup hnd1, heq, List.toFinset_card_of_nodup hnd2,
      List.length_map, hv.1]
  · intro i hi
    obtain ⟨c, hc, hx⟩ := hg.exists_col hi
    refine ⟨(old.getD c 0).toNat, hv.toNat_lt hc, ?_, ?_⟩
    · rw [hself c hc, hv.cast_toNat hc]
    · rw [hhs i hi c hc hx, hv.cast_toNat hc]
  · intro u hu hsu
    obtain ⟨c, hc, hcu⟩ := hfix u hu hsu
    have hsum : ((∑ i in Finset.range n, (if hs i = (u : Int) then population i else 0) : ℤ) : ℚ)
        = ∑ i in Finset.range n, (population i : ℚ) * X_col n old x c i := by
      push_cast
      apply Finset.sum_congr rfl
      intro i hi
      have hi' := Finset.mem_range.mp hi
      rw [← hcu]
      by_cases h : hs i = old.getD c 0
      · rw [if_pos h, (hiff i hi' c hc).mp h, mul_one]
      · rw [if_neg h]
        rcases hg.1 c hc i hi' with h0 | h1
        · rw [h0, mul_zero]
        · exact absurd ((hiff i hi' c hc).mpr h1) h
    have hb := hg.2.2.1 c hc
    rw [← hsum] at hb
    exact ⟨by exact_mod_cast hb.1, by exact_mod_cast hb.2⟩

/-- After the recentering loop the centers are again `k` distinct units and the recorded
plan is valid. -/
theorem recenter_result (w : Nat → Nat → ℚ) (hv : ValidCenters n k old)
    (hg : GoodAssignment n k L U population old x) (hs0 : Nat → Int) (fl : Bool) :
    ∃ cs hs fl', (List.range k).foldl (recenter_step n w (populate_hess_params n old) x)
        (some (old, hs0, fl)) = some (cs, hs, fl') ∧
      ValidCenters n k cs ∧ ValidPlan n k L U population hs := by
  obtain ⟨cs, hs, fl', heq, hlen, _, hcols, hhs⟩ := recenterInv_all w hv hg hs0 fl
  refine ⟨cs, hs, fl', heq, ⟨hlen, ?_, ?_⟩, ?_⟩
  · rw [List.nodup_iff_injective_get]
    intro a b hab
    have ha : a.1 < k := by rw [← hlen]; exact a.2
    have hb : b.1 < k := by rw [← hlen]; exact b.2
    obtain ⟨u, hu, hxu, hcu⟩ := hcols a.1 ha
    obtain ⟨u', hu', hxu', hcu'⟩ := hcols b.1 hb
    rw [List.getD_eq_getElem _ _ a.2] at hcu
    rw [List.getD_eq_getElem _ _ b.2] at hcu'
    simp only [List.get_eq_getElem] at hab
    rw [hcu, hcu'] at hab
    have huu : u = u' := by exact_mod_cast hab
    subst huu
    exact Fin.ext (hg.col_unique hu ha hb hxu hxu')
  · intro c hc
    obtain ⟨a, ha, rfl⟩ := List.getElem_of_mem hc
    obtain ⟨u, hu, _, hcu⟩ := hcols a (by rw [← hlen]; exact ha)
    rw [List.getD_eq_getElem _ _ ha] at hcu
    rw [hcu]
    omega
  · exact validPlan_of_columns hv hg hs (fun i hi c hc hx => (hhs i hi).1 c hc hx)

end Plan

/-! ## The Hess descent and the restart -/

/-- Invariant of the Hess descent: whenever `iterUB` is below `MYINFINITY`, the plan of the
restart is valid. -/
theorem descent_plan (n k : Nat) (L U : ℤ) (population : Nat → ℤ) (w : Nat → Nat → ℚ)
    (script : List (List Int → Reply))
    (hor : ∀ r ∈ script, OraclePromise n k L U population r) (st : DescentState)
    (hv : ValidCenters n k st.centers)
    (hplan : st.iterUB < ⊤ → ValidPlan n k L U population st.iterHeuristicSolution) :
    (descent n k w script st).2.1.iterUB < ⊤ →
      ValidPlan n k L U population (descent n k w script st).2.1.iterHeuristicSolution := by
  induction script generalizing st with
  | nil => exact hplan
  | cons r rest ih =>
    have hor' : ∀ r' ∈ rest, OraclePromise n k L U population r' :=
      fun r' hr' => hor r' (List.mem_cons_of_mem r hr')
    rw [descent]
    simp only [ensure_centers_true hv, if_true]
    cases hr : r st.centers with
    | raised => exact hplan
    | answered status objVal x =>
      simp only []
      by_cases hok : status = 2 ∨ status = 9
      · rw [if_pos hok]
        cases objVal with
        | none => exact hplan
        | some v =>
          simp only []
          by_cases himp : (v : WithTop ℚ) < st.iterUB
          · rw [if_pos himp]
            have hg := hor r (List.mem_cons_self r rest) st.centers hv status (some v) x hr hok
            obtain ⟨cs, hs, fl', heq, hvcs, hvp⟩ :=
              recenter_result w hv hg st.iterHeuristicSolution false
            rw [heq]
            simp only []
            cases fl' with
            | true =>
              simp only [if_true]
              exact ih hor' _ hvcs (fun _ => hvp)
            | false =>
              simp only [Bool.false_eq_true, if_false]
              exact fun _ => hvp
          · rw [if_neg himp]
            intro _
            apply hplan
            exact lt_of_le_of_lt (not_lt.mp himp) (WithTop.coe_lt_top v)
      · rw [if_neg hok]
        exact hplan

theorem validCenters_of_shuffle {n k : Nat} {shuffled : List Nat} (hk : k ≤ n)
    (hperm : shuffled.Perm (List.range n)) :
    ValidCenters n k (List.map (fun (c : Nat) => (c : Int)) (shuffled.take k)) := by
  refine ⟨?_, ?_, ?_⟩
  · rw [List.length_map, List.length_take, hperm.length_eq, List.length_range]
    exact Nat.min_eq_left hk
  · apply List.Nodup.map
    · intro a b hab
      exact Int.ofNat.inj hab
    · exact (hperm.nodup_iff.mpr (List.nodup_range n)).sublist (List.take_sublist k shuffled)
  · intro c hc
    rw [List.mem_map] at hc
    obtain ⟨u, hu, rfl⟩ := hc
    have := List.mem_range.mp (hperm.mem_iff.mp (List.mem_of_mem_take hu))
    omega

/-! ### A restart on instance A -/

/-- The district of the center `0` when every variable is `1`. -/
theorem districtOf_all_ones :
    districtOf 2 (populate_hess_params 2 [0]) (fun _ => 1) 0 = [0, 1] := by
  have h : ((2 : ℚ)⁻¹ < 1) := by norm_num
  simp [districtOf, X_V, List.range_succ, List.filter, h]

/-- On instance A the best center of the district `{0, 1}` is unit `0`, at cost `1`. -/
theorem bestCenterOf_w_A : bestCenterOf w_A [0, 1] = (0, ((1 : ℚ) : WithTop ℚ)) := by
  have h1 : ((1 : ℚ) : WithTop ℚ) < ⊤ := WithTop.coe_lt_top 1
  have h2 : ¬ ((3 : ℚ) : WithTop ℚ) < ((1 : ℚ) : WithTop ℚ) := by
    rw [WithTop.coe_lt_coe]; norm_num
  simp [bestCenterOf, w_A, MYINFINITY, h1, h2]

/-- A restart that commits a plan: two units, one district, first center `0`, the solver
assigns both units to it at objective `1`; the incumbent becomes `UB = 1`, `σ = (0, 0)`. -/
theorem restart_example :
    (restart 2 1 w_A [0, 1] [reply_all_ones]
      { UB := MYINFINITY, heuristicSolution := fun _ => -1 }).2.1.UB = ((1 : ℚ) : WithTop ℚ) ∧
    ∀ i < 2, (restart 2 1 w_A [0, 1] [reply_all_ones]
      { UB := MYINFINITY, heuristicSolution := fun _ => -1 }).2.1.heuristicSolution i = 0 := by
  have hv : ValidCenters 2 1 [0] := by unfold ValidCenters; decide
  have he := ensure_centers_true hv
  have h1 : ((1 : ℚ) : WithTop ℚ) < ⊤ := WithTop.coe_lt_top 1
  have hall : (List.range 2).all (fun (i : Nat) => ENSURE (populate_hess_params 2 [0]) (i : Int) 0)
      = true := ENSURE_all hv (c := 0) (by decide)
  have hstep : recenter_step 2 w_A (populate_hess_params 2 [0]) (fun _ => 1)
      (some ([0], fun _ => -1, false)) 0
      = some ([0], [0, 1].foldl (fun hs i => Function.update hs i 0) (fun _ => -1), false) := by
    unfold recenter_step
    simp only [List.getD_cons_zero, hall, if_true, districtOf_all_ones, bestCenterOf_w_A]
    simp
  simp only [restart, List.take, List.map, descent, Nat.cast_zero, he, if_true, reply_all_ones]
  have hr1 : List.range 1 = [0] := rfl
  simp only [MYINFINITY, h1, if_true, true_or, hr1, List.foldl, hstep]
  simp [h1]
  intro i hi
  interval_cases i <;> simp [Function.update]

/-! ## `LocalSearch` never increases `UB` -/

theorem ChangedOnlyBelow.le {script : List (List Int → Reply)} {UB UB' : WithTop ℚ}
    {hs hs' : Nat → Int} (h : ChangedOnlyBelow script UB hs UB' hs') : UB' ≤ UB := by
  rcases h with ⟨h, _⟩ | ⟨_, _, _, _, _, _, _, _, h, hlt⟩
  · exact le_of_eq h
  · rw [h]
    exact le_of_lt hlt

theorem ChangedOnlyBelow.mono {script script' : List (List Int → Reply)} {UB UB' : WithTop ℚ}
    {hs hs' : Nat → Int} (hsub : ∀ r ∈ script, r ∈ script')
    (h : ChangedOnlyBelow script UB hs UB' hs') : ChangedOnlyBelow script' UB hs UB' hs' := by
  rcases h with h | ⟨r, hr, h⟩
  · exact Or.inl h
  · exact Or.inr ⟨r, hsub r hr, h⟩

/-- A change that follows a reported objective below `UB`. -/
theorem ChangedOnlyBelow.after {r : List Int → Reply} {rest : List (List Int → Reply)}
    {UB UB' : WithTop ℚ} {hs hs1 hs' : Nat → Int} {cs : List Int} {status : Int} {v : ℚ}
    {x : Nat → ℚ} (hr : r cs = Reply.answered status (some v) x) (hok : status = 2 ∨ status = 9)
    (hlt : (v : WithTop ℚ) < UB) (h : ChangedOnlyBelow rest (v : WithTop ℚ) hs1 UB' hs') :
    ChangedOnlyBelow (r :: rest) UB hs UB' hs' := by
  rcases h with ⟨h, _⟩ | ⟨r', hr', cs', status', v', x', h1, h2, h3, h4⟩
  · exact Or.inr ⟨r, List.mem_cons_self r rest, cs, status, v, x, hr, hok, h, hlt⟩
  · exact Or.inr ⟨r', List.mem_cons_of_mem r hr', cs', status', v', x', h1, h2, h3,
      lt_trans h4 hlt⟩

/-- The step after `model.optimize()` either leaves the variables as they are, without
improvement, or the reply has status optimal or time limit and an objective below `UB`,
which becomes the new `UB`. -/
theorem commit_cases (n k c_i : Nat) (u : Int) (rep : Reply) (st : SearchState) :
    ((commit n k c_i u rep st).2.1 = false ∧ (commit n k c_i u rep st).2.2 = st) ∨
    ((commit n k c_i u rep st).2.1 = true ∧ ∃ status v x,
      rep = Reply.answered status (some v) x ∧ (status = 2 ∨ status = 9) ∧
      (v : WithTop ℚ) < st.UB ∧ (commit n k c_i u rep st).2.2.UB = (v : WithTop ℚ)) := by
  unfold commit
  cases rep with
  | raised => exact Or.inl ⟨rfl, rfl⟩
  | answered status objVal x =>
    simp only []
    by_cases hok : status = 2 ∨ status = 9
    · rw [if_pos hok]
      cases objVal with
      | none => exact Or.inl ⟨rfl, rfl⟩
      | some v =>
        simp only []
        by_cases hlt : (v : WithTop ℚ) < st.UB
        · rw [if_pos hlt]
          right
          cases update_plan n k (populate_hess_params n (st.centers.set c_i u))
              (st.centers.set c_i u) x st.heuristicSolution with
          | none => exact ⟨rfl, status, v, x, rfl, hok, hlt, rfl⟩
          | some hs => exact ⟨rfl, status, v, x, rfl, hok, hlt, rfl⟩
        · rw [if_neg hlt]
          exact Or.inl ⟨rfl, rfl⟩
    · rw [if_neg hok]
      exact Or.inl ⟨rfl, rfl⟩

/-- The incumbent at the end of the search loop. -/
theorem search_changedOnlyBelow (n k : Nat) (nb : Int → List Int) (cands : List (Nat × Int))
    (script : List (List Int → Reply)) (st : SearchState) :
    ChangedOnlyBelow script st.UB st.heuristicSolution
      (search n k nb cands script st).2.UB (search n k nb cands script st).2.heuristicSolution := by
  induction cands, script, st using search.induct n k nb with
  | case1 script st =>
    rw [search.eq_1]
    exact Or.inl ⟨rfl, rfl⟩
  | case2 c_i u cands script st centers_str hseen ih =>
    rw [search.eq_2, if_pos hseen]
    exact ih
  | case3 c_i u cands st v centers_str hnew hens =>
    rw [search.eq_2, if_neg hnew]
    simp only [hens, if_true]
    exact Or.inl ⟨rfl, rfl⟩
  | case4 c_i u cands st v centers_str hnew st1 hens r rest st2 hres ih =>
    rw [search.eq_2, if_neg hnew]
    simp only [hens, if_true, hres]
    rcases commit_cases n k c_i u (r (st.centers.set c_i u)) st1 with ⟨h, _⟩ | ⟨_, status, w, x, hr, hok, hlt, hUB⟩
    · rw [hres] at h
      exact absurd h (by simp)
    · rw [hres] at hUB
      simp only at hUB
      rw [hUB] at ih
      exact ChangedOnlyBelow.after hr hok hlt ih
  | case5 c_i u cands st v centers_str hnew st1 hens r rest st2 hres ih =>
    rw [search.eq_2, if_neg hnew]
    simp only [hens, if_true, hres]
    rcases commit_cases n k c_i u (r (st.centers.set c_i u)) st1 with ⟨_, h⟩ | ⟨h, _⟩
    · rw [hres] at h
      simp only at h
      rw [h] at ih ⊢
      exact ChangedOnlyBelow.mono (fun r' hr' => List.mem_cons_of_mem r hr') ih
    · rw [hres] at h
      exact absurd h (by simp)
  | case6 c_i u cands st v centers_str hnew st1 hens r rest flow fst st2 h1 h2 hres =>
    rw [search.eq_2, if_neg hnew]
    simp only [hens, if_true, hres]
    rcases commit_cases n k c_i u (r (st.centers.set c_i u)) st1 with ⟨_, h⟩ | ⟨_, status, w, x, hr, hok, hlt, hUB⟩
    · rw [hres] at h
      simp only at h
      rw [h]
      exact Or.inl ⟨rfl, rfl⟩
    · rw [hres] at hUB
      simp only at hUB
      exact Or.inr ⟨r, List.mem_cons_self r rest, _, status, w, x, hr, hok, hUB, hlt⟩
  | case7 c_i u cands script st v centers_str hnew hens =>
    rw [search.eq_2, if_neg hnew]
    simp only [hens]
    exact Or.inl ⟨rfl, rfl⟩

/-- The incumbent when `LocalSearch` ends. -/
theorem localSearch_changedOnlyBelow (n k : Nat) (nb : Int → List Int) (size : Nat)
    (setup : Bool) (script : List (List Int → Reply)) (inc : Incumbent) :
    ChangedOnlyBelow script inc.UB inc.heuristicSolution
      (LocalSearch n k nb size setup script inc).2.UB
      (LocalSearch n k nb size setup script inc).2.heuristicSolution := by
  unfold LocalSearch
  by_cases h1 : size < n
  · simp only [h1, if_true]
    exact Or.inl ⟨rfl, rfl⟩
  simp only [h1, if_false]
  by_cases h2 : (-1 : Int) ∈ (initial_centers n k inc.heuristicSolution).1
  · simp only [h2, if_true]
    exact Or.inl ⟨rfl, rfl⟩
  simp only [h2, if_false]
  cases setup with
  | false => exact Or.inl ⟨rfl, rfl⟩
  | true =>
    simp only [Bool.not_true, Bool.false_eq_true, if_false]
    by_cases h3 : ensure_centers n (populate_hess_params n
        (initial_centers n k inc.heuristicSolution).1)
        (initial_centers n k inc.heuristicSolution).1 = true
    · simp only [h3, if_true]
      have h := search_changedOnlyBelow n k nb
        (candidates k nb (initial_centers n k inc.heuristicSolution).1) script
        { centers := (initial_centers n k inc.heuristicSolution).1,
          p := populate_hess_params n (initial_centers n k inc.heuristicSolution).1,
          htbl := [], UB := inc.UB, heuristicSolution := inc.heuristicSolution }
      rcases hs : search n k nb
        (candidates k nb (initial_centers n k inc.heuristicSolution).1) script
        { centers := (initial_centers n k inc.heuristicSolution).1,
          p := populate_hess_params n (initial_centers n k inc.heuristicSolution).1,
          htbl := [], UB := inc.UB, heuristicSolution := inc.heuristicSolution } with ⟨flow, st⟩
      rw [hs] at h
      cases flow <;> exact h
    · simp only [h3]
      exact Or.inl ⟨rfl, rfl⟩

/-- A run of `LocalSearch` that improves: two units, one district, plan `σ = (1, 1)` with
`UB = 3`, unit `0` the neighbour of unit `1`; the solver reports the objective `1` for the
center `0`, and the run ends with `UB = 1`, `σ = (0, 0)` and the value `true`. -/
theorem localSearch_example :
    (LocalSearch 2 1 (fun v => if v = 1 then [0] else []) 2 true [reply_all_ones]
      { UB := ((3 : ℚ) : WithTop ℚ), heuristicSolution := fun _ => 1 }).1 = some true ∧
    (LocalSearch 2 1 (fun v => if v = 1 then [0] else []) 2 true [reply_all_ones]
      { UB := ((3 : ℚ) : WithTop ℚ), heuristicSolution := fun _ => 1 }).2.UB
        = ((1 : ℚ) : WithTop ℚ) ∧
    ∀ i < 2, (LocalSearch 2 1 (fun v => if v = 1 then [0] else []) 2 true [reply_all_ones]
      { UB := ((3 : ℚ) : WithTop ℚ), heuristicSolution := fun _ => 1 }).2.heuristicSolution i
        = 0 := by
  have hc : (initial_centers 2 1 (fun _ => 1)).1 = [1] := by
    simp [initial_centers, List.range_succ]
  have hv : ValidCenters 2 1 [1] := by unfold ValidCenters; decide
  have he := ensure_centers_true hv
  have hlt : ((1 : ℚ) : WithTop ℚ) < ((3 : ℚ) : WithTop ℚ) := by
    rw [WithTop.coe_lt_coe]; norm_num
  have hall : (List.range 2).all (fun (i : Nat) => ENSURE (populate_hess_params 2 [1]) (i : Int) 1)
      = true := ENSURE_all hv (c := 0) (by decide)
  have hcand : candidates 1 (fun v => if v = 1 then [0] else []) [1] = [(0, 0)] := by
    decide
  have hcand0 : candidates 1 (fun v => if v = 1 then [0] else []) [0] = [] := by
    decide
  have hhalf : ((2 : ℚ)⁻¹ < 1) := by norm_num
  have hup : update_plan 2 1 (populate_hess_params 2 [0]) [0] (fun _ => 1) (fun _ => 1)
      = some (Function.update (Function.update (fun _ => 1) 0 0) 1 0) := by
    have hv0 : ValidCenters 2 1 [0] := by unfold ValidCenters; decide
    have hE0 : ENSURE (populate_hess_params 2 [0]) 0 0 = true :=
      ENSURE_lookup hv0 (c := 0) (by decide) (i := 0) (by decide)
    have hE1 : ENSURE (populate_hess_params 2 [0]) 1 0 = true :=
      ENSURE_lookup hv0 (c := 0) (by decide) (i := 1) (by decide)
    simp [update_plan, List.range_succ, hE0, hE1, X_V_const, hhalf]
  unfold LocalSearch
  simp only [hc, he, hcand]
  rw [search.eq_2]
  simp only [List.not_mem_nil, if_false, List.getD_cons_zero, hall, if_true]
  simp only [commit, reply_all_ones, List.set, true_or, if_true, hlt, hup, hcand0, search.eq_1]
  simp
  intro i hi
  interval_cases i <;> simp [Function.update]

/-! ## The diagonals of the tables after safe fixing -/

/-- A pair that the one-fixing rule sets has its column in `S`. -/
theorem oneRule_S {clusters : List (List Nat)} {W : Nat → ℚ} {S : Nat → Bool} {f_val UB : ℚ}
    {minW : Option ℚ} {i j : Nat} (h : oneRule clusters W S f_val UB minW i j = true) :
    S j = true := by
  unfold oneRule at h
  simp only [Bool.and_eq_true] at h
  exact h.2.1

/-- The one-fixing rule sets the diagonal entry of every column in which it sets an entry. -/
theorem oneRule_diag {clusters : List (List Nat)} {W : Nat → ℚ} {S : Nat → Bool} {f_val UB : ℚ}
    {minW : Option ℚ} {i j : Nat} (h : oneRule clusters W S f_val UB minW i j = true) :
    oneRule clusters W S f_val UB minW j j = true := by
  unfold oneRule at h ⊢
  simp only [Bool.and_eq_true, List.any_eq_true, decide_eq_true_eq] at h ⊢
  obtain ⟨⟨c, hc, _, hj⟩, hS⟩ := h
  exact ⟨⟨c, hc, hj, hj⟩, hS⟩

/-- A diagonal entry that the zero-fixing rule sets belongs to a column outside `S`. -/
theorem zeroRule_diag {n : Nat} {W : Nat → ℚ} {S : Nat → Bool} {f_val UB : ℚ}
    {wh : Nat → Nat → ℚ} {maxW : Option ℚ} {j : Nat}
    (h : zeroRule n W S f_val UB wh maxW j j = true) : S j = false := by
  unfold zeroRule at h
  cases hS : S j with
  | false => rfl
  | true => simp [hS] at h

/-! ## Counting the selected indices -/

/-- The number of elements of a duplicate-free list of indices below `n` that pass a test, as
the size of a subset of `0 .. n-1`. -/
theorem countP_eq_card (p : Nat → Bool) (n : Nat) (l : List Nat) (hnd : l.Nodup)
    (hl : ∀ c ∈ l, c < n) :
    l.countP p = ((Finset.range n).filter (fun j => j ∈ l ∧ p j = true)).card := by
  rw [List.countP_eq_length_filter,
    ← List.toFinset_card_of_nodup (hnd.sublist (List.filter_sublist l))]
  congr 1
  ext j
  simp only [List.mem_toFinset, List.mem_filter, Finset.mem_filter, Finset.mem_range]
  exact ⟨fun h => ⟨hl j h.1, h⟩, fun h => h.2⟩

/-- The selected set of `eugene_inner` as a subset of `0 .. n-1`. -/
theorem eugene_inner_S_filter (n : Nat) (mu : Nat → ℚ) (L U : ℤ) (k : Nat)
    (population : Nat → ℤ) (w : Nat → Nat → ℚ) (F_0 F_1 : Nat → Nat → Bool) :
    (Finset.range n).filter (fun j => (eugene_inner n mu L U k population w F_0 F_1).S j = true)
      = ((W_indices n F_0 F_1
          (W_val n F_0 F_1 (w_hat n mu L U population w))).take k).toFinset := by
  ext j
  rw [Finset.mem_filter, Finset.mem_range, List.mem_toFinset, eugene_inner_S_iff]
  refine ⟨fun h => h.2, fun h => ⟨?_, h⟩⟩
  exact List.mem_range.mp ((W_indices_perm _ _ _ _).mem_iff.mp (List.mem_of_mem_take h))

/-- For `k ≤ n` the selected set of `eugene_inner` has `k` elements. -/
theorem eugene_inner_S_card (n : Nat) (mu : Nat → ℚ) (L U : ℤ) (k : Nat)
    (population : Nat → ℤ) (w : Nat → Nat → ℚ) (F_0 F_1 : Nat → Nat → Bool) (hk : k ≤ n) :
    ((Finset.range n).filter
      (fun j => (eugene_inner n mu L U k population w F_0 F_1).S j = true)).card = k := by
  rw [eugene_inner_S_filter, List.toFinset_card_of_nodup
    (((W_indices_perm _ _ _ _).nodup_iff.mpr (List.nodup_range n)).sublist
      (List.take_sublist k _)),
    List.length_take, (W_indices_perm _ _ _ _).length_eq, List.length_range]
  exact Nat.min_eq_left hk

/-! ## `run_gurobi`: the district numbers -/

theorem centersBelow_succ (x : Nat → Nat → ℚ) (m : Nat) :
    centersBelow x (m + 1) = centersBelow x m + (if x m m > 1 / 2 then 1 else 0) := by
  unfold centersBelow
  rw [Finset.range_succ, Finset.filter_insert]
  split_ifs with h
  · rw [Finset.card_insert_of_not_mem]
    intro hm
    exact absurd (Finset.mem_range.mp (Finset.mem_filter.mp hm).1) (lt_irrefl m)
  · rfl

theorem centersBelow_mono (x : Nat → Nat → ℚ) {a b : Nat} (h : a ≤ b) :
    centersBelow x a ≤ centersBelow x b := by
  unfold centersBelow
  apply Finset.card_le_card
  intro c hc
  rw [Finset.mem_filter, Finset.mem_range] at hc ⊢
  exact ⟨lt_of_lt_of_le hc.1 h, hc.2⟩

/-- A center below `b` is counted below `b` and not below itself. -/
theorem centersBelow_lt (x : Nat → Nat → ℚ) {a b : Nat} (h : a < b) (ha : x a a > 1 / 2) :
    centersBelow x a < centersBelow x b := by
  have h1 := centersBelow_succ x a
  rw [if_pos ha] at h1
  have h2 := centersBelow_mono x (show a + 1 ≤ b by omega)
  omega

/-- The loop over the centers after `m` passes: `cur` is one more than the number of centers
seen, and every center seen has the number of its rank. -/
theorem heads_fold (x : Nat → Nat → ℚ) (m : Nat) :
    ((List.range m).foldl
        (fun (acc : (Nat → Int) × Int) i =>
          if x i i > 1 / 2 then (Function.update acc.1 i acc.2, acc.2 + 1) else acc)
        (fun _ => 0, 1)).2 = 1 + (centersBelow x m : Int) ∧
    ∀ j, ((List.range m).foldl
        (fun (acc : (Nat → Int) × Int) i =>
          if x i i > 1 / 2 then (Function.update acc.1 i acc.2, acc.2 + 1) else acc)
        (fun _ => 0, 1)).1 j
      = if j < m ∧ x j j > 1 / 2 then 1 + (centersBelow x j : Int) else 0 := by
  induction m with
  | zero =>
    refine ⟨by simp [centersBelow], fun j => ?_⟩
    simp
  | succ m ih =>
    rw [List.range_succ, List.foldl_append, List.foldl_cons, List.foldl_nil]
    obtain ⟨ih2, ih1⟩ := ih
    by_cases hm : x m m > 1 / 2
    · rw [if_pos hm]
      refine ⟨?_, fun j => ?_⟩
      · show _ + 1 = _
        rw [ih2, centersBelow_succ, if_pos hm]
        push_cast
        ring
      · show Function.update _ m _ j = _
        by_cases hjm : j = m
        · subst hjm
          rw [Function.update_same, ih2, if_pos ⟨Nat.lt_succ_self j, hm⟩]
        · rw [Function.update_noteq hjm, ih1]
          have : (j < m + 1) ↔ j < m := by omega
          simp only [this]
    · rw [if_neg hm]
      refine ⟨?_, fun j => ?_⟩
      · rw [ih2, centersBelow_succ, if_neg hm]
        simp
      · rw [ih1]
        by_cases hjm : j = m
        · subst hjm
          rw [if_neg (fun h => hm h.2), if_neg (fun h => hm h.2)]
        · have : (j < m + 1) ↔ j < m := by omega
          simp only [this]

/-- The array `heads` of `run_gurobi`. -/
theorem run_gurobi_heads_apply (n : Nat) (x : Nat → Nat → ℚ) (j : Nat) :
    (run_gurobi_heads n x).1 j
      = if j < n ∧ x j j > 1 / 2 then 1 + (centersBelow x j : Int) else 0 :=
  (heads_fold x n).2 j

/-- The row loop of the translation changes only the entry of its row; if the row has its
only large value in column `j`, the entry becomes `heads[j]`. -/
theorem sol_row_fold (x : Nat → Nat → ℚ) (H : Nat → Int) (i j : Nat) (l : List Nat)
    (sol : Nat → Int) :
    (∀ i', i' ≠ i → (l.foldl (fun sol j => if x i j > 1 / 2 then Function.update sol i (H j)
        else sol) sol) i' = sol i') ∧
    ((∀ j' ∈ l, x i j' > 1 / 2 → j' = j) →
      (l.foldl (fun sol j => if x i j > 1 / 2 then Function.update sol i (H j) else sol) sol) i
        = if j ∈ l ∧ x i j > 1 / 2 then H j else sol i) := by
  induction l generalizing sol with
  | nil => exact ⟨fun _ _ => rfl, fun _ => by simp⟩
  | cons a l ih =>
    rw [List.foldl_cons]
    constructor
    · intro i' hi'
      rw [(ih _).1 i' hi']
      split_ifs
      · exact Function.update_noteq hi' _ _
      · rfl
    · intro huniq
      rw [(ih _).2 (fun j' hj' => huniq j' (List.mem_cons_of_mem a hj'))]
      by_cases hjl : j ∈ l ∧ x i j > 1 / 2
      · rw [if_pos hjl, if_pos ⟨List.mem_cons_of_mem a hjl.1, hjl.2⟩]
      · rw [if_neg hjl]
        by_cases ha : x i a > 1 / 2
        · have haj : a = j := huniq a (List.mem_cons_self a l) ha
          rw [if_pos ha, Function.update_same, haj,
            if_pos ⟨List.mem_cons_self j l, haj ▸ ha⟩]
        · rw [if_neg ha]
          have : ¬(j ∈ a :: l ∧ x i j > 1 / 2) := by
            rintro ⟨hmem, hx⟩
            rcases List.mem_cons.mp hmem with h | h
            · exact ha (h ▸ hx)
            · exact hjl ⟨h, hx⟩
          rw [if_neg this]

/-- The translated solution: a unit whose only large value is in column `j` gets
`heads[j]`. -/
theorem run_gurobi_sol_apply (n : Nat) (x : Nat → Nat → ℚ) (sol0 : Nat → Int) {i j : Nat}
    (hi : i < n) (hj : j < n) (hij : x i j > 1 / 2)
    (huniq : ∀ j' < n, x i j' > 1 / 2 → j' = j) :
    run_gurobi_sol n x sol0 i = (run_gurobi_heads n x).1 j := by
  unfold run_gurobi_sol
  have key : ∀ m, i < m →
      ((List.range m).foldl
        (fun sol i =>
          (List.range n).foldl
            (fun sol j =>
              if x i j > 1 / 2 then Function.update sol i ((run_gurobi_heads n x).1 j)
              else sol) sol) sol0) i = (run_gurobi_heads n x).1 j := by
    intro m
    induction m with
    | zero => intro h; exact absurd h (Nat.not_lt_zero i)
    | succ m ih =>
      intro him
      rw [List.range_succ, List.foldl_append, List.foldl_cons, List.foldl_nil]
      by_cases hm : i = m
      · subst hm
        rw [(sol_row_fold x (run_gurobi_heads n x).1 i j (List.range n) _).2
          (fun j' hj' => huniq j' (List.mem_range.mp hj')),
          if_pos ⟨List.mem_range.mpr hj, hij⟩]
      · rw [(sol_row_fold x (run_gurobi_heads n x).1 m j (List.range n) _).1 i hm]
        exact ih (by omega)
  exact key n hi

/-! ## The variable map of `build_hess` -/

/-- A loop that numbers the keys of a duplicate-free list: the key at position `t` gets the
number `cur + t`, the other keys keep their entry, and `cur` grows by the length. -/
theorem number_keys (ks : List Int) (hnd : ks.Nodup) (acc : (Int → Option Nat) × Nat) :
    (ks.foldl (fun acc key => (Function.update acc.1 key (some acc.2), acc.2 + 1)) acc).2
      = acc.2 + ks.length ∧
    (∀ t, ∀ ht : t < ks.length,
      (ks.foldl (fun acc key => (Function.update acc.1 key (some acc.2), acc.2 + 1)) acc).1
        (ks.get ⟨t, ht⟩) = some (acc.2 + t)) ∧
    (∀ key, key ∉ ks →
      (ks.foldl (fun acc key => (Function.update acc.1 key (some acc.2), acc.2 + 1)) acc).1 key
        = acc.1 key) := by
  induction ks generalizing acc with
  | nil =>
    refine ⟨rfl, fun t ht => absurd ht (Nat.not_lt_zero t), fun _ _ => rfl⟩
  | cons a l ih =>
    obtain ⟨hal, hl⟩ := List.nodup_cons.mp hnd
    obtain ⟨ih1, ih2, ih3⟩ := ih hl (Function.update acc.1 a (some acc.2), acc.2 + 1)
    rw [List.foldl_cons]
    refine ⟨?_, ?_, ?_⟩
    · rw [ih1, List.length_cons]
      show acc.2 + 1 + l.length = acc.2 + (l.length + 1)
      omega
    · intro t ht
      cases t with
      | zero =>
        simp only [List.get_eq_getElem, List.getElem_cons_zero]
        rw [ih3 a hal]
        exact Function.update_same _ _ _
      | succ t =>
        have ht' : t < l.length := by
          rw [List.length_cons] at ht
          omega
        have := ih2 t ht'
        simp only [List.get_eq_getElem, List.getElem_cons_succ] at this ⊢
        rw [this]
        show some (acc.2 + 1 + t) = some (acc.2 + (t + 1))
        congr 1
        omega
    · intro key hkey
      rw [List.mem_cons, not_or] at hkey
      rw [ih3 key hkey.2]
      exact Function.update_noteq hkey.1 _ _

/-- The double loop of `build_hess` over the rows `rows` and the columns `cols` is the
numbering loop over the keys of the free pairs, rows first. -/
theorem hash_loop_eq (n : Nat) (F0 F1 : Nat → Nat → Bool) (rows cols : List Nat)
    (acc : (Int → Option Nat) × Nat) :
    rows.foldl
        (fun acc (i : Nat) =>
          cols.foldl
            (fun acc (j : Nat) =>
              if !F0 i j && !F1 i j then
                (Function.update acc.1 (pairKey n (i : Int) (j : Int)) (some acc.2),
                  acc.2 + 1)
              else acc)
            acc)
        acc
      = ((((rows.flatMap (fun i => cols.map (fun j => (i, j)))).filter
            (fun q => !F0 q.1 q.2 && !F1 q.1 q.2)).map (keyOf n)).foldl
          (fun acc key => (Function.update acc.1 key (some acc.2), acc.2 + 1)) acc) := by
  have inner : ∀ (i : Nat) (cs : List Nat) (acc : (Int → Option Nat) × Nat),
      cs.foldl
        (fun acc (j : Nat) =>
          if !F0 i j && !F1 i j then
            (Function.update acc.1 (pairKey n (i : Int) (j : Int)) (some acc.2), acc.2 + 1)
          else acc) acc
      = (((cs.map (fun j => (i, j))).filter (fun q => !F0 q.1 q.2 && !F1 q.1 q.2)).map
          (keyOf n)).foldl
          (fun acc key => (Function.update acc.1 key (some acc.2), acc.2 + 1)) acc := by
    intro i cs
    induction cs with
    | nil => intro acc; rfl
    | cons j cs ih =>
      intro acc
      rw [List.foldl_cons, List.map_cons, List.filter_cons]
      by_cases hf : (!F0 i j && !F1 i j) = true
      · rw [if_pos hf, if_pos hf, List.map_cons, List.foldl_cons, ih]
        rfl
      · rw [if_neg hf, if_neg hf, ih]
  induction rows generalizing acc with
  | nil => rfl
  | cons i rows ih =>
    rw [List.foldl_cons, List.flatMap_cons, List.filter_append, List.map_append,
      List.foldl_append, ih, inner]

theorem build_hess_h_eq (n : Nat) (F0 F1 : Nat → Nat → Bool) :
    build_hess_h n F0 F1
      = ((freePairs n F0 F1).map (keyOf n)).foldl
          (fun acc key => (Function.update acc.1 key (some acc.2), acc.2 + 1))
          (fun _ => none, 0) :=
  hash_loop_eq n F0 F1 (List.range n) (List.range n) (fun _ => none, 0)

theorem mem_rowMajor (n : Nat) (q : Nat × Nat) : q ∈ rowMajor n ↔ q.1 < n ∧ q.2 < n := by
  unfold rowMajor
  simp only [List.mem_flatMap, List.mem_map, List.mem_range]
  constructor
  · rintro ⟨i, hi, j, hj, rfl⟩
    exact ⟨hi, hj⟩
  · rintro ⟨h1, h2⟩
    exact ⟨q.1, h1, q.2, h2, rfl⟩

/-- The pairs are listed in increasing order, rows first. -/
theorem rowMajor_sorted (n : Nat) :
    (rowMajor n).Pairwise (fun a b => a.1 < b.1 ∨ (a.1 = b.1 ∧ a.2 < b.2)) := by
  unfold rowMajor
  rw [List.pairwise_flatMap]
  constructor
  · intro i _
    rw [List.pairwise_map]
    exact (List.pairwise_lt_range n).imp (fun h => Or.inr ⟨rfl, h⟩)
  · refine (List.pairwise_lt_range n).imp ?_
    intro i i' hii a ha b hb
    rw [List.mem_map] at ha hb
    obtain ⟨_, _, rfl⟩ := ha
    obtain ⟨_, _, rfl⟩ := hb
    exact Or.inl hii

theorem mem_freePairs (n : Nat) (F0 F1 : Nat → Nat → Bool) (q : Nat × Nat) :
    q ∈ freePairs n F0 F1 ↔ q.1 < n ∧ q.2 < n ∧ F0 q.1 q.2 = false ∧ F1 q.1 q.2 = false := by
  unfold freePairs
  rw [List.mem_filter, mem_rowMajor]
  simp only [Bool.and_eq_true, Bool.not_eq_true']
  tauto

theorem freePairs_sorted (n : Nat) (F0 F1 : Nat → Nat → Bool) :
    (freePairs n F0 F1).Pairwise (fun a b => a.1 < b.1 ∨ (a.1 = b.1 ∧ a.2 < b.2)) :=
  (rowMajor_sorted n).filter _

theorem freePairs_nodup (n : Nat) (F0 F1 : Nat → Nat → Bool) : (freePairs n F0 F1).Nodup := by
  refine (freePairs_sorted n F0 F1).imp ?_
  intro a b h hab
  subst hab
  rcases h with h | ⟨_, h⟩ <;> exact lt_irrefl _ h

/-- For `n * n ≤ 2^31` the key of a pair of units is `n * i + j`. -/
theorem keyOf_eq {n : Nat} (hn : n * n ≤ 2147483648) {q : Nat × Nat} (h1 : q.1 < n)
    (h2 : q.2 < n) : keyOf n q = (n : Int) * (q.1 : Int) + (q.2 : Int) := by
  unfold keyOf
  exact pairKey_eq hn h1 ⟨by omega, by omega⟩

/-- For `n * n ≤ 2^32` two pairs of units with the same key are equal. -/
theorem keyOf_inj {n : Nat} (hn : n * n ≤ 4294967296) {a b : Nat × Nat} (ha1 : a.1 < n)
    (ha : a.2 < n) (hb1 : b.1 < n) (hb : b.2 < n)
    (h : keyOf n a = keyOf n b) : a = b := by
  unfold keyOf at h
  have := pairKey_inj hn ha1 ⟨by omega, by omega⟩ hb1 ⟨by omega, by omega⟩ h
  exact Prod.ext this.1 (by exact_mod_cast this.2)

theorem freeKeys_nodup {n : Nat} (hn : n * n ≤ 4294967296) (F0 F1 : Nat → Nat → Bool) :
    ((freePairs n F0 F1).map (keyOf n)).Nodup := by
  refine List.Nodup.map_on ?_ (freePairs_nodup n F0 F1)
  intro a ha b hb hab
  have ha' := (mem_freePairs n F0 F1 a).mp ha
  have hb' := (mem_freePairs n F0 F1 b).mp hb
  exact keyOf_inj hn ha'.1 ha'.2.1 hb'.1 hb'.2.1 hab

theorem length_freePairs (n : Nat) (F0 F1 : Nat → Nat → Bool) :
    (freePairs n F0 F1).length = numFree n F0 F1 := by
  unfold numFree
  rw [← List.toFinset_card_of_nodup (freePairs_nodup n F0 F1)]
  congr 1
  ext q
  rw [List.mem_toFinset, mem_freePairs, Finset.mem_filter, Finset.mem_product, Finset.mem_range,
    Finset.mem_range]
  tauto

/-- The variable map of `build_hess`: the free pair at position `t` of the row-major order has
the value `t`; a key of no free pair is not in the map; `cur` ends as the number of free
pairs. -/
theorem build_hess_h_spec {n : Nat} (hn : n * n ≤ 4294967296) (F0 F1 : Nat → Nat → Bool) :
    (build_hess_h n F0 F1).2 = numFree n F0 F1 ∧
    (∀ t, ∀ ht : t < (freePairs n F0 F1).length,
      (build_hess_h n F0 F1).1 (keyOf n ((freePairs n F0 F1).get ⟨t, ht⟩)) = some t) ∧
    (∀ key, (∀ q ∈ freePairs n F0 F1, key ≠ keyOf n q) → (build_hess_h n F0 F1).1 key = none)
    := by
  obtain ⟨h1, h2, h3⟩ := number_keys ((freePairs n F0 F1).map (keyOf n))
    (freeKeys_nodup hn F0 F1) (fun _ => none, 0)
  rw [← build_hess_h_eq] at h1 h2 h3
  refine ⟨?_, ?_, ?_⟩
  · rw [h1, List.length_map, length_freePairs]
    exact Nat.zero_add _
  · intro t ht
    have := h2 t (by rw [List.length_map]; exact ht)
    simp only [List.get_eq_getElem, List.getElem_map, zero_add] at this ⊢
    exact this
  · intro key hkey
    apply h3
    rw [List.mem_map]
    rintro ⟨q, hq, rfl⟩
    exact hkey q hq rfl

/-! ## Keys beyond the range of `int` -/

theorem digitChar_spec (d : Nat) (hd : d < 10) :
    (Nat.digitChar d).toNat - 48 = d ∧ (Nat.digitChar d).isDigit = true := by
  interval_cases d <;> exact ⟨rfl, rfl⟩

theorem decimalValue_append (acc : Nat) (l : List Char) (c : Char) :
    decimalValue acc (l ++ [c]) = 10 * decimalValue acc l + (c.toNat - 48) := by
  unfold decimalValue
  rw [List.foldl_append]
  rfl

/-- The digits that `Nat.toDigitsCore` puts before `ds`, given enough fuel: they are decimal
digits and denote `n`. -/
theorem toDigitsCore_spec (fuel : Nat) :
    ∀ (n : Nat) (ds : List Char), n < fuel →
      ∃ pre, Nat.toDigitsCore 10 fuel n ds = pre ++ ds ∧ decimalValue 0 pre = n ∧
        ∀ c ∈ pre, c.isDigit = true := by
  induction fuel with
  | zero => intro n _ h; exact absurd h (Nat.not_lt_zero n)
  | succ fuel ih =>
    intro n ds hn
    have hd := digitChar_spec (n % 10) (Nat.mod_lt n (by decide))
    by_cases h0 : n / 10 = 0
    · refine ⟨[Nat.digitChar (n % 10)], ?_, ?_, ?_⟩
      · simp only [Nat.toDigitsCore, h0, if_true]
        rfl
      · show 10 * 0 + ((Nat.digitChar (n % 10)).toNat - 48) = n
        rw [hd.1]
        have := Nat.div_add_mod n 10
        omega
      · intro c hc
        rw [List.mem_singleton] at hc
        rw [hc]
        exact hd.2
    · have hlt : n / 10 < fuel := by
        have := Nat.div_add_mod n 10
        omega
      obtain ⟨pre, h1, h2, h3⟩ := ih (n / 10) (Nat.digitChar (n % 10) :: ds) hlt
      refine ⟨pre ++ [Nat.digitChar (n % 10)], ?_, ?_, ?_⟩
      · simp only [Nat.toDigitsCore, h0, if_false]
        rw [h1, List.append_assoc]
        rfl
      · rw [decimalValue_append, h2, hd.1]
        exact Nat.div_add_mod n 10
      · intro c hc
        rw [List.mem_append, List.mem_singleton] at hc
        rcases hc with hc | hc
        · exact h3 c hc
        · rw [hc]
          exact hd.2

theorem toDigits_spec (n : Nat) :
    decimalValue 0 (Nat.toDigits 10 n) = n ∧ ∀ c ∈ Nat.toDigits 10 n, c.isDigit = true := by
  obtain ⟨pre, h1, h2, h3⟩ := toDigitsCore_spec (n + 1) n [] (Nat.lt_succ_self n)
  unfold Nat.toDigits
  rw [h1, List.append_nil]
  exact ⟨h2, h3⟩

theorem toDigits_injective {a b : Nat} (h : Nat.toDigits 10 a = Nat.toDigits 10 b) : a = b := by
  rw [← (toDigits_spec a).1, h, (toDigits_spec b).1]

theorem toString_ofNat_data (m : Nat) : (toString (Int.ofNat m)).data = Nat.toDigits 10 m := rfl

theorem toString_negSucc_data (m : Nat) :
    (toString (Int.negSucc m)).data = '-' :: Nat.toDigits 10 (m + 1) := rfl

/-- A numeral has no `_`. -/
theorem underscore_not_mem_toString (c : Int) : '_' ∉ (toString c).data := by
  cases c with
  | ofNat m =>
    rw [toString_ofNat_data]
    intro h
    exact absurd ((toDigits_spec m).2 _ h) (by decide)
  | negSucc m =>
    rw [toString_negSucc_data, List.mem_cons]
    rintro (h | h)
    · exact absurd h (by decide)
    · exact absurd ((toDigits_spec (m + 1)).2 _ h) (by decide)

/-- A numeral determines its number. -/
theorem toString_data_injective {a b : Int} (h : (toString a).data = (toString b).data) :
    a = b := by
  cases a with
  | ofNat m =>
    cases b with
    | ofNat m' =>
      rw [toString_ofNat_data, toString_ofNat_data] at h
      rw [toDigits_injective h]
    | negSucc m' =>
      rw [toString_ofNat_data, toString_negSucc_data] at h
      have : '-' ∈ Nat.toDigits 10 m := by rw [h]; exact List.mem_cons_self _ _
      exact absurd ((toDigits_spec m).2 _ this) (by decide)
  | negSucc m =>
    cases b with
    | ofNat m' =>
      rw [toString_ofNat_data, toString_negSucc_data] at h
      have : '-' ∈ Nat.toDigits 10 m' := by rw [← h]; exact List.mem_cons_self _ _
      exact absurd ((toDigits_spec m').2 _ this) (by decide)
    | negSucc m' =>
      rw [toString_negSucc_data, toString_negSucc_data] at h
      have := toDigits_injective (List.cons.inj h).2
      have : m = m' := by omega
      rw [this]

/-- Two texts that agree and whose first parts have no `_` before the `_` agree part by part. -/
theorem split_at_underscore {a b x y : List Char} (ha : '_' ∉ a) (hb : '_' ∉ b)
    (h : a ++ '_' :: x = b ++ '_' :: y) : a = b ∧ x = y := by
  induction a generalizing b with
  | nil =>
    cases b with
    | nil => exact ⟨rfl, (List.cons.inj h).2⟩
    | cons c b =>
      have := (List.cons.inj h).1
      exact absurd (this ▸ List.mem_cons_self c b) hb
  | cons c a ih =>
    cases b with
    | nil =>
      have := (List.cons.inj h).1
      exact absurd (this ▸ List.mem_cons_self c a) ha
    | cons d b =>
      obtain ⟨hcd, hrest⟩ := List.cons.inj h
      obtain ⟨h1, h2⟩ := ih (fun hm => ha (List.mem_cons_of_mem c hm))
        (fun hm => hb (List.mem_cons_of_mem d hm)) hrest
      exact ⟨by rw [hcd, h1], h2⟩

/-- The characters of the text that the loop of `centers_to_string` builds. -/
theorem key_fold_data (l : List Int) (ret : String) :
    (l.foldl (fun ret c => ret ++ toString c ++ "_") ret).data
      = ret.data ++ l.flatMap token := by
  induction l generalizing ret with
  | nil => simp
  | cons c l ih =>
    rw [List.foldl_cons, ih, List.flatMap_cons]
    simp only [String.data_append, token, List.append_assoc]

/-- The concatenation of the tokens determines the vector. -/
theorem tokens_injective {l l' : List Int} (h : l.flatMap token = l'.flatMap token) :
    l = l' := by
  have hne : ∀ (c : Int) (m : List Int), (c :: m).flatMap token ≠ [] := by
    intro c m hnil
    rw [List.flatMap_cons, token] at hnil
    simp at hnil
  induction l generalizing l' with
  | nil =>
    cases l' with
    | nil => rfl
    | cons c m => exact absurd h.symm (hne c m)
  | cons c l ih =>
    cases l' with
    | nil => exact absurd h (hne c l)
    | cons d m =>
      rw [List.flatMap_cons, List.flatMap_cons, token, token, List.append_assoc,
        List.append_assoc] at h
      obtain ⟨h1, h2⟩ := split_at_underscore (underscore_not_mem_toString c)
        (underscore_not_mem_toString d) h
      rw [toString_data_injective h1, ih h2]

/-- The key `centers_to_string` is the same for two center vectors exactly if one is a
rearrangement of the other. -/
theorem centers_to_string_eq_iff (a b : List Int) :
    centers_to_string a = centers_to_string b ↔ a.Perm b := by
  unfold centers_to_string
  constructor
  · intro h
    have hd := congrArg String.data h
    rw [key_fold_data, key_fold_data] at hd
    have hs := tokens_injective (List.append_cancel_left hd)
    exact (List.perm_insertionSort _ a).symm.trans (hs ▸ List.perm_insertionSort _ b)
  · intro h
    have : List.insertionSort (fun a b => a ≤ b) a = List.insertionSort (fun a b => a ≤ b) b := by
      apply List.eq_of_perm_of_sorted
        (((List.perm_insertionSort _ a).trans h).trans (List.perm_insertionSort _ b).symm)
        (List.sorted_insertionSort _ a) (List.sorted_insertionSort _ b)
    rw [this]

/-! ## The calls of the solver in `LocalSearch` -/

/-- The loop with its calls ends as the loop. -/
theorem search_trace_fst (n k : Nat) (nb : Int → List Int) (cands : List (Nat × Int))
    (script : List (List Int → Reply)) (st : SearchState) :
    (search_trace n k nb cands script st).1 = search n k nb cands script st := by
  induction cands, script, st using search_trace.induct n k nb with
  | case1 script st => rw [search_trace.eq_1, search.eq_1]
  | case2 c_i u cands script st centers_str hseen ih =>
    rw [search_trace.eq_2, search.eq_2, if_pos hseen, if_pos hseen]
    exact ih
  | case3 c_i u cands st v centers_str hnew hens =>
    rw [search_trace.eq_2, search.eq_2, if_neg hnew, if_neg hnew]
    simp only [hens, if_true]
  | case4 c_i u cands st v centers_str hnew st1 hens r rest st2 hres ih =>
    rw [search_trace.eq_2, search.eq_2, if_neg hnew, if_neg hnew]
    simp only [hens, if_true, hres]
    exact ih
  | case5 c_i u cands st v centers_str hnew st1 hens r rest st2 hres ih =>
    rw [search_trace.eq_2, search.eq_2, if_neg hnew, if_neg hnew]
    simp only [hens, if_true, hres]
    exact ih
  | case6 c_i u cands st v centers_str hnew st1 hens r rest flow fst st2 h1 h2 hres =>
    rw [search_trace.eq_2, search.eq_2, if_neg hnew, if_neg hnew]
    simp only [hens, if_true, hres]
  | case7 c_i u cands script st v centers_str hnew hens =>
    rw [search_trace.eq_2, search.eq_2, if_neg hnew, if_neg hnew]
    simp only [hens]
    rfl

/-- The step after a call of the solver does not touch the table of the keys. -/
theorem commit_htbl (n k c_i : Nat) (u : Int) (rep : Reply) (st : SearchState) :
    (commit n k c_i u rep st).2.2.htbl = st.htbl := by
  unfold commit
  cases rep with
  | raised => rfl
  | answered status objVal x =>
    simp only []
    split_ifs
    · cases objVal with
      | none => rfl
      | some v =>
        simp only []
        split_ifs
        · cases update_plan n k (populate_hess_params n (st.centers.set c_i u))
              (st.centers.set c_i u) x st.heuristicSolution <;> rfl
        · rfl
    · rfl

/-- The keys of the vectors for which the solver is called are not in the table of the keys
at the start, and no two calls have the same key. -/
theorem search_trace_fresh (n k : Nat) (nb : Int → List Int) (cands : List (Nat × Int))
    (script : List (List Int → Reply)) (st : SearchState) :
    ((search_trace n k nb cands script st).2.map centers_to_string).Nodup ∧
    ∀ c ∈ (search_trace n k nb cands script st).2, centers_to_string c ∉ st.htbl := by
  induction cands, script, st using search_trace.induct n k nb with
  | case1 script st =>
    rw [search_trace.eq_1]
    exact ⟨List.nodup_nil, fun c hc => absurd hc (List.not_mem_nil c)⟩
  | case2 c_i u cands script st centers_str hseen ih =>
    rw [search_trace.eq_2, if_pos hseen]
    exact ih
  | case3 c_i u cands st v centers_str hnew hens =>
    rw [search_trace.eq_2, if_neg hnew]
    simp only [hens, if_true]
    refine ⟨List.nodup_singleton _, fun c hc => ?_⟩
    rw [List.mem_singleton] at hc
    rw [hc]
    exact hnew
  | case4 c_i u cands st v centers_str hnew st1 hens r rest st2 hres ih =>
    rw [search_trace.eq_2, if_neg hnew]
    simp only [hens, if_true, hres]
    have hh : st2.htbl = centers_str :: st.htbl := by
      have := commit_htbl n k c_i u (r (st.centers.set c_i u)) st1
      rw [hres] at this
      exact this
    rw [hh] at ih
    refine ⟨?_, fun c hc => ?_⟩
    · rw [List.map_cons, List.nodup_cons]
      refine ⟨?_, ih.1⟩
      intro hmem
      obtain ⟨c, hc, hkey⟩ := List.mem_map.mp hmem
      exact ih.2 c hc (hkey ▸ List.mem_cons_self _ _)
    · rcases List.mem_cons.mp hc with h | h
      · rw [h]
        exact hnew
      · exact fun hm => ih.2 c h (List.mem_cons_of_mem _ hm)
  | case5 c_i u cands st v centers_str hnew st1 hens r rest st2 hres ih =>
    rw [search_trace.eq_2, if_neg hnew]
    simp only [hens, if_true, hres]
    have hh : st2.htbl = centers_str :: st.htbl := by
      have := commit_htbl n k c_i u (r (st.centers.set c_i u)) st1
      rw [hres] at this
      exact this
    rw [hh] at ih
    refine ⟨?_, fun c hc => ?_⟩
    · rw [List.map_cons, List.nodup_cons]
      refine ⟨?_, ih.1⟩
      intro hmem
      obtain ⟨c, hc, hkey⟩ := List.mem_map.mp hmem
      exact ih.2 c hc (hkey ▸ List.mem_cons_self _ _)
    · rcases List.mem_cons.mp hc with h | h
      · rw [h]
        exact hnew
      · exact fun hm => ih.2 c h (List.mem_cons_of_mem _ hm)
  | case6 c_i u cands st v centers_str hnew st1 hens r rest flow fst st2 h1 h2 hres =>
    rw [search_trace.eq_2, if_neg hnew]
    simp only [hens, if_true, hres]
    refine ⟨List.nodup_singleton _, fun c hc => ?_⟩
    rw [List.mem_singleton] at hc
    rw [hc]
    exact hnew
  | case7 c_i u cands script st v centers_str hnew hens =>
    rw [search_trace.eq_2, if_neg hnew]
    simp only [hens]
    exact ⟨List.nodup_nil, fun c hc => absurd hc (List.not_mem_nil c)⟩

/-- No two calls of a run of `LocalSearch` have the same key. -/
theorem localSearch_calls_keys_nodup (n k : Nat) (nb : Int → List Int) (size : Nat)
    (setup : Bool) (script : List (List Int → Reply)) (inc : Incumbent) :
    ((LocalSearch_calls n k nb size setup script inc).map centers_to_string).Nodup := by
  unfold LocalSearch_calls
  by_cases h1 : size < n
  · simp only [h1, if_true]
    exact List.nodup_nil
  simp only [h1, if_false]
  by_cases h2 : (-1 : Int) ∈ (initial_centers n k inc.heuristicSolution).1
  · simp only [h2, if_true]
    exact List.nodup_nil
  simp only [h2, if_false]
  cases setup with
  | false => exact List.nodup_nil
  | true =>
    simp only [Bool.not_true, Bool.false_eq_true, if_false]
    by_cases h3 : ensure_centers n (populate_hess_params n
        (initial_centers n k inc.heuristicSolution).1)
        (initial_centers n k inc.heuristicSolution).1 = true
    · simp only [h3, if_true]
      exact (search_trace_fresh n k nb _ script _).1
    · simp only [h3]
      exact List.nodup_nil

/-! ## A run of `LocalSearch` on the path `0 - 1 - 2` -/

/-- A reply with an objective that is not below `UB` leaves the variables as they are. -/
theorem commit_no_gain (n k c_i : Nat) (u : Int) (status : Int) (v : ℚ) (x : Nat → ℚ)
    (st : SearchState) (h : ¬ (v : WithTop ℚ) < st.UB) :
    commit n k c_i u (Reply.answered status (some v) x) st = (Flow.normal, false, st) := by
  unfold commit
  simp only []
  by_cases hs : status = 2 ∨ status = 9
  · rw [if_pos hs, if_neg h]
  · rw [if_neg hs]

/-- One step of the search at a candidate whose key is new, when the reply brings no
improvement: the candidate is solved, its key is recorded and the pass goes on. -/
theorem search_trace_step (n k : Nat) (nb : Int → List Int) (c_i : Nat) (u : Int)
    (cands : List (Nat × Int)) (r : List Int → Reply) (rest : List (List Int → Reply))
    (st : SearchState)
    (hkey : centers_to_string (st.centers.set c_i u) ∉ st.htbl)
    (hens : (List.range n).all
      (fun (i : Nat) => ENSURE st.p (i : Int) (st.centers.getD c_i 0)) = true)
    (hrep : commit n k c_i u (r (st.centers.set c_i u))
        { st with htbl := centers_to_string (st.centers.set c_i u) :: st.htbl }
      = (Flow.normal, false,
        { st with htbl := centers_to_string (st.centers.set c_i u) :: st.htbl })) :
    (search_trace n k nb ((c_i, u) :: cands) (r :: rest) st).2
      = st.centers.set c_i u ::
        (search_trace n k nb cands rest
          { st with htbl := centers_to_string (st.centers.set c_i u) :: st.htbl }).2 := by
  rw [search_trace.eq_2]
  simp only [hkey, if_false, hens, if_true, hrep]

/-- The solver calls of `LocalSearch` on the path `0 - 1 - 2` with the centers `0, 1, 2`,
when no reply improves the bound: the candidates `[1, 1, 2]`, `[0, 0, 2]`, `[0, 2, 2]` and
`[0, 1, 1]`. -/
theorem localSearch_calls_path3 :
    LocalSearch_calls 3 3 nb_path3 3 true
        [reply_no_gain, reply_no_gain, reply_no_gain, reply_no_gain] inc_singletons
      = [[1, 1, 2], [0, 0, 2], [0, 2, 2], [0, 1, 1]] := by
  have hc : (initial_centers 3 3 inc_singletons.heuristicSolution).1 = [0, 1, 2] := by
    simp [initial_centers, inc_singletons, List.range_succ, List.replicate]
  have hv : ValidCenters 3 3 [0, 1, 2] := by unfold ValidCenters; decide
  have he := ensure_centers_true hv
  have hens : ∀ c < 3, (List.range 3).all
      (fun (i : Nat) => ENSURE (populate_hess_params 3 [0, 1, 2]) (i : Int)
        (([0, 1, 2] : List Int).getD c 0)) = true := by
    intro c hc
    rw [List.all_eq_true]
    intro i hi
    exact ENSURE_lookup hv hc (List.mem_range.mp hi)
  have hcand : candidates 3 nb_path3 [0, 1, 2] = [(0, 1), (1, 0), (1, 2), (2, 1)] := by
    decide
  have hno : ∀ st : SearchState, st.UB = ((1 : ℚ) : WithTop ℚ) → ∀ (c_i : Nat) (u : Int)
      (cand : List Int), commit 3 3 c_i u (reply_no_gain cand) st = (Flow.normal, false, st) := by
    intro st hst c_i u cand
    exact commit_no_gain 3 3 c_i u 2 1 _ st (by rw [hst]; exact lt_irrefl _)
  unfold LocalSearch_calls
  simp only [hc, he, hcand]
  simp only [show ¬ (3 < 3) from by decide, if_false,
    show (-1 : Int) ∉ ([0, 1, 2] : List Int) from by decide, Bool.not_true, Bool.false_eq_true,
    if_true]
  rw [search_trace_step 3 3 nb_path3 0 1 _ _ _ _ (List.not_mem_nil _) (hens 0 (by decide))
    (hno _ rfl _ _ _)]
  rw [search_trace_step 3 3 nb_path3 1 0 _ _ _ _
    (by
      simp only [List.mem_singleton, centers_to_string_eq_iff]
      decide)
    (hens 1 (by decide)) (hno _ rfl _ _ _)]
  rw [search_trace_step 3 3 nb_path3 1 2 _ _ _ _
    (by
      simp only [List.mem_cons, List.mem_singleton, centers_to_string_eq_iff, List.not_mem_nil]
      decide)
    (hens 1 (by decide)) (hno _ rfl _ _ _)]
  rw [search_trace_step 3 3 nb_path3 2 1 _ _ _ _
    (by
      simp only [List.mem_cons, List.mem_singleton, centers_to_string_eq_iff, List.not_mem_nil]
      decide)
    (hens 2 (by decide)) (hno _ rfl _ _ _)]
  rw [search_trace.eq_1]
  rfl

/-- Vectors with different keys are no rearrangements of one another. -/
theorem nodup_map_pairwise_not_perm (cs : List (List Int))
    (h : (cs.map centers_to_string).Nodup) : cs.Pairwise (fun a b => ¬a.Perm b) := by
  rw [List.Nodup, List.pairwise_map] at h
  exact h.imp (fun hne hperm => hne ((centers_to_string_eq_iff _ _).mpr hperm))

/-- The variable map for two units when column `1` is fixed to zero: the free pairs `(0, 0)`
and `(1, 0)` have the keys `0` and `2` and the values `0` and `1`. -/
theorem build_hess_example :
    (build_hess 2 F0_A noFix).h 0 = some 0 ∧ (build_hess 2 F0_A noFix).h 2 = some 1 ∧
    (build_hess 2 F0_A noFix).h 1 = none ∧ (build_hess 2 F0_A noFix).h 3 = none ∧
    numFree 2 F0_A noFix = 2 := by
  have hn : 2 * 2 ≤ 4294967296 := by decide
  obtain ⟨_, hval, hnone⟩ := build_hess_h_spec hn F0_A noFix
  have hfp : freePairs 2 F0_A noFix = [(0, 0), (1, 0)] := by decide
  have hk : ∀ i j : Nat, i < 2 → j < 2 → keyOf 2 (i, j) = ((2 * i + j : Nat) : Int) := by
    intro i j hi hj
    rw [keyOf_eq (by decide) (q := (i, j)) hi hj, Nat.cast_add, Nat.cast_mul]
  have h0 := hval 0 (by rw [hfp]; decide)
  have h1 := hval 1 (by rw [hfp]; decide)
  simp only [hfp, List.get_eq_getElem, List.getElem_cons_zero, List.getElem_cons_succ] at h0 h1
  rw [hk 0 0 (by decide) (by decide)] at h0
  rw [hk 1 0 (by decide) (by decide)] at h1
  refine ⟨h0, h1, ?_, ?_, by decide⟩
  · apply hnone
    intro q hq
    rw [hfp] at hq
    rcases List.mem_cons.mp hq with rfl | hq
    · rw [hk 0 0 (by decide) (by decide)]
      decide
    · rw [List.mem_singleton.mp hq, hk 1 0 (by decide) (by decide)]
      decide
  · apply hnone
    intro q hq
    rw [hfp] at hq
    rcases List.mem_cons.mp hq with rfl | hq
    · rw [hk 0 0 (by decide) (by decide)]
      decide
    · rw [List.mem_singleton.mp hq, hk 1 0 (by decide) (by decide)]
      decide

/-! ## `maxW` and `minW` -/

theorem toBot_maxInf (m : Option ℚ) (v : ℚ) : toBot (maxInf m v) = toBot m ⊔ (v : WithBot ℚ) := by
  cases m with
  | none => simp [toBot, maxInf]
  | some a =>
    show ((cmax a v : ℚ) : WithBot ℚ) = (a : WithBot ℚ) ⊔ (v : WithBot ℚ)
    rw [cmax_eq]
    rfl

theorem toTop_minInf (m : Option ℚ) (v : ℚ) : toTop (minInf m v) = toTop m ⊓ (v : WithTop ℚ) := by
  cases m with
  | none => simp [toTop, minInf]
  | some a =>
    show ((cmin a v : ℚ) : WithTop ℚ) = (a : WithTop ℚ) ⊓ (v : WithTop ℚ)
    rw [cmin_eq]
    rfl

/-- The loop of the source computes the `maxW` of the specification. -/
theorem compute_maxW_spec (n : Nat) (F_1 : Nat → Nat → Bool) (W : Nat → ℚ) (S : Nat → Bool) :
    toBot (compute_maxW n F_1 W S) = maxW_spec n F_1 W S := by
  unfold compute_maxW maxW_spec
  induction n with
  | zero => rfl
  | succ n ih =>
    rw [List.range_succ, List.foldl_append, List.foldl_cons, List.foldl_nil, Finset.range_succ,
      Finset.filter_insert]
    by_cases hq : S n = true ∧ F_1 n n = false
    · rw [if_pos hq, Finset.sup_insert, ← ih, if_pos (by simp [hq.1, hq.2]), toBot_maxInf,
        sup_comm]
    · rw [if_neg hq, ← ih, if_neg]
      intro h
      apply hq
      simpa using h

/-- The loop of the source computes the `minW` of the specification. -/
theorem compute_minW_spec (n : Nat) (F_0 : Nat → Nat → Bool) (W : Nat → ℚ) (S : Nat → Bool) :
    toTop (compute_minW n F_0 W S) = minW_spec n F_0 W S := by
  unfold compute_minW minW_spec
  induction n with
  | zero => rfl
  | succ n ih =>
    rw [List.range_succ, List.foldl_append, List.foldl_cons, List.foldl_nil, Finset.range_succ,
      Finset.filter_insert]
    by_cases hq : S n = false ∧ F_0 n n = false
    · rw [if_pos hq, Finset.inf_insert, ← ih, if_pos (by simp [hq.1, hq.2]), toTop_minInf,
        inf_comm]
    · rw [if_neg hq, ← ih, if_neg]
      intro h
      apply hq
      simpa using h

/-- The test `a - maxW > UB` of the source, for a `maxW` that may be minus infinity. -/
theorem infGt_infSub_iff (a UB : ℚ) (maxW : Option ℚ) :
    infGt (infSub a maxW) UB = true ↔ ∀ m : ℚ, toBot maxW = (m : WithBot ℚ) → a - m > UB := by
  cases maxW with
  | none =>
    refine ⟨fun _ m hm => ?_, fun _ => rfl⟩
    exact absurd hm (WithBot.bot_ne_coe)
  | some v =>
    rw [infGt_infSub_some]
    constructor
    · intro h m hm
      have : v = m := WithBot.coe_injective hm
      rw [← this]
      exact h
    · intro h
      exact h v rfl

/-- The test `a - maxW + b > UB` of the source, for a `maxW` that may be minus infinity. -/
theorem infGt_infAdd_infSub_iff (a b UB : ℚ) (maxW : Option ℚ) :
    infGt (infAdd (infSub a maxW) b) UB = true
      ↔ ∀ m : ℚ, toBot maxW = (m : WithBot ℚ) → a - m + b > UB := by
  cases maxW with
  | none =>
    refine ⟨fun _ m hm => ?_, fun _ => rfl⟩
    exact absurd hm (WithBot.bot_ne_coe)
  | some v =>
    rw [infGt_infAdd_infSub_some]
    constructor
    · intro h m hm
      have : v = m := WithBot.coe_injective hm
      rw [← this]
      exact h
    · intro h
      exact h v rfl

/-- The test `a + minW > UB` of the source, for a `minW` that may be plus infinity. -/
theorem infGt_infRAdd_iff (a UB : ℚ) (minW : Option ℚ) :
    infGt (infRAdd a minW) UB = true ↔ ∀ m : ℚ, toTop minW = (m : WithTop ℚ) → a + m > UB := by
  cases minW with
  | none =>
    refine ⟨fun _ m hm => ?_, fun _ => rfl⟩
    exact absurd hm (WithTop.top_ne_coe)
  | some v =>
    rw [infGt_infRAdd_some]
    constructor
    · intro h m hm
      have : v = m := WithTop.coe_injective hm
      rw [← this]
      exact h
    · intro h
      exact h v rfl

/-! ## The parameters of the restricted model -/

/-- The search loop for the best center over the units `l`, started with the current best
value `best`: the result is at most the start and at most every cost; it is the start, or the
first unit of `l` whose cost is below the start and below all costs before it. -/
theorem bestCenter_fold_spec (cost : Nat → ℚ) (l : List Nat) (best : Int × WithTop ℚ) :
    (l.foldl (fun (best : Int × WithTop ℚ) (c : Nat) =>
        if (cost c : WithTop ℚ) < best.2 then ((c : Int), (cost c : WithTop ℚ)) else best)
      best).2 ≤ best.2 ∧
    (∀ c ∈ l, (l.foldl (fun (best : Int × WithTop ℚ) (c : Nat) =>
        if (cost c : WithTop ℚ) < best.2 then ((c : Int), (cost c : WithTop ℚ)) else best)
      best).2 ≤ (cost c : WithTop ℚ)) ∧
    ((l.foldl (fun (best : Int × WithTop ℚ) (c : Nat) =>
        if (cost c : WithTop ℚ) < best.2 then ((c : Int), (cost c : WithTop ℚ)) else best)
      best) = best ∨
      ∃ (pre : List Nat) (c : Nat) (post : List Nat), l = pre ++ c :: post ∧
        (l.foldl (fun (best : Int × WithTop ℚ) (c : Nat) =>
          if (cost c : WithTop ℚ) < best.2 then ((c : Int), (cost c : WithTop ℚ)) else best)
        best) = ((c : Int), (cost c : WithTop ℚ)) ∧
        (cost c : WithTop ℚ) < best.2 ∧ ∀ c' ∈ pre, cost c < cost c') := by
  induction l generalizing best with
  | nil => exact ⟨le_refl _, fun c hc => absurd hc (List.not_mem_nil c), Or.inl rfl⟩
  | cons a l ih =>
    rw [List.foldl_cons]
    by_cases ha : (cost a : WithTop ℚ) < best.2
    · rw [if_pos ha]
      obtain ⟨h1, h2, h3⟩ := ih ((a : Int), (cost a : WithTop ℚ))
      refine ⟨h1.trans ha.le, ?_, Or.inr ?_⟩
      · intro c hc
        rcases List.mem_cons.mp hc with rfl | hc
        · exact h1
        · exact h2 c hc
      · rcases h3 with h3 | ⟨pre, c, post, hl, hr, hlt, hpre⟩
        · exact ⟨[], a, l, rfl, h3, ha, fun c' hc' => absurd hc' (List.not_mem_nil c')⟩
        · refine ⟨a :: pre, c, post, by rw [hl]; rfl, hr, hlt.trans ha, ?_⟩
          intro c' hc'
          rcases List.mem_cons.mp hc' with rfl | hc'
          · exact WithTop.coe_lt_coe.mp hlt
          · exact hpre c' hc'
    · rw [if_neg ha]
      obtain ⟨h1, h2, h3⟩ := ih best
      refine ⟨h1, ?_, ?_⟩
      · intro c hc
        rcases List.mem_cons.mp hc with rfl | hc
        · exact h1.trans (not_lt.mp ha)
        · exact h2 c hc
      · rcases h3 with h3 | ⟨pre, c, post, hl, hr, hlt, hpre⟩
        · exact Or.inl h3
        · refine Or.inr ⟨a :: pre, c, post, by rw [hl]; rfl, hr, hlt, ?_⟩
          intro c' hc'
          rcases List.mem_cons.mp hc' with rfl | hc'
          · exact WithTop.coe_lt_coe.mp (lt_of_lt_of_le hlt (not_lt.mp ha))
          · exact hpre c' hc'

/-- The best center of a non-empty district: the first unit of the district, in the order of
its list, whose cost is the least. -/
theorem bestCenterOf_spec (w : Nat → Nat → ℚ) (D : List Nat) (hD : D ≠ []) :
    ∃ (pre : List Nat) (b : Nat) (post : List Nat), D = pre ++ b :: post ∧
      bestCenterOf w D = ((b : Int), (((D.map (fun v => w v b)).sum : ℚ) : WithTop ℚ)) ∧
      (∀ c ∈ D, (D.map (fun v => w v b)).sum ≤ (D.map (fun v => w v c)).sum) ∧
      (∀ c ∈ pre, (D.map (fun v => w v b)).sum < (D.map (fun v => w v c)).sum) := by
  have hcost : ∀ c, D.foldl (fun acc v => acc + w v c) 0 = (D.map (fun v => w v c)).sum := by
    intro c
    rw [foldl_add_eq_sum, zero_add]
  have hb : bestCenterOf w D
      = D.foldl (fun (best : Int × WithTop ℚ) (c : Nat) =>
        if (((D.map (fun v => w v c)).sum : ℚ) : WithTop ℚ) < best.2 then
          ((c : Int), (((D.map (fun v => w v c)).sum : ℚ) : WithTop ℚ)) else best)
        (-1, MYINFINITY) := by
    unfold bestCenterOf
    simp only [hcost]
  obtain ⟨_, h2, h3⟩ := bestCenter_fold_spec (fun c => (D.map (fun v => w v c)).sum) D
    (-1, MYINFINITY)
  rw [← hb] at h2 h3
  rcases h3 with h3 | ⟨pre, b, post, hl, hr, _, hpre⟩
  · obtain ⟨a, l, rfl⟩ := List.exists_cons_of_ne_nil hD
    have := h2 a (List.mem_cons_self a l)
    rw [h3] at this
    exact absurd this (not_le.mpr (by unfold MYINFINITY; exact WithTop.coe_lt_top _))
  · refine ⟨pre, b, post, hl, hr, ?_, hpre⟩
    intro c hc
    have := h2 c hc
    rw [hr] at this
    exact WithTop.coe_le_coe.mp this

/-- The units of a district are listed in increasing order. -/
theorem districtOf_sorted (n : Nat) (p : hess_params) (x : Nat → ℚ) (cj : Int) :
    (districtOf n p x cj).Pairwise (fun a b => a < b) :=
  (List.pairwise_lt_range n).filter _

/-! ## The comparator of `eugene_inner` as an order -/

/-- With consistent diagonal flags, two indices are incomparable exactly if they have the same
rank and the same weight. -/
theorem W_comp_incomparable_iff {n : Nat} {F_0 F_1 : Nat → Nat → Bool} {W : Nat → ℚ}
    (hc : ∀ j < n, ¬(F_0 j j = true ∧ F_1 j j = true)) {x y : Nat} (hx : x < n) (hy : y < n) :
    (W_comp F_0 F_1 W x y = false ∧ W_comp F_0 F_1 W y x = false) ↔
      (fixRank F_0 F_1 x = fixRank F_0 F_1 y ∧ W x = W y) := by
  rw [not_W_comp_iff hc hy hx, not_W_comp_iff hc hx hy]
  constructor
  · rintro ⟨⟨h1, h2⟩, h3, h4⟩
    have he : fixRank F_0 F_1 x = fixRank F_0 F_1 y := le_antisymm h3 h1
    exact ⟨he, le_antisymm (h4 he.symm) (h2 he)⟩
  · rintro ⟨h1, h2⟩
    exact ⟨⟨h1.ge, fun _ => h2.ge⟩, h1.le, fun _ => h2.le⟩

/-! ## `SimpleRNG` -/

theorem and_65535 (x : Nat) : x &&& 65535 = x % 65536 :=
  Nat.and_pow_two_sub_one_eq_mod x 16

theorem shiftRight_16 (x : Nat) : x >>> 16 = x / 65536 :=
  Nat.shiftRight_eq_div_pow x 16

/-! ## The DFS of `ContiguityHeuristic` -/

/-- Looking at one neighbour keeps the invariant of the DFS and the number of passes left. -/
theorem dfs_visit_inv {n : Nat} {nb : Nat → List Nat} {A : Nat → Bool} {c cur u0 : Nat}
    {rem : List Nat} {st : DfsState} (hA : ∀ v, A v = true → v < n)
    (h : DfsInv nb A c cur (u0 :: rem) st) (hcur : cur ∈ st.J) (hu0 : u0 ∈ nb cur) :
    DfsInv nb A c cur rem (dfs_visit A st u0) ∧ cur ∈ (dfs_visit A st u0).J ∧
      dfsPotential n A (dfs_visit A st u0) = dfsPotential n A st := by
  unfold dfs_visit
  by_cases hAu : A u0 = true
  · by_cases hv : st.visited u0 = true
    · -- already visited
      have hmem : u0 ∈ st.J := (h.visited_iff u0).mp hv
      simp only [hAu, hv, if_true, Bool.not_true, Bool.false_eq_true, if_false]
      refine ⟨⟨h.nodup, h.visited_iff, h.assigned, h.reach, h.stack, h.root, ?_⟩, hcur, trivial⟩
      intro v hvJ hvs u hu hAu'
      rcases h.closed v hvJ hvs u hu hAu' with h1 | ⟨h1, h2⟩
      · exact Or.inl h1
      · rcases List.mem_cons.mp h2 with rfl | h2
        · exact Or.inl hmem
        · exact Or.inr ⟨h1, h2⟩
    · -- newly visited
      have hvf : st.visited u0 = false := by
        cases hb : st.visited u0 with
        | false => rfl
        | true => exact absurd hb hv
      have hnot : u0 ∉ st.J := fun hm => hv ((h.visited_iff u0).mpr hm)
      simp only [hAu, hvf, if_true, Bool.not_false]
      refine ⟨⟨?_, ?_, ?_, ?_, ?_, ?_, ?_⟩, ?_, ?_⟩
      · rw [List.nodup_append]
        refine ⟨h.nodup, List.nodup_singleton u0, ?_⟩
        intro a ha hb
        rw [List.mem_singleton] at hb
        exact hnot (hb ▸ ha)
      · intro v
        show Function.update st.visited u0 true v = true ↔ v ∈ st.J ++ [u0]
        rw [List.mem_append, List.mem_singleton]
        by_cases hvu : v = u0
        · subst hvu
          simp
        · rw [Function.update_noteq hvu, h.visited_iff]
          exact ⟨Or.inl, fun hm => hm.resolve_right hvu⟩
      · intro v hvJ
        show A v = true
        rcases List.mem_append.mp hvJ with hm | hm
        · exact h.assigned v hm
        · rw [List.mem_singleton] at hm
          rw [hm]
          exact hAu
      · intro v hvJ
        rcases List.mem_append.mp hvJ with hm | hm
        · exact h.reach v hm
        · rw [List.mem_singleton] at hm
          rw [hm]
          exact (h.reach cur hcur).tail ⟨hu0, hAu⟩
      · intro v hvs
        show v ∈ st.J ++ [u0]
        rcases List.mem_cons.mp hvs with hm | hm
        · rw [hm]
          exact List.mem_append_right _ (List.mem_singleton_self u0)
        · exact List.mem_append_left _ (h.stack v hm)
      · exact List.mem_append_left _ h.root
      · intro v hvJ hvs u hu hAu'
        have hvs' : v ≠ u0 ∧ v ∉ st.s := by
          constructor
          · intro hvu
            exact hvs (hvu ▸ List.mem_cons_self u0 st.s)
          · intro hm
            exact hvs (List.mem_cons_of_mem u0 hm)
        have hvJ' : v ∈ st.J := by
          rcases List.mem_append.mp hvJ with hm | hm
          · exact hm
          · rw [List.mem_singleton] at hm
            exact absurd hm hvs'.1
        show u ∈ st.J ++ [u0] ∨ (v = cur ∧ u ∈ rem)
        rcases h.closed v hvJ' hvs'.2 u hu hAu' with h1 | ⟨h1, h2⟩
        · exact Or.inl (List.mem_append_left _ h1)
        · rcases List.mem_cons.mp h2 with h2 | h2
          · rw [h2]
            exact Or.inl (List.mem_append_right _ (List.mem_singleton_self u0))
          · exact Or.inr ⟨h1, h2⟩
      · exact List.mem_append_left _ hcur
      · unfold dfsPotential
        show (u0 :: st.s).length
            + ((Finset.range n).filter
                (fun v => A v = true ∧ Function.update st.visited u0 true v = false)).card
          = st.s.length
            + ((Finset.range n).filter (fun v => A v = true ∧ st.visited v = false)).card
        have hin : u0 ∈ (Finset.range n).filter (fun v => A v = true ∧ st.visited v = false) := by
          rw [Finset.mem_filter, Finset.mem_range]
          exact ⟨hA u0 hAu, hAu, hvf⟩
        have herase : (Finset.range n).filter
            (fun v => A v = true ∧ Function.update st.visited u0 true v = false)
            = ((Finset.range n).filter (fun v => A v = true ∧ st.visited v = false)).erase u0 := by
          ext v
          rw [Finset.mem_erase, Finset.mem_filter, Finset.mem_filter]
          by_cases hvu : v = u0
          · subst hvu
            simp
          · rw [Function.update_noteq hvu]
            exact ⟨fun hm => ⟨hvu, hm⟩, fun hm => hm.2⟩
        rw [herase, Finset.card_erase_of_mem hin, List.length_cons]
        have := Finset.card_pos.mpr ⟨u0, hin⟩
        omega
  · -- not assigned to the center
    have hAf : A u0 = false := by
      cases hb : A u0 with
      | false => rfl
      | true => exact absurd hb hAu
    simp only [hAf, Bool.false_eq_true, if_false]
    refine ⟨⟨h.nodup, h.visited_iff, h.assigned, h.reach, h.stack, h.root, ?_⟩, hcur, trivial⟩
    intro v hvJ hvs u hu hAu'
    rcases h.closed v hvJ hvs u hu hAu' with h1 | ⟨h1, h2⟩
    · exact Or.inl h1
    · rcases List.mem_cons.mp h2 with h2 | h2
      · rw [h2] at hAu'
        exact absurd hAu' hAu
      · exact Or.inr ⟨h1, h2⟩

/-- The loop over the neighbours of `cur` keeps the invariant and the number of passes left;
afterwards no neighbour of `cur` is left to look at. -/
theorem dfs_fold_inv {n : Nat} {nb : Nat → List Nat} {A : Nat → Bool} {c cur : Nat}
    (hA : ∀ v, A v = true → v < n) (l : List Nat) (hl : ∀ u ∈ l, u ∈ nb cur) (st : DfsState)
    (h : DfsInv nb A c cur l st) (hcur : cur ∈ st.J) :
    DfsInv nb A c cur [] (l.foldl (dfs_visit A) st) ∧
      dfsPotential n A (l.foldl (dfs_visit A) st) = dfsPotential n A st := by
  induction l generalizing st with
  | nil => exact ⟨h, rfl⟩
  | cons u0 l ih =>
    obtain ⟨h1, h2, h3⟩ := dfs_visit_inv hA h hcur (hl u0 (List.mem_cons_self u0 l))
    obtain ⟨h4, h5⟩ := ih (fun u hu => hl u (List.mem_cons_of_mem u0 hu)) _ h1 h2
    rw [List.foldl_cons]
    exact ⟨h4, h5.trans h3⟩

/-- With enough fuel the DFS ends with an empty stack, in a state that satisfies the
invariant. -/
theorem dfs_loop_inv {n : Nat} {nb : Nat → List Nat} {A : Nat → Bool} {c : Nat}
    (hA : ∀ v, A v = true → v < n) (fuel : Nat) :
    ∀ (st : DfsState) (c0 : Nat), DfsInv nb A c c0 [] st → dfsPotential n A st ≤ fuel →
      ∃ st', dfs_loop nb A fuel st = some st' ∧ st'.s = [] ∧ ∃ c1, DfsInv nb A c c1 [] st' := by
  induction fuel with
  | zero =>
    intro st c0 h hp
    have hs : st.s = [] := by
      unfold dfsPotential at hp
      exact List.length_eq_zero.mp (by omega)
    refine ⟨st, ?_, hs, c0, h⟩
    unfold dfs_loop
    rw [hs]
    rfl
  | succ fuel ih =>
    intro st c0 h hp
    cases hs : st.s with
    | nil =>
      refine ⟨st, ?_, hs, c0, h⟩
      unfold dfs_loop
      rw [hs]
    | cons cur rest =>
      have hcur : cur ∈ st.J := h.stack cur (by rw [hs]; exact List.mem_cons_self cur rest)
      have hpop : DfsInv nb A c cur (nb cur) { st with s := rest } := by
        refine ⟨h.nodup, h.visited_iff, h.assigned, h.reach, ?_, h.root, ?_⟩
        · intro v hv
          exact h.stack v (by rw [hs]; exact List.mem_cons_of_mem cur hv)
        · intro v hvJ hvs u hu hAu
          by_cases hvc : v = cur
          · exact Or.inr ⟨hvc, hvc ▸ hu⟩
          · have hvs' : v ∉ st.s := by
              rw [hs]
              intro hm
              rcases List.mem_cons.mp hm with hm | hm
              · exact hvc hm
              · exact hvs hm
            rcases h.closed v hvJ hvs' u hu hAu with h1 | ⟨_, h2⟩
            · exact Or.inl h1
            · exact absurd h2 (List.not_mem_nil u)
      have hpp : dfsPotential n A { st with s := rest } + 1 = dfsPotential n A st := by
        unfold dfsPotential
        rw [hs, List.length_cons]
        show rest.length
            + ((Finset.range n).filter (fun v => A v = true ∧ st.visited v = false)).card + 1
          = rest.length + 1
            + ((Finset.range n).filter (fun v => A v = true ∧ st.visited v = false)).card
        omega
      obtain ⟨h1, h2⟩ := dfs_fold_inv hA (nb cur) (fun u hu => hu) { st with s := rest } hpop hcur
      obtain ⟨st', h3, h4, h5⟩ := ih _ cur h1 (by omega)
      refine ⟨st', ?_, h4, h5⟩
      rw [dfs_loop, hs]
      exact h3

theorem assignToCenterj_iff (n : Nat) (hs : Nat → Int) (c v : Nat) :
    assignToCenterj n hs c v = true ↔ v < n ∧ hs v = (c : Int) := by
  unfold assignToCenterj
  rw [Bool.and_eq_true, decide_eq_true_eq, decide_eq_true_eq]

/-- The list `J[j]` of a center `c`: with fuel `n` or more the DFS ends, and the list holds,
each once, the units that are reachable from `c` through neighbours assigned to `c`. -/
theorem component_spec {n : Nat} {nb : Nat → List Nat} {hs : Nat → Int} {c : Nat}
    (hc : c < n) (hcc : hs c = (c : Int)) (hnb : ∀ v < n, ∀ u ∈ nb v, u < n) (fuel : Nat)
    (hf : n ≤ fuel) :
    ∃ J, component n nb hs c fuel = some J ∧ J.Nodup ∧ (∀ v ∈ J, v < n ∧ hs v = (c : Int)) ∧
      (∀ u ∈ J, ∀ v ∈ nb u, hs v = (c : Int) → v ∈ J) ∧
      ∀ v, v ∈ J ↔ Relation.ReflTransGen (fun a b => b ∈ nb a ∧ hs b = (c : Int)) c v := by
  have hA : ∀ v, assignToCenterj n hs c v = true → v < n :=
    fun v hv => ((assignToCenterj_iff n hs c v).mp hv).1
  have hinit : DfsInv nb (assignToCenterj n hs c) c c []
      { s := [c], visited := Function.update (fun _ => false) c true, J := [c] } := by
    refine ⟨List.nodup_singleton c, ?_, ?_, ?_, fun v hv => hv, List.mem_singleton_self c, ?_⟩
    · intro v
      show Function.update (fun _ => false) c true v = true ↔ v ∈ [c]
      rw [List.mem_singleton]
      by_cases hvc : v = c
      · subst hvc
        simp
      · rw [Function.update_noteq hvc]
        simp [hvc]
    · intro v hv
      rw [List.mem_singleton] at hv
      rw [hv]
      exact (assignToCenterj_iff n hs c c).mpr ⟨hc, hcc⟩
    · intro v hv
      rw [List.mem_singleton] at hv
      rw [hv]
    · intro v hvJ hvs
      exact absurd hvJ hvs
  have hpot : dfsPotential n (assignToCenterj n hs c)
      { s := [c], visited := Function.update (fun _ => false) c true, J := [c] } ≤ fuel := by
    unfold dfsPotential
    show 1 + ((Finset.range n).filter (fun v => assignToCenterj n hs c v = true ∧
      Function.update (fun _ => false) c true v = false)).card ≤ fuel
    have hsub : (Finset.range n).filter (fun v => assignToCenterj n hs c v = true ∧
        Function.update (fun _ => false) c true v = false) ⊆ (Finset.range n).erase c := by
      intro v hv
      rw [Finset.mem_filter] at hv
      rw [Finset.mem_erase]
      refine ⟨?_, hv.1⟩
      intro hvc
      have := hv.2.2
      rw [hvc, Function.update_same] at this
      exact absurd this (by decide)
    have h1 := Finset.card_le_card hsub
    rw [Finset.card_erase_of_mem (Finset.mem_range.mpr hc), Finset.card_range] at h1
    omega
  obtain ⟨st', h1, h2, c1, h3⟩ := dfs_loop_inv hA fuel _ c hinit hpot
  have hclosed : ∀ u ∈ st'.J, ∀ v ∈ nb u, hs v = (c : Int) → v ∈ st'.J := by
    intro u hu v hv hsv
    have hun : u < n := hA u (h3.assigned u hu)
    have hAv : assignToCenterj n hs c v = true :=
      (assignToCenterj_iff n hs c v).mpr ⟨hnb u hun v hv, hsv⟩
    rcases h3.closed u hu (by rw [h2]; exact List.not_mem_nil u) v hv hAv with h | ⟨_, h⟩
    · exact h
    · exact absurd h (List.not_mem_nil v)
  refine ⟨st'.J, ?_, h3.nodup, ?_, hclosed, ?_⟩
  · unfold component
    rw [h1]
    rfl
  · intro v hv
    exact (assignToCenterj_iff n hs c v).mp (h3.assigned v hv)
  · intro v
    constructor
    · intro hv
      refine Relation.ReflTransGen.mono ?_ (h3.reach v hv)
      intro a b hab
      exact ⟨hab.1, ((assignToCenterj_iff n hs c b).mp hab.2).2⟩
    · intro hv
      induction hv with
      | refl => exact h3.root
      | tail _ hstep ih => exact hclosed _ ih _ hstep.1 hstep.2

theorem mem_find_centers (n : Nat) (hs : Nat → Int) (c : Nat) :
    c ∈ find_centers n hs ↔ c < n ∧ hs c = (c : Int) := by
  unfold find_centers
  rw [List.mem_filter, List.mem_range, decide_eq_true_eq]

theorem find_centers_nodup (n : Nat) (hs : Nat → Int) : (find_centers n hs).Nodup :=
  (List.nodup_range n).filter _

/-- The test `count == g->nb(i).size()`: every neighbour is counted. -/
theorem count_eq_length_iff (q : Nat → Prop) [DecidablePred q] (l : List Nat) :
    l.foldl (fun count u => if q u then count + 1 else count) 0 = l.length ↔ ∀ u ∈ l, q u := by
  have key : ∀ (l : List Nat) (c0 : Nat),
      l.foldl (fun count u => if q u then count + 1 else count) c0 ≤ c0 + l.length ∧
      (l.foldl (fun count u => if q u then count + 1 else count) c0 = c0 + l.length
        ↔ ∀ u ∈ l, q u) := by
    intro l
    induction l with
    | nil => intro c0; simp
    | cons a l ih =>
      intro c0
      rw [List.foldl_cons, List.length_cons]
      by_cases ha : q a
      · rw [if_pos ha]
        obtain ⟨h1, h2⟩ := ih (c0 + 1)
        refine ⟨by omega, ?_⟩
        rw [show c0 + (l.length + 1) = c0 + 1 + l.length by omega, h2]
        simp [ha]
      · rw [if_neg ha]
        obtain ⟨h1, _⟩ := ih c0
        refine ⟨by omega, ?_⟩
        constructor
        · intro h
          omega
        · intro h
          exact absurd (h a (List.mem_cons_self a l)) ha
  have := (key l 0).2
  rw [Nat.zero_add] at this
  exact this

/-- The component and the interior for two units joined by an edge, both assigned to the
center `0`. -/
theorem component_example :
    component 2 nb_pair hs_zero 0 2 = some [0, 1] ∧
      interiorOf nb_pair hs_zero 0 [0, 1] = [0, 1] := by
  decide

/-! ## Main results -/

/-- C1 (weak duality). For every multiplier vector, every `k ≤ n`, positive `L ≤ U` and
fixing tables that satisfy the four invariants of the data model, the value `f_val` returned
by `eugene_inner` is at most the cost `∑ w[i][j] * x[i][j]` of every 0/1 matrix `x` that is
feasible for the Hess model and agrees with the tables. With the empty tables every feasible
`x` agrees, so `f_val` is then at most the optimum. (The populations need not be positive.) -/
theorem eugene_inner_weak_duality (n : Nat) (multipliers : Nat → ℚ) (L U : ℤ) (k : Nat)
    (population : Nat → ℤ) (w : Nat → Nat → ℚ) (F_0 F_1 : Nat → Nat → Bool)
    (x : Nat → Nat → Bool) (hk : k ≤ n) (hL : 0 < L) (hLU : L ≤ U)
    (hF : TablesOK n k F_0 F_1) (hx : HessFeasible n k L U population x)
    (hag : AgreesWith n F_0 F_1 x) :
    (eugene_inner n multipliers L U k population w F_0 F_1).f_val ≤ hessCost n w x := by
  have hc : ∀ j < n, ¬(F_0 j j = true ∧ F_1 j j = true) := fun j hj => hF.1 j hj j hj
  obtain ⟨hTn, hTk, hT1, hT0⟩ := centersOf_admissible hx hag
  have hsel := (W_indices_isSorted
    (W_val n F_0 F_1 (w_hat n multipliers L U population w)) hc).sum_take_le hc hk
    (centersOf n x) hTn hTk hT1 hT0
  have hb := @lagrangian_bound n k L U population x F_0 F_1 multipliers w hL hLU hx hag
  rw [eugene_inner_f_val]
  linarith

/-- Witness of C1 on scenario 2 (path of 4, `L = U = 20`, `k = 2`) with the empty tables, the
zero multipliers and the plan `σ = (0, 0, 3, 3)`. -/
theorem eugene_inner_weak_duality_witness :
    (2 ≤ 4) ∧ ((0 : ℤ) < 20) ∧ ((20 : ℤ) ≤ 20) ∧ TablesOK 4 2 noFix noFix ∧
      HessFeasible 4 2 20 20 pop10 x_scenario2 ∧ AgreesWith 4 noFix noFix x_scenario2 ∧
      (eugene_inner 4 mu0 20 20 2 pop10 w_scenario2 noFix noFix).f_val
        ≤ hessCost 4 w_scenario2 x_scenario2 :=
  ⟨by decide, by decide, by decide, by decide, by decide, by decide,
    eugene_inner_weak_duality 4 mu0 20 20 2 pop10 w_scenario2 noFix noFix x_scenario2
      (by decide) (by decide) (by decide) (by decide) (by decide) (by decide)⟩

/-- C7 (selection of `S`). If `k ≤ n`, no index has both `F_0[j][j]` and `F_1[j][j]`, at most
`k` indices have `F_1[j][j]` and at least `k` indices have `F_0[j][j]` false, then the set `S`
returned by `eugene_inner` has exactly `k` true entries, contains every `j` with `F_1[j][j]`,
contains no `j` with `F_0[j][j]`, and every free index in `S` has a weight `W` no larger than
every free index outside `S`. -/
theorem eugene_inner_selects_k_smallest (n : Nat) (multipliers : Nat → ℚ) (L U : ℤ) (k : Nat)
    (population : Nat → ℤ) (w : Nat → Nat → ℚ) (F_0 F_1 : Nat → Nat → Bool) (hk : k ≤ n)
    (hc : ∀ j < n, ¬(F_0 j j = true ∧ F_1 j j = true))
    (h1 : ((Finset.range n).filter (fun j => F_1 j j = true)).card ≤ k)
    (h0 : k ≤ ((Finset.range n).filter (fun j => F_0 j j = false)).card) :
    ((Finset.range n).filter
        (fun j => (eugene_inner n multipliers L U k population w F_0 F_1).S j = true)).card = k ∧
      (∀ j < n, F_1 j j = true →
        (eugene_inner n multipliers L U k population w F_0 F_1).S j = true) ∧
      (∀ j < n, F_0 j j = true →
        (eugene_inner n multipliers L U k population w F_0 F_1).S j = false) ∧
      (∀ a < n, ∀ b < n, F_0 a a = false → F_1 a a = false → F_0 b b = false →
        F_1 b b = false →
        (eugene_inner n multipliers L U k population w F_0 F_1).S a = true →
        (eugene_inner n multipliers L U k population w F_0 F_1).S b = false →
        (eugene_inner n multipliers L U k population w F_0 F_1).W a
          ≤ (eugene_inner n multipliers L U k population w F_0 F_1).W b) := by
  have hs := W_indices_isSorted (W_val n F_0 F_1 (w_hat n multipliers L U population w)) hc
  refine ⟨?_, ?_, ?_, ?_⟩
  · have e : (Finset.range n).filter
        (fun j => (eugene_inner n multipliers L U k population w F_0 F_1).S j = true)
        = ((W_indices n F_0 F_1
            (W_val n F_0 F_1 (w_hat n multipliers L U population w))).take k).toFinset := by
      ext j
      rw [Finset.mem_filter, Finset.mem_range, eugene_inner_S_iff, List.mem_toFinset]
      exact ⟨fun h => h.2, fun h => ⟨hs.lt_of_mem_take h, h⟩⟩
    rw [e, hs.card_take hk]
  · intro j hj hF
    rw [eugene_inner_S_iff]
    exact hs.forced_mem_take hc hk h1 hj hF
  · intro j _ hF
    rw [Bool.eq_false_iff, Ne, eugene_inner_S_iff]
    exact hs.forbidden_not_mem_take hc hk h0 hF
  · intro a _ b hb ha0 ha1 hb0 hb1 hSa hSb
    rw [eugene_inner_S_iff] at hSa
    rw [Bool.eq_false_iff, Ne, eugene_inner_S_iff] at hSb
    rw [eugene_inner_W]
    apply hs.W_le_of_rank_eq hc hSa hb hSb
    unfold fixRank
    simp [ha0, ha1, hb0, hb1]

/-- Witness of C7 on scenario 2 with column `0` forbidden and center `3` forced. -/
theorem eugene_inner_selects_k_smallest_witness :
    (2 ≤ 4) ∧ (∀ j < 4, ¬(F0_col0 j j = true ∧ F1_center3 j j = true)) ∧
      ((Finset.range 4).filter (fun j => F1_center3 j j = true)).card ≤ 2 ∧
      2 ≤ ((Finset.range 4).filter (fun j => F0_col0 j j = false)).card ∧
      ((Finset.range 4).filter (fun j =>
        (eugene_inner 4 mu0 20 20 2 pop10 w_scenario2 F0_col0 F1_center3).S j = true)).card = 2 ∧
      (eugene_inner 4 mu0 20 20 2 pop10 w_scenario2 F0_col0 F1_center3).S 3 = true ∧
      (eugene_inner 4 mu0 20 20 2 pop10 w_scenario2 F0_col0 F1_center3).S 0 = false :=
  ⟨by decide, by decide, by decide, by decide,
    (eugene_inner_selects_k_smallest 4 mu0 20 20 2 pop10 w_scenario2 F0_col0 F1_center3
      (by decide) (by decide) (by decide) (by decide)).1,
    (eugene_inner_selects_k_smallest 4 mu0 20 20 2 pop10 w_scenario2 F0_col0 F1_center3
      (by decide) (by decide) (by decide) (by decide)).2.1 3 (by decide) (by decide),
    (eugene_inner_selects_k_smallest 4 mu0 20 20 2 pop10 w_scenario2 F0_col0 F1_center3
      (by decide) (by decide) (by decide) (by decide)).2.2.1 0 (by decide) (by decide)⟩

/-- C8, as stated, fails: on the scenario-2 instance (path of 4, `p = (10,10,10,10)`, unit
distances, `L = U = 20`, `k = 2`) with `mu = 0` and empty tables, it is not the case that
every component of the alpha block of the gradient equals `1 - k = -1`. -/
theorem scenario3_alpha_block_not_one_sub_k :
    ¬ (∀ i < 4, (eugene_inner 4 mu0 20 20 2 pop10 w_scenario2 noFix noFix).grad i = 1 - 2) := by
  intro h
  have h0 := h 0 (by decide)
  rw [scenario2_grad_alpha.1] at h0
  norm_num at h0

/-- C8, amended: on the scenario-2 instance with `mu = 0` and empty tables, the alpha block of
the gradient is `0` at the two selected centers and `1` at the two other units: `S` is
`{0, 1}` and `g[0] = g[1] = 0`, `g[2] = g[3] = 1`. -/
theorem scenario3_alpha_block :
    (eugene_inner 4 mu0 20 20 2 pop10 w_scenario2 noFix noFix).S 0 = true ∧
    (eugene_inner 4 mu0 20 20 2 pop10 w_scenario2 noFix noFix).S 1 = true ∧
    (eugene_inner 4 mu0 20 20 2 pop10 w_scenario2 noFix noFix).S 2 = false ∧
    (eugene_inner 4 mu0 20 20 2 pop10 w_scenario2 noFix noFix).S 3 = false ∧
    (eugene_inner 4 mu0 20 20 2 pop10 w_scenario2 noFix noFix).grad 0 = 0 ∧
    (eugene_inner 4 mu0 20 20 2 pop10 w_scenario2 noFix noFix).grad 1 = 0 ∧
    (eugene_inner 4 mu0 20 20 2 pop10 w_scenario2 noFix noFix).grad 2 = 1 ∧
    (eugene_inner 4 mu0 20 20 2 pop10 w_scenario2 noFix noFix).grad 3 = 1 := by
  obtain ⟨h0, h1, h2, h3⟩ := scenario2_grad_alpha
  refine ⟨?_, ?_, ?_, ?_, h0, h1, h2, h3⟩ <;>
  · rw [eugene_inner_scenario2, eugene_tail_S]; decide

/-- With empty tables the stated direction of the inequality fails: on the scenario-2 instance,
with `mu = 0` and `mu'` with `alpha' = (1, 1, 1, 1)` (all population multipliers zero), the
inequality `f(mu') ≥ f(mu) + <g, mu' - mu>` does not hold: `f(mu) = 0`, `<g, mu' - mu> = 2`
and `f(mu') = -4 + 6/100000`. -/
theorem eugene_inner_not_subgradient :
    ¬ ((eugene_inner 4 mu0 20 20 2 pop10 w_scenario2 noFix noFix).f_val
        + ∑ t in Finset.range (3 * 4),
            (eugene_inner 4 mu0 20 20 2 pop10 w_scenario2 noFix noFix).grad t
              * (mu_alpha1 t - mu0 t)
      ≤ (eugene_inner 4 mu_alpha1 20 20 2 pop10 w_scenario2 noFix noFix).f_val) := by
  rw [scenario2_f_val_mu0, scenario2_gradient_step, scenario2_f_val_mu_alpha1]
  norm_num

/-- With empty fixing tables, for every `mu` and every `mu'` that keeps the signs of the
`lambda` and `upsilon` components of `mu`, the value and the gradient returned by
`eugene_inner` satisfy `f(mu') ≤ f(mu) + <g, mu' - mu>`: there the gradient is a supergradient
of the (concave) dual function. -/
theorem eugene_inner_supergradient (n k : Nat) (L U : ℤ) (population : Nat → ℤ)
    (w : Nat → Nat → ℚ) (mu mu' : Nat → ℚ) (hs : SignCompatible n mu mu') :
    (eugene_inner n mu' L U k population w noFix noFix).f_val
      ≤ (eugene_inner n mu L U k population w noFix noFix).f_val
        + ∑ t in Finset.range (3 * n),
            (eugene_inner n mu L U k population w noFix noFix).grad t * (mu' t - mu t) :=
  supergradient_core n k L U population w mu mu' hs

/-- The supergradient inequality at empty tables on scenario 2, from `mu = 0` to
`alpha' = (1, 1, 1, 1)`. -/
theorem eugene_inner_supergradient_witness :
    SignCompatible 4 mu0 mu_alpha1 ∧
      (eugene_inner 4 mu_alpha1 20 20 2 pop10 w_scenario2 noFix noFix).f_val
        ≤ (eugene_inner 4 mu0 20 20 2 pop10 w_scenario2 noFix noFix).f_val
          + ∑ t in Finset.range (3 * 4),
              (eugene_inner 4 mu0 20 20 2 pop10 w_scenario2 noFix noFix).grad t
                * (mu_alpha1 t - mu0 t) :=
  ⟨signCompatible_mu0_mu_alpha1,
    eugene_inner_supergradient 4 2 20 20 pop10 w_scenario2 mu0 mu_alpha1
      signCompatible_mu0_mu_alpha1⟩

/-- C4 fails on instance C, in either direction of the inequality: two units, one district,
`L = U = 2`, unit populations, the pair `(1, 0)` fixed to zero (the tables satisfy the
invariants and agree with the feasible plan that puts both units in the district of unit
`1`), all population multipliers zero. At `alpha = (3, 1)` the bound is `f = 1` and
`<g, mu' - mu> = 0` for every `mu'` that differs from `mu` in `alpha[1]` only, since
`g[alpha[1]] = 0`; but `f = 0` at `alpha = (3, 0)` and `f = 2` at `alpha = (3, 2)`. So
neither `f(mu') ≥ f(mu) + <g, mu' - mu>` (fails at `alpha[1] = 0`) nor
`f(mu') ≤ f(mu) + <g, mu' - mu>` (fails at `alpha[1] = 2`) holds: `W[0]` skips the pair
`(1, 0)` of `F_0`, and the loops of the gradient count it. -/
theorem eugene_inner_gradient_ignores_fixing :
    TablesOK 2 1 F0_C noFix ∧ HessFeasible 2 1 2 2 pop1 x_C ∧ AgreesWith 2 F0_C noFix x_C ∧
    (eugene_inner 2 (mu_C 1) 2 2 1 pop1 w_C F0_C noFix).f_val = 1 ∧
    (eugene_inner 2 (mu_C 2) 2 2 1 pop1 w_C F0_C noFix).f_val = 2 ∧
    (eugene_inner 2 (mu_C 0) 2 2 1 pop1 w_C F0_C noFix).f_val = 0 ∧
    (eugene_inner 2 (mu_C 1) 2 2 1 pop1 w_C F0_C noFix).grad 1 = 0 ∧
    ¬ ((eugene_inner 2 (mu_C 0) 2 2 1 pop1 w_C F0_C noFix).f_val
        ≥ (eugene_inner 2 (mu_C 1) 2 2 1 pop1 w_C F0_C noFix).f_val
          + ∑ t in Finset.range (3 * 2),
              (eugene_inner 2 (mu_C 1) 2 2 1 pop1 w_C F0_C noFix).grad t
                * (mu_C 0 t - mu_C 1 t)) ∧
    ¬ ((eugene_inner 2 (mu_C 2) 2 2 1 pop1 w_C F0_C noFix).f_val
        ≤ (eugene_inner 2 (mu_C 1) 2 2 1 pop1 w_C F0_C noFix).f_val
          + ∑ t in Finset.range (3 * 2),
              (eugene_inner 2 (mu_C 1) 2 2 1 pop1 w_C F0_C noFix).grad t
                * (mu_C 2 t - mu_C 1 t)) := by
  refine ⟨by decide, by decide, by decide, eugene_inner_mu_C_f_val 1 (by norm_num),
    eugene_inner_mu_C_f_val 2 (by norm_num), eugene_inner_mu_C_f_val 0 (by norm_num),
    eugene_inner_mu_C_grad, ?_, ?_⟩
  · rw [mu_C_gradient_step, eugene_inner_mu_C_f_val 1 (by norm_num),
      eugene_inner_mu_C_f_val 0 (by norm_num)]
    norm_num
  · rw [mu_C_gradient_step, eugene_inner_mu_C_f_val 1 (by norm_num),
      eugene_inner_mu_C_f_val 2 (by norm_num)]
    norm_num

/-- C2, at the failing input (instance A: two units, one district, tables that force both
units into the district of unit `0`, `mu = 0`, `UB = 1` the cost of the only feasible plan):
the tables satisfy the invariants, the plan is optimal and has `x[1][0] = 1`, and
`lagrangianBasedSafeFixing` newly sets `F_0[1][0]`. The test
`S[j] && f_val + max(0, w_hat[i][j]) > UB` counts `w_hat[1][0]` a second time although
`W[0]`, hence `f_val`, already contains it for the forced pair. -/
theorem zero_fixing_forbids_forced_pair :
    TablesOK 2 1 F0_A F1_A ∧ IsOptimal 2 1 2 2 pop1 w_A F0_A F1_A x_A ∧
      hessCost 2 w_A x_A = 1 ∧ x_A 1 0 = true ∧ F0_A 1 0 = false ∧
      (lagrangianBasedSafeFixing 2 F0_A F1_A [[0, 1]]
        (eugene_inner 2 mu0 2 2 1 pop1 w_A F0_A F1_A).W
        (eugene_inner 2 mu0 2 2 1 pop1 w_A F0_A F1_A).S
        (eugene_inner 2 mu0 2 2 1 pop1 w_A F0_A F1_A).f_val 1
        (eugene_inner 2 mu0 2 2 1 pop1 w_A F0_A F1_A).w_hat).1 1 0 = true :=
  ⟨by decide, isOptimal_x_A, hessCost_x_A, by decide, by decide, safeFixing_A_sets_zero⟩

/-- C3, as stated, fails: on instance B (three units, two districts, empty tables) with `UB`
the cost of the heuristic plan `σ = (0, 1, 0)` and its districts `{0, 2}`, `{1}` as clusters,
`lagrangianBasedSafeFixing` newly sets `F_1[2][0]`, but the plan `σ = (0, 1, 1)` is optimal and
has `x[2][0] = 0`. -/
theorem one_fixing_cluster_unsound :
    TablesOK 3 2 noFix noFix ∧ HessFeasible 3 2 1 2 pop1 x_heur_B ∧
      hessCost 3 w_B x_heur_B = 1 ∧ districtsOf 3 x_heur_B = [[0, 2], [1]] ∧
      noFix 2 0 = false ∧
      (lagrangianBasedSafeFixing 3 noFix noFix [[0, 2], [1]]
        (eugene_inner 3 mu_B 1 2 2 pop1 w_B noFix noFix).W
        (eugene_inner 3 mu_B 1 2 2 pop1 w_B noFix noFix).S
        (eugene_inner 3 mu_B 1 2 2 pop1 w_B noFix noFix).f_val 1
        (eugene_inner 3 mu_B 1 2 2 pop1 w_B noFix noFix).w_hat).2 2 0 = true ∧
      IsOptimal 3 2 1 2 pop1 w_B noFix noFix x_opt_B ∧ x_opt_B 2 0 = false :=
  ⟨by decide, by decide, hessCost_x_heur_B, by decide, by decide, safeFixing_B_sets_one,
    isOptimal_x_opt_B, by decide⟩

/-- C3, amended: let `W`, `w_hat`, `S`, `f_val` be the outputs of `eugene_inner` for tables
that satisfy the invariants of the data model and let `UB` be the cost of a feasible plan `y`
that agrees with the tables. For every pair `(i, j)` that `lagrangianBasedSafeFixing` newly
sets in `F_1`, every optimal plan `x` that agrees with the input tables has `x[j][j] = 1`, and
has `x[i][j] = 1` if it assigns `i` to the same center as `j`. -/
theorem one_fixing_sound (n k : Nat) (L U : ℤ) (population : Nat → ℤ) (w : Nat → Nat → ℚ)
    (multipliers : Nat → ℚ) (F_0 F_1 : Nat → Nat → Bool) (clusters : List (List Nat))
    (UB : ℚ) (x y : Nat → Nat → Bool) (hk : k ≤ n) (hL : 0 < L) (hLU : L ≤ U)
    (hF : TablesOK n k F_0 F_1) (hy : HessFeasible n k L U population y)
    (hyag : AgreesWith n F_0 F_1 y) (hUB : UB = hessCost n w y)
    (hx : IsOptimal n k L U population w F_0 F_1 x) (i j : Nat)
    (hnew : (lagrangianBasedSafeFixing n F_0 F_1 clusters
      (eugene_inner n multipliers L U k population w F_0 F_1).W
      (eugene_inner n multipliers L U k population w F_0 F_1).S
      (eugene_inner n multipliers L U k population w F_0 F_1).f_val UB
      (eugene_inner n multipliers L U k population w F_0 F_1).w_hat).2 i j = true)
    (hold : F_1 i j = false) :
    x j j = true ∧ ((∀ c < n, x i c = x j c) → x i j = true) := by
  rw [lagrangianBasedSafeFixing_snd, hold, Bool.false_or] at hnew
  have hcost : hessCost n w x ≤ UB := by rw [hUB]; exact hx.2.2 y hy hyag
  have hjj := oneRule_center multipliers w clusters UB hk hL hLU hF hx.1 hx.2.1 hcost hnew
  refine ⟨hjj, fun hsame => ?_⟩
  have hjn : j < n := by
    unfold oneRule at hnew
    simp only [Bool.and_eq_true] at hnew
    have hS := (eugene_inner_S_iff _ _ _ _ _ _ _ _ _ _).mp hnew.2.1
    have hmem := List.mem_of_mem_take hS
    rw [(W_indices_perm _ _ _ _).mem_iff] at hmem
    exact List.mem_range.mp hmem
  rw [hsame j hjn]
  exact hjj

/-- Witness of the amended C3 on instance B with the heuristic plan `σ = (0, 1, 0)`, which is
optimal, and the newly set pair `(2, 0)`. -/
theorem one_fixing_sound_witness :
    (2 ≤ 3) ∧ ((0 : ℤ) < 1) ∧ ((1 : ℤ) ≤ 2) ∧ TablesOK 3 2 noFix noFix ∧
      HessFeasible 3 2 1 2 pop1 x_heur_B ∧ AgreesWith 3 noFix noFix x_heur_B ∧
      (1 : ℚ) = hessCost 3 w_B x_heur_B ∧ IsOptimal 3 2 1 2 pop1 w_B noFix noFix x_heur_B ∧
      noFix 2 0 = false ∧ x_heur_B 0 0 = true ∧ x_heur_B 2 0 = true :=
  ⟨by decide, by decide, by decide, by decide, by decide, by decide, hessCost_x_heur_B.symm,
    isOptimal_x_heur_B, by decide,
    (one_fixing_sound 3 2 1 2 pop1 w_B mu_B noFix noFix [[0, 2], [1]] 1 x_heur_B x_heur_B
      (by decide) (by decide) (by decide) (by decide) (by decide) (by decide)
      hessCost_x_heur_B.symm isOptimal_x_heur_B 2 0 safeFixing_B_sets_one (by decide)).1,
    (one_fixing_sound 3 2 1 2 pop1 w_B mu_B noFix noFix [[0, 2], [1]] 1 x_heur_B x_heur_B
      (by decide) (by decide) (by decide) (by decide) (by decide) (by decide)
      hessCost_x_heur_B.symm isOptimal_x_heur_B 2 0 safeFixing_B_sets_one (by decide)).2
      (by decide)⟩

/-- C6, at the failing input (instance A with `UB = 1 ≥ f_val` and the single cluster
`{0, 1}`, the district of the only feasible plan): the input tables satisfy the invariants,
and after `lagrangianBasedSafeFixing` both `F_0[1][0]` and `F_1[1][0]` are true. -/
theorem safeFixing_breaks_consistency :
    TablesOK 2 1 F0_A F1_A ∧
      (eugene_inner 2 mu0 2 2 1 pop1 w_A F0_A F1_A).f_val ≤ 1 ∧
      districtsOf 2 x_A = [[0, 1]] ∧
      (lagrangianBasedSafeFixing 2 F0_A F1_A [[0, 1]]
        (eugene_inner 2 mu0 2 2 1 pop1 w_A F0_A F1_A).W
        (eugene_inner 2 mu0 2 2 1 pop1 w_A F0_A F1_A).S
        (eugene_inner 2 mu0 2 2 1 pop1 w_A F0_A F1_A).f_val 1
        (eugene_inner 2 mu0 2 2 1 pop1 w_A F0_A F1_A).w_hat).1 1 0 = true ∧
      (lagrangianBasedSafeFixing 2 F0_A F1_A [[0, 1]]
        (eugene_inner 2 mu0 2 2 1 pop1 w_A F0_A F1_A).W
        (eugene_inner 2 mu0 2 2 1 pop1 w_A F0_A F1_A).S
        (eugene_inner 2 mu0 2 2 1 pop1 w_A F0_A F1_A).f_val 1
        (eugene_inner 2 mu0 2 2 1 pop1 w_A F0_A F1_A).w_hat).2 1 0 = true := by
  refine ⟨by decide, ?_, by decide, safeFixing_A_sets_zero, ?_⟩
  · rw [eugene_inner_A_f_val]
  · rw [lagrangianBasedSafeFixing_snd]
    simp [F1_A]

/-! ## C9: the outcome of a restart of `HessHeuristic` -/

/-- C9: if the solver keeps its promise (whenever it reports the status optimal or time limit,
its values are a 0/1 assignment satisfying the constraints of the restricted model), then
after a restart of `HessHeuristic` either `UB` and `heuristicSolution` are what they were
before the restart, or `heuristicSolution` assigns every unit to one of `k` distinct centers,
every center to itself, and the population of every district lies in `[L, U]`. -/
theorem HessHeuristic_restart_outcome (n k : Nat) (L U : ℤ) (population : Nat → ℤ) (w : Nat → Nat → ℚ)
    (shuffled : List Nat) (script : List (List Int → Reply)) (inc : Incumbent) (hk : k ≤ n)
    (hperm : shuffled.Perm (List.range n))
    (hor : ∀ r ∈ script, OraclePromise n k L U population r) :
    ((restart n k w shuffled script inc).2.1.UB = inc.UB ∧
      (restart n k w shuffled script inc).2.1.heuristicSolution = inc.heuristicSolution) ∨
    ValidPlan n k L U population (restart n k w shuffled script inc).2.1.heuristicSolution := by
  have hinv := descent_plan n k L U population w script hor
    { centers := List.map (fun (c : Nat) => (c : Int)) (shuffled.take k), iterUB := MYINFINITY,
      iterHeuristicSolution := fun _ => -1 }
    (validCenters_of_shuffle hk hperm)
    (fun h => absurd h (by unfold MYINFINITY; exact lt_irrefl _))
  unfold restart
  rcases hd : descent n k w script
    { centers := List.map (fun (c : Nat) => (c : Int)) (shuffled.take k), iterUB := MYINFINITY,
      iterHeuristicSolution := fun _ => -1 } with ⟨flow, st, rest⟩
  rw [hd] at hinv
  cases flow with
  | normal =>
    simp only [hd]
    by_cases hlt : st.iterUB < inc.UB
    · rw [if_pos hlt]
      exact Or.inr (hinv (lt_of_lt_of_le hlt le_top))
    · rw [if_neg hlt]
      exact Or.inl ⟨rfl, rfl⟩
  | thrown =>
    simp only [hd]
    exact Or.inl ⟨trivial, trivial⟩
  | exited =>
    simp only [hd]
    exact Or.inl ⟨trivial, trivial⟩

/-- C9, witness: two units, one district, the solver assigns both units to the center. -/
theorem HessHeuristic_restart_outcome_witness :
    ((restart 2 1 w_A [0, 1] [reply_all_ones]
        { UB := MYINFINITY, heuristicSolution := fun _ => -1 }).2.1.UB = MYINFINITY ∧
      (restart 2 1 w_A [0, 1] [reply_all_ones]
        { UB := MYINFINITY, heuristicSolution := fun _ => -1 }).2.1.heuristicSolution
          = fun _ => -1) ∨
    ValidPlan 2 1 2 2 pop1 (restart 2 1 w_A [0, 1] [reply_all_ones]
      { UB := MYINFINITY, heuristicSolution := fun _ => -1 }).2.1.heuristicSolution :=
  HessHeuristic_restart_outcome 2 1 2 2 pop1 w_A [0, 1] [reply_all_ones]
    { UB := MYINFINITY, heuristicSolution := fun _ => -1 } (by decide) (by decide)
    (by
      intro r hr centers _ status objVal x hx _
      rw [List.mem_singleton] at hr
      subst hr
      unfold reply_all_ones at hx
      injection hx with _ _ hx
      subst hx
      refine ⟨fun _ _ _ _ => Or.inr rfl, ?_, ?_, ?_⟩
      · intro i _
        simp [X_col_const]
      · intro c _
        simp [X_col_const, pop1]
      · simp [X_col_const])

/-! ## C10: `LocalSearch` never increases `UB` -/

/-- C10: for every input of `LocalSearch` and every behaviour of the solver (any status, a
missing objective, exceptions, a script that is used up), the value of `UB` at the end is at
most its value on entry; `UB` and `heuristicSolution` end as they were on entry unless the
solver reported, with status optimal or time limit, an objective strictly below the `UB` on
entry, and then the final `UB` is such a reported objective; and the step that follows a call
of the solver leaves the variables as they are unless the reply has status optimal or time
limit and an objective strictly below the current `UB`, which becomes the new `UB`. -/
theorem LocalSearch_never_increases_UB (n k : Nat) (nb : Int → List Int) (size : Nat)
    (setup : Bool) (script : List (List Int → Reply)) (inc : Incumbent) :
    (LocalSearch n k nb size setup script inc).2.UB ≤ inc.UB ∧
    ChangedOnlyBelow script inc.UB inc.heuristicSolution
      (LocalSearch n k nb size setup script inc).2.UB
      (LocalSearch n k nb size setup script inc).2.heuristicSolution ∧
    ∀ (c_i : Nat) (u : Int) (rep : Reply) (st : SearchState),
      ((commit n k c_i u rep st).2.1 = false ∧ (commit n k c_i u rep st).2.2 = st) ∨
      ((commit n k c_i u rep st).2.1 = true ∧ ∃ status v x,
        rep = Reply.answered status (some v) x ∧ (status = 2 ∨ status = 9) ∧
        (v : WithTop ℚ) < st.UB ∧ (commit n k c_i u rep st).2.2.UB = (v : WithTop ℚ)) :=
  ⟨(localSearch_changedOnlyBelow n k nb size setup script inc).le,
    localSearch_changedOnlyBelow n k nb size setup script inc,
    fun c_i u rep st => commit_cases n k c_i u rep st⟩

/-! ## C12, C13: the diagonal invariants after `lagrangianBasedSafeFixing` -/

/-- C12: if `S` has exactly `k` true entries, contains every `j` with `F_1[j][j]` and no `j`
with `F_0[j][j]`, then after `lagrangianBasedSafeFixing` every `j` with `F_1[j][j]` is in `S`
and every `j` with `F_0[j][j]` is outside `S`; hence at most `k` indices have `F_1[j][j]` true
and at least `k` indices have `F_0[j][j]` false. -/
theorem safeFixing_keeps_center_count (n k : Nat) (F_0 F_1 : Nat → Nat → Bool)
    (clusters : List (List Nat)) (W : Nat → ℚ) (S : Nat → Bool) (f_val UB : ℚ)
    (wh : Nat → Nat → ℚ)
    (hS : ((Finset.range n).filter (fun j => S j = true)).card = k)
    (h1 : ∀ j < n, F_1 j j = true → S j = true)
    (h0 : ∀ j < n, F_0 j j = true → S j = false) :
    (∀ j < n, (lagrangianBasedSafeFixing n F_0 F_1 clusters W S f_val UB wh).2 j j = true →
      S j = true) ∧
    (∀ j < n, (lagrangianBasedSafeFixing n F_0 F_1 clusters W S f_val UB wh).1 j j = true →
      S j = false) ∧
    ((Finset.range n).filter (fun j =>
      (lagrangianBasedSafeFixing n F_0 F_1 clusters W S f_val UB wh).2 j j = true)).card ≤ k ∧
    k ≤ ((Finset.range n).filter (fun j =>
      (lagrangianBasedSafeFixing n F_0 F_1 clusters W S f_val UB wh).1 j j = false)).card := by
  have hone : ∀ j < n,
      (lagrangianBasedSafeFixing n F_0 F_1 clusters W S f_val UB wh).2 j j = true →
        S j = true := by
    intro j hj h
    rw [lagrangianBasedSafeFixing_snd, Bool.or_eq_true] at h
    rcases h with h | h
    · exact h1 j hj h
    · exact oneRule_S h
  have hzero : ∀ j < n,
      (lagrangianBasedSafeFixing n F_0 F_1 clusters W S f_val UB wh).1 j j = true →
        S j = false := by
    intro j hj h
    rw [lagrangianBasedSafeFixing_fst, Bool.or_eq_true] at h
    rcases h with h | h
    · exact h0 j hj h
    · exact zeroRule_diag h
  refine ⟨hone, hzero, ?_, ?_⟩
  · rw [← hS]
    apply Finset.card_le_card
    intro j hj
    rw [Finset.mem_filter, Finset.mem_range] at hj ⊢
    exact ⟨hj.1, hone j hj.1 hj.2⟩
  · rw [← hS]
    apply Finset.card_le_card
    intro j hj
    rw [Finset.mem_filter, Finset.mem_range] at hj ⊢
    refine ⟨hj.1, ?_⟩
    cases hF : (lagrangianBasedSafeFixing n F_0 F_1 clusters W S f_val UB wh).1 j j with
    | false => rfl
    | true =>
      have := hzero j hj.1 hF
      rw [hj.2] at this
      exact absurd this (by decide)

/-- C12, witness: three units, `S = {0, 1}`, unit `0` a forced center, no forbidden center. -/
theorem safeFixing_keeps_center_count_witness :
    (∀ j < 3, (lagrangianBasedSafeFixing 3 noFix F1_twice clusters_twice W_twice S_twice 0 1
      wh_zero).2 j j = true → S_twice j = true) ∧
    (∀ j < 3, (lagrangianBasedSafeFixing 3 noFix F1_twice clusters_twice W_twice S_twice 0 1
      wh_zero).1 j j = true → S_twice j = false) ∧
    ((Finset.range 3).filter (fun j =>
      (lagrangianBasedSafeFixing 3 noFix F1_twice clusters_twice W_twice S_twice 0 1
        wh_zero).2 j j = true)).card ≤ 2 ∧
    2 ≤ ((Finset.range 3).filter (fun j =>
      (lagrangianBasedSafeFixing 3 noFix F1_twice clusters_twice W_twice S_twice 0 1
        wh_zero).1 j j = false)).card :=
  safeFixing_keeps_center_count 3 2 noFix F1_twice clusters_twice W_twice S_twice 0 1 wh_zero
    (by decide) (by decide) (by decide)

/-- C13: if `F_1[i][j]` implies `F_1[j][j]` for all units `i`, `j`, then the table `F_1` after
`lagrangianBasedSafeFixing` again satisfies it: an entry of column `j` is set together with
the diagonal entry of `j`. -/
theorem safeFixing_keeps_center_implication (n : Nat) (F_0 F_1 : Nat → Nat → Bool)
    (clusters : List (List Nat)) (W : Nat → ℚ) (S : Nat → Bool) (f_val UB : ℚ)
    (wh : Nat → Nat → ℚ) (h : ∀ i < n, ∀ j < n, F_1 i j = true → F_1 j j = true) :
    ∀ i < n, ∀ j < n,
      (lagrangianBasedSafeFixing n F_0 F_1 clusters W S f_val UB wh).2 i j = true →
      (lagrangianBasedSafeFixing n F_0 F_1 clusters W S f_val UB wh).2 j j = true := by
  intro i hi j hj hij
  rw [lagrangianBasedSafeFixing_snd, Bool.or_eq_true] at hij ⊢
  rcases hij with hij | hij
  · exact Or.inl (h i hi j hj hij)
  · exact Or.inr (oneRule_diag hij)

/-- C13, witness: on instance B (three units, empty tables) the call sets `F_1[2][0]`, and
with it `F_1[0][0]`. -/
theorem safeFixing_keeps_center_implication_witness :
    (lagrangianBasedSafeFixing 3 noFix noFix [[0, 2], [1]]
        (eugene_inner 3 mu_B 1 2 2 pop1 w_B noFix noFix).W
        (eugene_inner 3 mu_B 1 2 2 pop1 w_B noFix noFix).S
        (eugene_inner 3 mu_B 1 2 2 pop1 w_B noFix noFix).f_val 1
        (eugene_inner 3 mu_B 1 2 2 pop1 w_B noFix noFix).w_hat).2 2 0 = true ∧
    (lagrangianBasedSafeFixing 3 noFix noFix [[0, 2], [1]]
        (eugene_inner 3 mu_B 1 2 2 pop1 w_B noFix noFix).W
        (eugene_inner 3 mu_B 1 2 2 pop1 w_B noFix noFix).S
        (eugene_inner 3 mu_B 1 2 2 pop1 w_B noFix noFix).f_val 1
        (eugene_inner 3 mu_B 1 2 2 pop1 w_B noFix noFix).w_hat).2 0 0 = true :=
  ⟨safeFixing_B_sets_one,
    safeFixing_keeps_center_implication 3 noFix noFix [[0, 2], [1]]
      (eugene_inner 3 mu_B 1 2 2 pop1 w_B noFix noFix).W
      (eugene_inner 3 mu_B 1 2 2 pop1 w_B noFix noFix).S
      (eugene_inner 3 mu_B 1 2 2 pop1 w_B noFix noFix).f_val 1
      (eugene_inner 3 mu_B 1 2 2 pop1 w_B noFix noFix).w_hat (by decide) 2 (by decide) 0
      (by decide) safeFixing_B_sets_one⟩

/-! ## C15 .. C19: the outputs of `eugene_inner` -/

/-- C15: for `k ≤ n` the value `f_val` returned by `eugene_inner` is the sum of `alpha[i]`
over the units plus the sum of `W[j]` over exactly the indices `j` with `S[j]` true in the
returned `S`, of which there are `k`. -/
theorem eugene_inner_objective (n : Nat) (mu : Nat → ℚ) (L U : ℤ) (k : Nat)
    (population : Nat → ℤ) (w : Nat → Nat → ℚ) (F_0 F_1 : Nat → Nat → Bool) (hk : k ≤ n) :
    (eugene_inner n mu L U k population w F_0 F_1).f_val
      = ∑ i in Finset.range n, alpha mu i
        + ∑ j in (Finset.range n).filter
            (fun j => (eugene_inner n mu L U k population w F_0 F_1).S j = true),
            (eugene_inner n mu L U k population w F_0 F_1).W j ∧
    ((Finset.range n).filter
      (fun j => (eugene_inner n mu L U k population w F_0 F_1).S j = true)).card = k := by
  refine ⟨?_, eugene_inner_S_card n mu L U k population w F_0 F_1 hk⟩
  rw [eugene_inner_S_filter, eugene_inner_f_val, eugene_inner_W]

/-- C15, witness: scenario 2 (four units, two districts) at the zero multipliers. -/
theorem eugene_inner_objective_witness :
    (eugene_inner 4 mu0 20 20 2 pop10 w_scenario2 noFix noFix).f_val
      = ∑ i in Finset.range 4, alpha mu0 i
        + ∑ j in (Finset.range 4).filter
            (fun j => (eugene_inner 4 mu0 20 20 2 pop10 w_scenario2 noFix noFix).S j = true),
            (eugene_inner 4 mu0 20 20 2 pop10 w_scenario2 noFix noFix).W j ∧
    ((Finset.range 4).filter
      (fun j => (eugene_inner 4 mu0 20 20 2 pop10 w_scenario2 noFix noFix).S j = true)).card
        = 2 :=
  eugene_inner_objective 4 mu0 20 20 2 pop10 w_scenario2 noFix noFix (by decide)

/-- C16: the reduced cost computed by `eugene_inner` is
`w[i][j] - alpha[i] - |lambda[j]| * p[i]/L + |upsilon[j]| * p[i]/U`, plus
`|lambda[j]| - |upsilon[j]|` when `i = j`; the macro `abs` is the absolute value for every
sign of its argument. -/
theorem eugene_inner_reduced_cost (n : Nat) (mu : Nat → ℚ) (L U : ℤ) (k : Nat)
    (population : Nat → ℤ) (w : Nat → Nat → ℚ) (F_0 F_1 : Nat → Nat → Bool) (i j : Nat) :
    (eugene_inner n mu L U k population w F_0 F_1).w_hat i j
      = w i j - alpha mu i - |lambda n mu j| * ((population i : ℚ) / (L : ℚ))
        + |upsilon n mu j| * ((population i : ℚ) / (U : ℚ))
        + (if i = j then |lambda n mu j| - |upsilon n mu j| else 0) := by
  rw [eugene_inner_w_hat]
  unfold w_hat
  simp only [cabs_eq]
  split_ifs <;> ring

/-- C17: the column weight computed by `eugene_inner` is `w_hat[j][j]` plus the sum over the
units `i ≠ j` of `0` if `F_0[i][j]`, of `w_hat[i][j]` if `F_1[i][j]` and not `F_0[i][j]`, and
of `min(0, w_hat[i][j])` otherwise. -/
theorem eugene_inner_column_weight (n : Nat) (mu : Nat → ℚ) (L U : ℤ) (k : Nat)
    (population : Nat → ℤ) (w : Nat → Nat → ℚ) (F_0 F_1 : Nat → Nat → Bool) (j : Nat) :
    (eugene_inner n mu L U k population w F_0 F_1).W j
      = (eugene_inner n mu L U k population w F_0 F_1).w_hat j j
        + ∑ i in (Finset.range n).filter (fun i => i ≠ j),
            (if F_0 i j = true then 0
             else if F_1 i j = true then
               (eugene_inner n mu L U k population w F_0 F_1).w_hat i j
             else min 0 ((eugene_inner n mu L U k population w F_0 F_1).w_hat i j)) := by
  rw [eugene_inner_W, eugene_inner_w_hat, W_val_eq, Finset.sum_filter]
  congr 1
  apply Finset.sum_congr rfl
  intro i _
  unfold contribution
  by_cases hij : i = j
  · simp [hij]
  · simp [hij]

/-- C18: for `k ≤ n` and every unit `i`, the entry `grad[i]` returned by `eugene_inner` is `1`
minus the number of indices `j` in the returned `S` with `j = i` or `w_hat[i][j] < 0`. -/
theorem eugene_inner_alpha_block (n : Nat) (mu : Nat → ℚ) (L U : ℤ) (k : Nat)
    (population : Nat → ℤ) (w : Nat → Nat → ℚ) (F_0 F_1 : Nat → Nat → Bool) (hk : k ≤ n)
    (i : Nat) (hi : i < n) :
    (eugene_inner n mu L U k population w F_0 F_1).grad i
      = 1 - (((Finset.range n).filter (fun j =>
          (eugene_inner n mu L U k population w F_0 F_1).S j = true ∧
            (j = i ∨ (eugene_inner n mu L U k population w F_0 F_1).w_hat i j < 0))).card : ℚ)
    := by
  have _ := hk
  have hperm := W_indices_perm n F_0 F_1 (W_val n F_0 F_1 (w_hat n mu L U population w))
  rw [eugene_inner_grad_alpha n mu L U k population w F_0 F_1 hi, eugene_inner_w_hat,
    countP_eq_card _ n _ ((hperm.nodup_iff.mpr (List.nodup_range n)).sublist
      (List.take_sublist k _))
      (fun c hc => List.mem_range.mp (hperm.mem_iff.mp (List.mem_of_mem_take hc)))]
  congr 3
  ext j
  simp only [Finset.mem_filter, Finset.mem_range, eugene_inner_S_iff, counted,
    Bool.or_eq_true, decide_eq_true_eq]
  constructor
  · rintro ⟨h1, h2, h3⟩
    exact ⟨h1, h2, h3.imp (fun h => h.symm) id⟩
  · rintro ⟨h1, h2, h3⟩
    exact ⟨h1, h2, h3.imp (fun h => h.symm) id⟩

/-- C18, witness: scenario 2 at the zero multipliers, unit `0`. -/
theorem eugene_inner_alpha_block_witness :
    (eugene_inner 4 mu0 20 20 2 pop10 w_scenario2 noFix noFix).grad 0
      = 1 - (((Finset.range 4).filter (fun j =>
          (eugene_inner 4 mu0 20 20 2 pop10 w_scenario2 noFix noFix).S j = true ∧
            (j = 0 ∨ (eugene_inner 4 mu0 20 20 2 pop10 w_scenario2 noFix noFix).w_hat 0 j
              < 0))).card : ℚ) :=
  eugene_inner_alpha_block 4 mu0 20 20 2 pop10 w_scenario2 noFix noFix (by decide) 0
    (by decide)

/-- C19: for every unit `j`, with `A_j` the sum of `p[i]/L` and `B_j` the sum of `p[i]/U` over
the units `i` with `i = j` or `w_hat[i][j] < 0`, the entry `grad[n+j]` returned by
`eugene_inner` is `0` if `j` is not in `S` and otherwise `1 - A_j`, negated exactly when
`lambda[j] < 0`; the entry `grad[2n+j]` is `0` if `j` is not in `S` and otherwise `-1 + B_j`,
negated exactly when `upsilon[j] < 0`. -/
theorem eugene_inner_population_blocks (n : Nat) (mu : Nat → ℚ) (L U : ℤ) (k : Nat)
    (population : Nat → ℤ) (w : Nat → Nat → ℚ) (F_0 F_1 : Nat → Nat → Bool) (j : Nat)
    (hj : j < n) :
    (eugene_inner n mu L U k population w F_0 F_1).grad (n + j)
      = (if (eugene_inner n mu L U k population w F_0 F_1).S j = true then
          (if lambda n mu j < 0 then
            -(1 - ∑ i in (Finset.range n).filter (fun i =>
                i = j ∨ (eugene_inner n mu L U k population w F_0 F_1).w_hat i j < 0),
                (population i : ℚ) / (L : ℚ))
           else 1 - ∑ i in (Finset.range n).filter (fun i =>
                i = j ∨ (eugene_inner n mu L U k population w F_0 F_1).w_hat i j < 0),
                (population i : ℚ) / (L : ℚ))
         else 0) ∧
    (eugene_inner n mu L U k population w F_0 F_1).grad (2 * n + j)
      = (if (eugene_inner n mu L U k population w F_0 F_1).S j = true then
          (if upsilon n mu j < 0 then
            -(-1 + ∑ i in (Finset.range n).filter (fun i =>
                i = j ∨ (eugene_inner n mu L U k population w F_0 F_1).w_hat i j < 0),
                (population i : ℚ) / (U : ℚ))
           else -1 + ∑ i in (Finset.range n).filter (fun i =>
                i = j ∨ (eugene_inner n mu L U k population w F_0 F_1).w_hat i j < 0),
                (population i : ℚ) / (U : ℚ))
         else 0) := by
  have hc : ∀ i, (counted (w_hat n mu L U population w) i j = true)
      ↔ (i = j ∨ w_hat n mu L U population w i j < 0) := by
    intro i
    simp [counted]
  constructor
  · rw [eugene_inner_grad_lambda n mu L U k population w F_0 F_1 hj, eugene_inner_w_hat]
    simp only [eugene_inner_S_iff, residualL, Finset.sum_filter, hc]
    split_ifs <;> simp
  · rw [eugene_inner_grad_upsilon n mu L U k population w F_0 F_1 hj, eugene_inner_w_hat]
    simp only [eugene_inner_S_iff, residualU, Finset.sum_filter, hc]
    split_ifs <;> simp

/-- C19, witness: scenario 2 at the zero multipliers, unit `0`. -/
theorem eugene_inner_population_blocks_witness :
    (eugene_inner 4 mu0 20 20 2 pop10 w_scenario2 noFix noFix).grad (4 + 0)
      = (if (eugene_inner 4 mu0 20 20 2 pop10 w_scenario2 noFix noFix).S 0 = true then
          (if lambda 4 mu0 0 < 0 then
            -(1 - ∑ i in (Finset.range 4).filter (fun i =>
                i = 0 ∨ (eugene_inner 4 mu0 20 20 2 pop10 w_scenario2 noFix noFix).w_hat i 0
                  < 0), (pop10 i : ℚ) / ((20 : ℤ) : ℚ))
           else 1 - ∑ i in (Finset.range 4).filter (fun i =>
                i = 0 ∨ (eugene_inner 4 mu0 20 20 2 pop10 w_scenario2 noFix noFix).w_hat i 0
                  < 0), (pop10 i : ℚ) / ((20 : ℤ) : ℚ))
         else 0) ∧
    (eugene_inner 4 mu0 20 20 2 pop10 w_scenario2 noFix noFix).grad (2 * 4 + 0)
      = (if (eugene_inner 4 mu0 20 20 2 pop10 w_scenario2 noFix noFix).S 0 = true then
          (if upsilon 4 mu0 0 < 0 then
            -(-1 + ∑ i in (Finset.range 4).filter (fun i =>
                i = 0 ∨ (eugene_inner 4 mu0 20 20 2 pop10 w_scenario2 noFix noFix).w_hat i 0
                  < 0), (pop10 i : ℚ) / ((20 : ℤ) : ℚ))
           else -1 + ∑ i in (Finset.range 4).filter (fun i =>
                i = 0 ∨ (eugene_inner 4 mu0 20 20 2 pop10 w_scenario2 noFix noFix).w_hat i 0
                  < 0), (pop10 i : ℚ) / ((20 : ℤ) : ℚ))
         else 0) :=
  eugene_inner_population_blocks 4 mu0 20 20 2 pop10 w_scenario2 noFix noFix 0 (by decide)

/-! ## C14: the district numbers written by `run_gurobi` -/

/-- C14: for every solution `x` in which each unit `i` has exactly one `j` with
`x[i][j] > 0.5`, and that `j` has `x[j][j] > 0.5`, the translated `sol[i]` is `1` plus the
number of centers (units `c` with `x[c][c] > 0.5`) whose index is smaller than the center of
`i`; hence the numbers lie between `1` and the number of centers and increase with the index
of the center. -/
theorem run_gurobi_numbering (n : Nat) (x : Nat → Nat → ℚ) (sol0 : Nat → Int)
    (hx : ∀ i < n, ∃ j < n, x i j > 1 / 2 ∧ x j j > 1 / 2 ∧
      ∀ j' < n, x i j' > 1 / 2 → j' = j) :
    (∀ i < n, ∀ j < n, x i j > 1 / 2 →
      run_gurobi_sol n x sol0 i = 1 + (centersBelow x j : Int)) ∧
    (∀ i < n, 1 ≤ run_gurobi_sol n x sol0 i ∧
      run_gurobi_sol n x sol0 i ≤ (centersBelow x n : Int)) ∧
    (∀ i < n, ∀ i' < n, ∀ j < n, ∀ j' < n, x i j > 1 / 2 → x i' j' > 1 / 2 → j < j' →
      run_gurobi_sol n x sol0 i < run_gurobi_sol n x sol0 i') := by
  have main : ∀ i < n, ∀ j < n, x i j > 1 / 2 →
      x j j > 1 / 2 ∧ run_gurobi_sol n x sol0 i = 1 + (centersBelow x j : Int) := by
    intro i hi j hj hij
    obtain ⟨j0, hj0, h1, h2, h3⟩ := hx i hi
    have hjj0 : j = j0 := h3 j hj hij
    subst hjj0
    refine ⟨h2, ?_⟩
    rw [run_gurobi_sol_apply n x sol0 hi hj hij h3, run_gurobi_heads_apply, if_pos ⟨hj, h2⟩]
  refine ⟨fun i hi j hj hij => (main i hi j hj hij).2, ?_, ?_⟩
  · intro i hi
    obtain ⟨j, hj, h1, h2, _⟩ := hx i hi
    rw [(main i hi j hj h1).2]
    have := centersBelow_lt x hj h2
    omega
  · intro i hi i' hi' j hj j' hj' hij hij' hlt
    rw [(main i hi j hj hij).2, (main i' hi' j' hj' hij').2]
    have := centersBelow_lt x hlt (main i hi j hj hij).1
    omega

/-- C14, witness: two units, both in the district of the center `1`. -/
theorem run_gurobi_numbering_witness :
    (∀ i < 2, ∀ j < 2, x_center1 i j > 1 / 2 →
      run_gurobi_sol 2 x_center1 (fun _ => 0) i = 1 + (centersBelow x_center1 j : Int)) ∧
    (∀ i < 2, 1 ≤ run_gurobi_sol 2 x_center1 (fun _ => 0) i ∧
      run_gurobi_sol 2 x_center1 (fun _ => 0) i ≤ (centersBelow x_center1 2 : Int)) ∧
    (∀ i < 2, ∀ i' < 2, ∀ j < 2, ∀ j' < 2, x_center1 i j > 1 / 2 → x_center1 i' j' > 1 / 2 →
      j < j' →
      run_gurobi_sol 2 x_center1 (fun _ => 0) i < run_gurobi_sol 2 x_center1 (fun _ => 0) i') :=
  run_gurobi_numbering 2 x_center1 (fun _ => 0)
    (by
      intro i _
      refine ⟨1, by decide, ?_, ?_, ?_⟩
      · simp only [x_center1, if_true]
        norm_num
      · simp only [x_center1, if_true]
        norm_num
      · intro j' _ h
        by_contra hne
        simp only [x_center1, if_neg hne] at h
        norm_num at h)

/-! ## C20: the variable map of the full model -/

/-- C11, counterexample: on the path `0 - 1 - 2` with the plan of three districts of one unit
each (centers `0, 1, 2`) and a solver that never improves the bound, one run of `LocalSearch`
calls the solver for the candidates `[1, 1, 2]`, `[0, 0, 2]`, `[0, 2, 2]` and `[0, 1, 1]`: the
second and the third call are for the same set of centers `{0, 2}`. -/
theorem LocalSearch_same_set_twice :
    ValidPlan 3 3 1 1 pop1 inc_singletons.heuristicSolution ∧
    LocalSearch_calls 3 3 nb_path3 3 true
        [reply_no_gain, reply_no_gain, reply_no_gain, reply_no_gain] inc_singletons
      = [[1, 1, 2], [0, 0, 2], [0, 2, 2], [0, 1, 1]] ∧
    ([0, 0, 2] : List Int).toFinset = ([0, 2, 2] : List Int).toFinset ∧
    ([0, 0, 2] : List Int) ≠ [0, 2, 2] :=
  ⟨by unfold inc_singletons; decide, localSearch_calls_path3, by decide, by decide⟩

/-- C11, amended: the key `centers_to_string` is the same for two center vectors exactly if
they are rearrangements of one another; the solver is called for a candidate vector only if its
key is not in the table of the keys (a candidate whose key is in the table is skipped, and the
keys of the vectors for which the loop calls the solver are not in the table at the start of
the loop); hence no two calls of the solver in one run of `LocalSearch` are issued for vectors
that are rearrangements of one another, in particular not for two duplicate-free vectors with
the same set of centers. -/
theorem LocalSearch_memoization (n k : Nat) (nb : Int → List Int) (size : Nat) (setup : Bool)
    (script : List (List Int → Reply)) (inc : Incumbent) :
    (∀ a b : List Int, centers_to_string a = centers_to_string b ↔ a.Perm b) ∧
    (∀ (c_i : Nat) (u : Int) (cands : List (Nat × Int)) (script' : List (List Int → Reply))
      (st : SearchState), centers_to_string (st.centers.set c_i u) ∈ st.htbl →
        search_trace n k nb ((c_i, u) :: cands) script' st
          = search_trace n k nb cands script' st) ∧
    (∀ (cands : List (Nat × Int)) (script' : List (List Int → Reply)) (st : SearchState),
      ∀ c ∈ (search_trace n k nb cands script' st).2, centers_to_string c ∉ st.htbl) ∧
    (LocalSearch_calls n k nb size setup script inc).Pairwise (fun a b => ¬a.Perm b) ∧
    (LocalSearch_calls n k nb size setup script inc).Pairwise
      (fun a b => a.Nodup → b.Nodup → a.toFinset ≠ b.toFinset) := by
  have hp := nodup_map_pairwise_not_perm _
    (localSearch_calls_keys_nodup n k nb size setup script inc)
  refine ⟨centers_to_string_eq_iff, ?_, ?_, hp, ?_⟩
  · intro c_i u cands script' st hseen
    rw [search_trace.eq_2, if_pos hseen]
  · intro cands script' st
    exact (search_trace_fresh n k nb cands script' st).2
  · refine hp.imp ?_
    intro a b hab ha hb heq
    exact hab (List.perm_of_nodup_nodup_toFinset_eq ha hb heq)

/-! ## C22, C23: the exact fixing rules -/

/-- C22: with `maxW` the maximum of `W[j]` over the `j` in `S` with `F1[j][j]` false in the
input tables (minus infinity if there is none, in which case the tests with `maxW` hold),
after `lagrangianBasedSafeFixing` the entry `F0[i][j]` is true if and only if it was true
before, or `j` is outside `S` and `f_val + W[j] - maxW > UB`, or `i ≠ j`, `j` is outside `S`
and `f_val + W[j] - maxW + max(0, w_hat[i][j]) > UB`, or `i ≠ j`, `j` is in `S` and
`f_val + max(0, w_hat[i][j]) > UB`; no entry of `F0` is cleared. -/
theorem safeFixing_zero_rule (n : Nat) (F_0 F_1 : Nat → Nat → Bool)
    (clusters : List (List Nat)) (W : Nat → ℚ) (S : Nat → Bool) (f_val UB : ℚ)
    (wh : Nat → Nat → ℚ) :
    (∀ i < n, ∀ j < n,
      ((lagrangianBasedSafeFixing n F_0 F_1 clusters W S f_val UB wh).1 i j = true ↔
        (F_0 i j = true ∨
          (S j = false ∧
            ∀ m : ℚ, maxW_spec n F_1 W S = (m : WithBot ℚ) → f_val + W j - m > UB) ∨
          (i ≠ j ∧ S j = false ∧
            ∀ m : ℚ, maxW_spec n F_1 W S = (m : WithBot ℚ) →
              f_val + W j - m + max 0 (wh i j) > UB) ∨
          (i ≠ j ∧ S j = true ∧ f_val + max 0 (wh i j) > UB)))) ∧
    (∀ i j, F_0 i j = true →
      (lagrangianBasedSafeFixing n F_0 F_1 clusters W S f_val UB wh).1 i j = true) := by
  constructor
  · intro i hi j hj
    rw [lagrangianBasedSafeFixing_fst, Bool.or_eq_true, zeroRule_iff, infGt_infSub_iff,
      infGt_infAdd_infSub_iff, compute_maxW_spec, cmax_eq]
    constructor
    · rintro (h | ⟨_, _, h | ⟨hne, h | h⟩⟩)
      · exact Or.inl h
      · exact Or.inr (Or.inl h)
      · exact Or.inr (Or.inr (Or.inl ⟨hne, h⟩))
      · exact Or.inr (Or.inr (Or.inr ⟨hne, h⟩))
    · rintro (h | h | ⟨hne, h⟩ | ⟨hne, h⟩)
      · exact Or.inl h
      · exact Or.inr ⟨hi, hj, Or.inl h⟩
      · exact Or.inr ⟨hi, hj, Or.inr ⟨hne, Or.inl h⟩⟩
      · exact Or.inr ⟨hi, hj, Or.inr ⟨hne, Or.inr h⟩⟩
  · intro i j h
    rw [lagrangianBasedSafeFixing_fst, h]
    rfl

/-- C23: with `minW` the minimum of `W[j]` over the `j` outside `S` with `F0[j][j]` false in
the input tables (plus infinity if there is none, in which case the test with `minW` holds),
after `lagrangianBasedSafeFixing` the entry `F1[i][j]` is true if and only if it was true
before, or `j` is in `S`, `f_val - W[j] + minW > UB` and some cluster contains both `i` and
`j`; no entry of `F1` is cleared, and `minW` is computed from the input table `F0`, not from
the table that the zero-fixing loop has updated. -/
theorem safeFixing_one_rule (n : Nat) (F_0 F_1 : Nat → Nat → Bool)
    (clusters : List (List Nat)) (W : Nat → ℚ) (S : Nat → Bool) (f_val UB : ℚ)
    (wh : Nat → Nat → ℚ) :
    (∀ i j,
      ((lagrangianBasedSafeFixing n F_0 F_1 clusters W S f_val UB wh).2 i j = true ↔
        (F_1 i j = true ∨
          (S j = true ∧
            (∀ m : ℚ, minW_spec n F_0 W S = (m : WithTop ℚ) → f_val - W j + m > UB) ∧
            ∃ c ∈ clusters, i ∈ c ∧ j ∈ c)))) ∧
    (∀ i j, F_1 i j = true →
      (lagrangianBasedSafeFixing n F_0 F_1 clusters W S f_val UB wh).2 i j = true) ∧
    (lagrangianBasedSafeFixing n F_0 F_1 clusters W S f_val UB wh).2
      = fixOnes clusters W S f_val UB (compute_minW n F_0 W S) F_1 := by
  refine ⟨?_, ?_, rfl⟩
  · intro i j
    rw [lagrangianBasedSafeFixing_snd, Bool.or_eq_true]
    unfold oneRule
    rw [Bool.and_eq_true, Bool.and_eq_true, infGt_infRAdd_iff, compute_minW_spec,
      List.any_eq_true]
    simp only [Bool.and_eq_true, decide_eq_true_eq]
    constructor
    · rintro (h | ⟨hc, hS, h⟩)
      · exact Or.inl h
      · exact Or.inr ⟨hS, h, hc⟩
    · rintro (h | ⟨hS, h, hc⟩)
      · exact Or.inl h
      · exact Or.inr ⟨hc, hS, h⟩
  · intro i j h
    rw [lagrangianBasedSafeFixing_snd, h]
    rfl

/-! ## C21: the parameters of the restricted model -/

/-- C26: for every non-empty district `D` (the units that the solution assigns to the current
center `centers[j_i]`), the computed `bestCenter` is a unit `b` of `D` whose cost
`∑_{v ∈ D} w[v][b]` is at most the cost of every unit of `D`, the smallest such unit on ties;
the pass replaces `centers[j_i]` by `b` and sets `centersChange` exactly when `b` differs from
the current center. -/
theorem recentring_step (n : Nat) (w : Nat → Nat → ℚ) (p : hess_params) (x : Nat → ℚ)
    (centers : List Int) (hs : Nat → Int) (centersChange : Bool) (j_i : Nat)
    (hens : (List.range n).all (fun (i : Nat) => ENSURE p (i : Int) (centers.getD j_i 0)) = true)
    (hD : districtOf n p x (centers.getD j_i 0) ≠ []) :
    ∃ b ∈ districtOf n p x (centers.getD j_i 0),
      (bestCenterOf w (districtOf n p x (centers.getD j_i 0))).1 = (b : Int) ∧
      (∀ c ∈ districtOf n p x (centers.getD j_i 0),
        ((districtOf n p x (centers.getD j_i 0)).map (fun v => w v b)).sum
          ≤ ((districtOf n p x (centers.getD j_i 0)).map (fun v => w v c)).sum) ∧
      (∀ c ∈ districtOf n p x (centers.getD j_i 0),
        ((districtOf n p x (centers.getD j_i 0)).map (fun v => w v c)).sum
          = ((districtOf n p x (centers.getD j_i 0)).map (fun v => w v b)).sum → b ≤ c) ∧
      recenter_step n w p x (some (centers, hs, centersChange)) j_i
        = some (if centers.getD j_i 0 ≠ (b : Int) then centers.set j_i (b : Int) else centers,
            (districtOf n p x (centers.getD j_i 0)).foldl
              (fun hs i => Function.update hs i (centers.getD j_i 0)) hs,
            (centersChange || decide (centers.getD j_i 0 ≠ (b : Int)))) := by
  obtain ⟨pre, b, post, hl, hbest, hmin, hpre⟩ :=
    bestCenterOf_spec w (districtOf n p x (centers.getD j_i 0)) hD
  have hbD : b ∈ districtOf n p x (centers.getD j_i 0) := by
    rw [hl]
    exact List.mem_append_right _ (List.mem_cons_self b post)
  have hb1 : (bestCenterOf w (districtOf n p x (centers.getD j_i 0))).1 = (b : Int) := by
    rw [hbest]
  refine ⟨b, hbD, hb1, hmin, ?_, ?_⟩
  · intro c hc heq
    have hsorted := districtOf_sorted n p x (centers.getD j_i 0)
    rw [hl] at hc hsorted
    rcases List.mem_append.mp hc with hc | hc
    · exact absurd heq (ne_of_gt (hpre c hc))
    · rcases List.mem_cons.mp hc with rfl | hc
      · exact le_refl _
      · exact le_of_lt ((List.pairwise_cons.mp (List.pairwise_append.mp hsorted).2.1).1 c hc)
  · unfold recenter_step
    simp only [hens, if_true, hb1]
    by_cases hne : centers.getD j_i 0 = (b : Int)
    · rw [if_neg (not_not.mpr hne), if_neg (not_not.mpr hne),
        decide_eq_false (not_not.mpr hne), Bool.or_false]
    · rw [if_pos hne, if_pos hne, decide_eq_true hne, Bool.or_true]

/-- C26, witness: on instance A the solution assigns both units to the center `0`, which is
the best center of the district. -/
theorem recentring_step_witness :
    ∃ b ∈ districtOf 2 (populate_hess_params 2 [0]) (fun _ => 1) (([0] : List Int).getD 0 0),
      (bestCenterOf w_A
        (districtOf 2 (populate_hess_params 2 [0]) (fun _ => 1) (([0] : List Int).getD 0 0))).1
          = (b : Int) ∧
      (∀ c ∈ districtOf 2 (populate_hess_params 2 [0]) (fun _ => 1) (([0] : List Int).getD 0 0),
        ((districtOf 2 (populate_hess_params 2 [0]) (fun _ => 1)
            (([0] : List Int).getD 0 0)).map (fun v => w_A v b)).sum
          ≤ ((districtOf 2 (populate_hess_params 2 [0]) (fun _ => 1)
            (([0] : List Int).getD 0 0)).map (fun v => w_A v c)).sum) ∧
      (∀ c ∈ districtOf 2 (populate_hess_params 2 [0]) (fun _ => 1) (([0] : List Int).getD 0 0),
        ((districtOf 2 (populate_hess_params 2 [0]) (fun _ => 1)
            (([0] : List Int).getD 0 0)).map (fun v => w_A v c)).sum
          = ((districtOf 2 (populate_hess_params 2 [0]) (fun _ => 1)
            (([0] : List Int).getD 0 0)).map (fun v => w_A v b)).sum → b ≤ c) ∧
      recenter_step 2 w_A (populate_hess_params 2 [0]) (fun _ => 1)
          (some ([0], fun _ => -1, false)) 0
        = some (if ([0] : List Int).getD 0 0 ≠ (b : Int) then ([0] : List Int).set 0 (b : Int)
              else [0],
            (districtOf 2 (populate_hess_params 2 [0]) (fun _ => 1)
              (([0] : List Int).getD 0 0)).foldl
              (fun hs i => Function.update hs i (([0] : List Int).getD 0 0)) (fun _ => -1),
            (false || decide (([0] : List Int).getD 0 0 ≠ (b : Int)))) :=
  recentring_step 2 w_A (populate_hess_params 2 [0]) (fun _ => 1) [0] (fun _ => -1) false 0
    (ENSURE_all (by unfold ValidCenters; decide : ValidCenters 2 1 [0]) (by decide))
    (by
      show districtOf 2 (populate_hess_params 2 [0]) (fun _ => 1) 0 ≠ []
      rw [districtOf_all_ones]
      exact List.cons_ne_nil _ _)

/-! ## C27: the supergradient inequality for non-negative multipliers -/

/-- C27: with empty tables `F0` and `F1`, for every `mu` and `mu'` whose `lambda` and `upsilon`
blocks are non-negative, the values and the gradient returned by `eugene_inner` satisfy
`f(mu') ≤ f(mu) + <g(mu), mu' - mu>`. -/
theorem eugene_inner_supergradient_nonneg (n k : Nat) (L U : ℤ) (population : Nat → ℤ)
    (w : Nat → Nat → ℚ) (mu mu' : Nat → ℚ)
    (hmu : ∀ j < n, 0 ≤ lambda n mu j ∧ 0 ≤ upsilon n mu j)
    (hmu' : ∀ j < n, 0 ≤ lambda n mu' j ∧ 0 ≤ upsilon n mu' j) :
    (eugene_inner n mu' L U k population w noFix noFix).f_val
      ≤ (eugene_inner n mu L U k population w noFix noFix).f_val
        + ∑ t in Finset.range (3 * n),
            (eugene_inner n mu L U k population w noFix noFix).grad t * (mu' t - mu t) := by
  apply supergradient_core
  intro j hj
  refine ⟨fun h => absurd (hmu j hj).1 (not_le.mpr h), fun _ => (hmu' j hj).1,
    fun h => absurd (hmu j hj).2 (not_le.mpr h), fun _ => (hmu' j hj).2⟩

/-- C27, witness: instance B (three units, two districts), from `mu = 0` to
`alpha = (2, 0, 0)`. -/
theorem eugene_inner_supergradient_nonneg_witness :
    (eugene_inner 3 mu_B 1 2 2 pop1 w_B noFix noFix).f_val
      ≤ (eugene_inner 3 mu0 1 2 2 pop1 w_B noFix noFix).f_val
        + ∑ t in Finset.range (3 * 3),
            (eugene_inner 3 mu0 1 2 2 pop1 w_B noFix noFix).grad t * (mu_B t - mu0 t) :=
  eugene_inner_supergradient_nonneg 3 2 1 2 pop1 w_B mu0 mu_B
    (by intro j _; simp [lambda, upsilon, mu0])
    (by
      intro j _
      have h1 : 3 + j ≠ 0 := by omega
      have h2 : 2 * 3 + j ≠ 0 := by omega
      simp [lambda, upsilon, mu_B, h1, h2])

/-! ## C28: the comparator of the sort -/

/-- C28: if no index below `n` has both `F0[j][j]` and `F1[j][j]`, the comparator of the sort
in `eugene_inner` is a strict weak ordering on the indices below `n`: irreflexive,
asymmetric, transitive, and with transitive incomparability. If an index has both flags and
another has exactly one of them, the comparator holds in both directions between the two, so
it is not asymmetric. -/
theorem W_comp_strict_weak_order (n : Nat) (F_0 F_1 : Nat → Nat → Bool) (W : Nat → ℚ) :
    ((∀ j < n, ¬(F_0 j j = true ∧ F_1 j j = true)) →
      (∀ x < n, W_comp F_0 F_1 W x x = false) ∧
      (∀ x < n, ∀ y < n, W_comp F_0 F_1 W x y = true → W_comp F_0 F_1 W y x = false) ∧
      (∀ x < n, ∀ y < n, ∀ z < n, W_comp F_0 F_1 W x y = true → W_comp F_0 F_1 W y z = true →
        W_comp F_0 F_1 W x z = true) ∧
      (∀ x < n, ∀ y < n, ∀ z < n,
        (W_comp F_0 F_1 W x y = false ∧ W_comp F_0 F_1 W y x = false) →
        (W_comp F_0 F_1 W y z = false ∧ W_comp F_0 F_1 W z y = false) →
        (W_comp F_0 F_1 W x z = false ∧ W_comp F_0 F_1 W z x = false))) ∧
    (∀ a b, F_0 a a = true → F_1 a a = true → F_0 b b ≠ F_1 b b →
      W_comp F_0 F_1 W a b = true ∧ W_comp F_0 F_1 W b a = true) := by
  constructor
  · intro hc
    refine ⟨?_, ?_, ?_, ?_⟩
    · intro x hx
      rw [Bool.eq_false_iff, Ne, W_comp_iff (hc x hx) (hc x hx)]
      rintro (h | ⟨_, h⟩)
      · exact lt_irrefl _ h
      · exact lt_irrefl _ h
    · intro x hx y hy h
      exact W_comp_asymm hc x y hx hy h
    · intro x hx y hy z hz hxy hyz
      rw [W_comp_iff (hc x hx) (hc y hy)] at hxy
      rw [W_comp_iff (hc y hy) (hc z hz)] at hyz
      rw [W_comp_iff (hc x hx) (hc z hz)]
      rcases hxy with h1 | ⟨h1, h2⟩ <;> rcases hyz with h3 | ⟨h3, h4⟩
      · exact Or.inl (lt_trans h1 h3)
      · exact Or.inl (h3 ▸ h1)
      · exact Or.inl (h1 ▸ h3)
      · exact Or.inr ⟨h1.trans h3, lt_trans h2 h4⟩
    · intro x hx y hy z hz hxy hyz
      rw [W_comp_incomparable_iff hc hx hy] at hxy
      rw [W_comp_incomparable_iff hc hy hz] at hyz
      rw [W_comp_incomparable_iff hc hx hz]
      exact ⟨hxy.1.trans hyz.1, hxy.2.trans hyz.2⟩
  · intro a b ha0 ha1 hb
    unfold W_comp boolToInt
    cases hb0 : F_0 b b <;> cases hb1 : F_1 b b <;> simp_all

/-- C28, witness: three units with the single flag `F_1[0][0]`, and no index with both
flags. -/
theorem W_comp_strict_weak_order_witness :
    (∀ x < 3, W_comp noFix F1_twice W_twice x x = false) ∧
    (∀ x < 3, ∀ y < 3, W_comp noFix F1_twice W_twice x y = true →
      W_comp noFix F1_twice W_twice y x = false) ∧
    (∀ x < 3, ∀ y < 3, ∀ z < 3, W_comp noFix F1_twice W_twice x y = true →
      W_comp noFix F1_twice W_twice y z = true → W_comp noFix F1_twice W_twice x z = true) ∧
    (∀ x < 3, ∀ y < 3, ∀ z < 3,
      (W_comp noFix F1_twice W_twice x y = false ∧ W_comp noFix F1_twice W_twice y x = false) →
      (W_comp noFix F1_twice W_twice y z = false ∧ W_comp noFix F1_twice W_twice z y = false) →
      (W_comp noFix F1_twice W_twice x z = false ∧ W_comp noFix F1_twice W_twice z x = false)) :=
  (W_comp_strict_weak_order 3 noFix F1_twice W_twice).1 (by decide)

/-! ## C29: `SimpleRNG` -/

/-- C29: for every 32-bit state `(m_w, m_z)` the updates `36969*(m_z & 65535) + (m_z >> 16)`
and `18000*(m_w & 65535) + (m_w >> 16)` of `GetUint` do not exceed `2^32 - 1`, each new
component of the state is zero if and only if the old one was, the returned `u` is below
`2^32`, and `GetUniform` returns `(u + 1)` times the scaling constant, a value strictly
between `0` and `1`. -/
theorem SimpleRNG_state_and_range (m_w m_z : Nat) (hw : m_w < 2 ^ 32) (hz : m_z < 2 ^ 32) :
    36969 * (m_z &&& 65535) + (m_z >>> 16) ≤ 2 ^ 32 - 1 ∧
    18000 * (m_w &&& 65535) + (m_w >>> 16) ≤ 2 ^ 32 - 1 ∧
    (GetUint m_w m_z).1.2 = 36969 * (m_z &&& 65535) + (m_z >>> 16) ∧
    (GetUint m_w m_z).1.1 = 18000 * (m_w &&& 65535) + (m_w >>> 16) ∧
    ((GetUint m_w m_z).1.2 = 0 ↔ m_z = 0) ∧
    ((GetUint m_w m_z).1.1 = 0 ↔ m_w = 0) ∧
    (GetUint m_w m_z).2 < 2 ^ 32 ∧
    (GetUniform m_w m_z).2
      = (((GetUint m_w m_z).2 : ℚ) + 1) * (2328306435454494 / 10 ^ 25) ∧
    0 < (GetUniform m_w m_z).2 ∧ (GetUniform m_w m_z).2 < 1 := by
  have hu : (GetUint m_w m_z).2 < 2 ^ 32 := Nat.mod_lt _ (by norm_num)
  have hz' : 36969 * (m_z &&& 65535) + (m_z >>> 16) ≤ 2 ^ 32 - 1 := by
    rw [and_65535, shiftRight_16]
    omega
  have hw' : 18000 * (m_w &&& 65535) + (m_w >>> 16) ≤ 2 ^ 32 - 1 := by
    rw [and_65535, shiftRight_16]
    omega
  have ez : (GetUint m_w m_z).1.2 = 36969 * (m_z &&& 65535) + (m_z >>> 16) :=
    Nat.mod_eq_of_lt (by omega)
  have ew : (GetUint m_w m_z).1.1 = 18000 * (m_w &&& 65535) + (m_w >>> 16) :=
    Nat.mod_eq_of_lt (by omega)
  have key : ∀ u : Nat, u < 2 ^ 32 →
      0 < ((u : ℚ) + 1) * (2328306435454494 / 10 ^ 25) ∧
      ((u : ℚ) + 1) * (2328306435454494 / 10 ^ 25) < 1 := by
    intro u hu
    constructor
    · positivity
    · have h1 : (u : ℚ) + 1 ≤ 4294967296 := by
        have : u + 1 ≤ 4294967296 := by omega
        exact_mod_cast this
      calc ((u : ℚ) + 1) * (2328306435454494 / 10 ^ 25)
          ≤ 4294967296 * (2328306435454494 / 10 ^ 25) :=
            mul_le_mul_of_nonneg_right h1 (by positivity)
        _ < 1 := by norm_num
  refine ⟨hz', hw', ez, ew, ?_, ?_, hu, rfl, ?_, ?_⟩
  · rw [ez, and_65535, shiftRight_16]
    omega
  · rw [ew, and_65535, shiftRight_16]
    omega
  · unfold GetUniform
    exact (key _ hu).1
  · unfold GetUniform
    exact (key _ hu).2

/-- C29, witness: the initial state of `SimpleRNG`. -/
theorem SimpleRNG_state_and_range_witness :
    36969 * (362436069 &&& 65535) + (362436069 >>> 16) ≤ 2 ^ 32 - 1 ∧
    18000 * (521288629 &&& 65535) + (521288629 >>> 16) ≤ 2 ^ 32 - 1 ∧
    (GetUint 521288629 362436069).1.2 = 36969 * (362436069 &&& 65535) + (362436069 >>> 16) ∧
    (GetUint 521288629 362436069).1.1 = 18000 * (521288629 &&& 65535) + (521288629 >>> 16) ∧
    ((GetUint 521288629 362436069).1.2 = 0 ↔ 362436069 = 0) ∧
    ((GetUint 521288629 362436069).1.1 = 0 ↔ 521288629 = 0) ∧
    (GetUint 521288629 362436069).2 < 2 ^ 32 ∧
    (GetUniform 521288629 362436069).2
      = (((GetUint 521288629 362436069).2 : ℚ) + 1) * (2328306435454494 / 10 ^ 25) ∧
    0 < (GetUniform 521288629 362436069).2 ∧ (GetUniform 521288629 362436069).2 < 1 :=
  SimpleRNG_state_and_range 521288629 362436069 (by norm_num) (by norm_num)

/-! ## C24, C25: the components and their interiors in `ContiguityHeuristic` -/

/-- C24: for every graph (the neighbours of a unit are units) and every plan whose
self-assigned units are the `k` centers, the DFS of `ContiguityHeuristic` for the center
`centers[j]` ends (with fuel `n` or more), and the list `J[j]` contains, each exactly once,
precisely the units that are reachable from `centers[j]` by a path through neighbours
assigned to `centers[j]`; the lists of two different centers have no unit in common. -/
theorem ContiguityHeuristic_components (n k : Nat) (nb : Nat → List Nat) (hs : Nat → Int)
    (fuel : Nat) (hk : (find_centers n hs).length = k) (hnb : ∀ v < n, ∀ u ∈ nb v, u < n)
    (hf : n ≤ fuel) (j : Nat) (hj : j < k) :
    ∃ J, component n nb hs ((find_centers n hs).getD j 0) fuel = some J ∧ J.Nodup ∧
      (∀ v, v ∈ J ↔
        Relation.ReflTransGen
          (fun a b => b ∈ nb a ∧ hs b = (((find_centers n hs).getD j 0 : Nat) : Int))
          ((find_centers n hs).getD j 0) v) ∧
      ∀ j' < k, j' ≠ j → ∀ J',
        component n nb hs ((find_centers n hs).getD j' 0) fuel = some J' →
          ∀ v ∈ J, v ∉ J' := by
  have hcenter : ∀ t < k, (find_centers n hs).getD t 0 < n ∧
      hs ((find_centers n hs).getD t 0) = (((find_centers n hs).getD t 0 : Nat) : Int) := by
    intro t ht
    have ht' : t < (find_centers n hs).length := by rw [hk]; exact ht
    rw [List.getD_eq_getElem _ _ ht']
    exact (mem_find_centers n hs _).mp (List.getElem_mem ht')
  obtain ⟨J, h1, h2, h3, _, h5⟩ :=
    component_spec (hcenter j hj).1 (hcenter j hj).2 hnb fuel hf
  refine ⟨J, h1, h2, h5, ?_⟩
  intro j' hj' hne J' hJ' v hv hv'
  obtain ⟨J'', g1, _, g3, _, _⟩ := component_spec (hcenter j' hj').1 (hcenter j' hj').2 hnb fuel hf
  rw [g1] at hJ'
  have hJJ : J'' = J' := Option.some.inj hJ'
  rw [← hJJ] at hv'
  have e1 := (h3 v hv).2
  have e2 := (g3 v hv').2
  have e3 : (find_centers n hs).getD j 0 = (find_centers n hs).getD j' 0 := by
    have := e1.symm.trans e2
    exact_mod_cast this
  have a1 : j < (find_centers n hs).length := by rw [hk]; exact hj
  have a2 : j' < (find_centers n hs).length := by rw [hk]; exact hj'
  rw [List.getD_eq_getElem _ _ a1, List.getD_eq_getElem _ _ a2] at e3
  exact hne ((List.Nodup.getElem_inj_iff (find_centers_nodup n hs)).mp e3).symm

/-- C24, witness: two units joined by an edge, both assigned to the center `0`. -/
theorem ContiguityHeuristic_components_witness :
    ∃ J, component 2 nb_pair hs_zero ((find_centers 2 hs_zero).getD 0 0) 2 = some J ∧ J.Nodup ∧
      (∀ v, v ∈ J ↔
        Relation.ReflTransGen
          (fun a b => b ∈ nb_pair a ∧
            hs_zero b = (((find_centers 2 hs_zero).getD 0 0 : Nat) : Int))
          ((find_centers 2 hs_zero).getD 0 0) v) ∧
      ∀ j' < 1, j' ≠ 0 → ∀ J',
        component 2 nb_pair hs_zero ((find_centers 2 hs_zero).getD j' 0) 2 = some J' →
          ∀ v ∈ J, v ∉ J' :=
  ContiguityHeuristic_components 2 1 nb_pair hs_zero 2 (by decide) (by decide) (by decide) 0
    (by decide)

/-- C25: for every graph and plan as in C24, the list `interiorOfJ[j]` holds exactly the units
of `J[j]` all of whose neighbours belong to `J[j]`: a neighbour of a unit of `J[j]` is
assigned to `centers[j]`, which is what the code tests, exactly if it is in `J[j]`. -/
theorem ContiguityHeuristic_interior (n k : Nat) (nb : Nat → List Nat) (hs : Nat → Int)
    (fuel : Nat) (hk : (find_centers n hs).length = k) (hnb : ∀ v < n, ∀ u ∈ nb v, u < n)
    (hf : n ≤ fuel) (j : Nat) (hj : j < k) :
    ∃ J, component n nb hs ((find_centers n hs).getD j 0) fuel = some J ∧
      ∀ i, i ∈ interiorOf nb hs ((find_centers n hs).getD j 0) J ↔
        (i ∈ J ∧ ∀ u ∈ nb i, u ∈ J) := by
  have hj' : j < (find_centers n hs).length := by rw [hk]; exact hj
  have hcenter : (find_centers n hs).getD j 0 < n ∧
      hs ((find_centers n hs).getD j 0) = (((find_centers n hs).getD j 0 : Nat) : Int) := by
    rw [List.getD_eq_getElem _ _ hj']
    exact (mem_find_centers n hs _).mp (List.getElem_mem hj')
  obtain ⟨J, h1, _, h3, h4, _⟩ := component_spec hcenter.1 hcenter.2 hnb fuel hf
  refine ⟨J, h1, ?_⟩
  intro i
  unfold interiorOf
  rw [List.mem_filter, decide_eq_true_eq,
    count_eq_length_iff (fun u => hs u = (((find_centers n hs).getD j 0 : Nat) : Int))]
  constructor
  · rintro ⟨hi, hall⟩
    exact ⟨hi, fun u hu => h4 i hi u hu (hall u hu)⟩
  · rintro ⟨hi, hall⟩
    exact ⟨hi, fun u hu => (h3 u (hall u hu)).2⟩

/-- C25, witness: two units joined by an edge, both assigned to the center `0`. -/
theorem ContiguityHeuristic_interior_witness :
    ∃ J, component 2 nb_pair hs_zero ((find_centers 2 hs_zero).getD 0 0) 2 = some J ∧
      ∀ i, i ∈ interiorOf nb_pair hs_zero ((find_centers 2 hs_zero).getD 0 0) J ↔
        (i ∈ J ∧ ∀ u ∈ nb_pair i, u ∈ J) :=
  ContiguityHeuristic_interior 2 1 nb_pair hs_zero 2 (by decide) (by decide) (by decide) 0
    (by decide)

end Districting
